import Mathlib

/-!
Verification development for the Chronos kernel (RISC-V SV39 toy OS).

Shallow embedding of the memory subsystem (frame allocator, SV39 page
table, memory set), the timer/trap scheduling decision, and the memory
and write system calls, translated from the Rust sources under
src/kernel/src.  Machine words are modelled as Nat with explicit
truncation (x % 2 ^ w) where the Rust code can overflow; bit masks
x &&& (2 ^ k - 1) are written x % 2 ^ k and shifts as division or
multiplication by powers of two, which are definitionally equal views
of the same usize operations.  Physical memory is split in two views:
the page-table words of each frame (one array of 512 PTEs per page)
and the raw bytes of each frame; the kernel reads a frame through
exactly one of the two views at a time, so the split is faithful.
Fallible paths (Rust panics, Err returns) are modelled with Option.
-/

namespace Chronos

/-- PAGE_SIZE from config.rs: pages are 4 KiB. -/
def PAGE_SIZE : Nat := 4096

/-- Construction of a page-table entry word, from
PageTableEntry::new_with_ppn in page_table.rs: bits = (ppn << 10) | flags
on usize, with flags a u8.  On Nat this is ppn % 2^54 * 1024 + flags % 256
(the shifted ppn wraps mod 2^64 and the low ten bits are free). -/
def pteNew (ppn flags : Nat) : Nat := ppn % 2 ^ 54 * 1024 + flags % 256

/-- Extraction of the PPN field, from PageTableEntry::ppn:
(bits >> 10) & 0x0FFF_FFFF_FFFF. -/
def ptePpn (e : Nat) : Nat := e / 1024 % 2 ^ 44

/-- Extraction of the flags byte, from PageTableEntry::flags:
bits & 0xFF. -/
def pteFlags (e : Nat) : Nat := e % 256

/-- Validity test, from PageTableEntry::is_valid: the V flag is bit 0. -/
def pteValid (e : Nat) : Bool := e % 2 = 1

/-- Leaf test, from PageTableEntry::is_leaf: any of R (bit 1), W (bit 2),
X (bit 3) set. -/
def pteLeaf (e : Nat) : Bool := e / 2 % 8 ≠ 0

/-- Valid non-leaf entries are the branch pointers of the radix tree. -/
def pteBranch (e : Nat) : Bool := pteValid e && !pteLeaf e

/-- SV39 index of level 2 (the root level), from VirtPageNum::indexes:
(vpn >> 18) & 0x1FF. -/
def idx0 (v : Nat) : Nat := v / 2 ^ 18 % 512

/-- SV39 index of level 1, from VirtPageNum::indexes: (vpn >> 9) & 0x1FF. -/
def idx1 (v : Nat) : Nat := v / 2 ^ 9 % 512

/-- SV39 index of level 0 (the leaf level), from VirtPageNum::indexes:
vpn & 0x1FF. -/
def idx2 (v : Nat) : Nat := v % 512

/-- Point update of a two-argument store (physical memory view). -/
def upd2 (f : Nat → Nat → Nat) (p i x : Nat) : Nat → Nat → Nat :=
  fun q j => if q = p ∧ j = i then x else f q j

/-- Zeroing of one whole page of a store, as core::ptr::write_bytes does. -/
def zeroPage (f : Nat → Nat → Nat) (p : Nat) : Nat → Nat → Nat :=
  fun q j => if q = p then 0 else f q j

/-- Point update of the allocator bitmap. -/
def updB (f : Nat → Bool) (i : Nat) (x : Bool) : Nat → Bool :=
  fun j => if j = i then x else f j

/-- Physical machine state shared by the frame allocator and all page
tables: the PTE-word view and the byte view of every frame, and the
BitmapFrameAllocator state from frame_allocator.rs (bitmap indexed by
ppn - start_ppn, managed range, rotating cursor). -/
structure Machine where
  mem : Nat → Nat → Nat
  bytes : Nat → Nat → Nat
  bm : Nat → Bool
  startP : Nat
  endP : Nat
  next : Nat

/-- Linear scan of the allocator bitmap, from BitmapFrameAllocator::alloc:
for offset in 0..total, idx = (start_idx + offset) % total, take the first
clear bit.  The remaining offset count is the recursion fuel, started at
total, so the model scans exactly the offsets the Rust loop scans. -/
def bmScan (bm : Nat → Bool) (total startIdx : Nat) : Nat → Nat → Option Nat
  | _, 0 => none
  | off, rem + 1 =>
    let idx := (startIdx + off) % total
    if bm idx = false then some idx else bmScan bm total startIdx (off + 1) rem

/-- Allocation of one frame, from BitmapFrameAllocator::alloc: scan from the
cursor, mark the bit, advance the cursor, zero the frame, return its ppn. -/
def frameAlloc (st : Machine) : Option (Nat × Machine) :=
  let total := st.endP - st.startP
  match bmScan st.bm total st.next 0 total with
  | none => none
  | some idx =>
    let ppn := st.startP + idx
    some (ppn,
      { st with
        bm := updB st.bm idx true
        next := (idx + 1) % total
        mem := zeroPage st.mem ppn
        bytes := zeroPage st.bytes ppn })

/-- Deallocation, from BitmapFrameAllocator::dealloc: out-of-range ppns are
ignored, otherwise the bit is cleared.  The cursor is not moved. -/
def frameDealloc (st : Machine) (ppn : Nat) : Machine :=
  if ppn < st.startP ∨ st.endP ≤ ppn then st
  else { st with bm := updB st.bm (ppn - st.startP) false }

/-- One level of the downward walk of PageTable::map: an invalid slot gets
a freshly allocated, zeroed table with a V-only branch entry installed; a
leaf slot is the "Encountered leaf PTE in intermediate level" error; a
branch slot is followed. -/
def stepAlloc (st : Machine) (t i : Nat) : Option (Machine × Nat) :=
  let e := st.mem t i
  if pteValid e then
    if pteLeaf e then none else some (st, ptePpn e)
  else
    match frameAlloc st with
    | none => none
    | some (a, st1) => some ({ st1 with mem := upd2 st1.mem t i (pteNew a 1) }, a)

/-- PageTable::map from page_table.rs: walk levels 2 and 1 allocating
missing branch tables, then install the leaf with flags | V; an already
valid leaf slot is the "Page already mapped" error. -/
def ptMap (st : Machine) (root v p f : Nat) : Option Machine :=
  match stepAlloc st root (idx0 v) with
  | none => none
  | some (st1, t1) =>
    match stepAlloc st1 t1 (idx1 v) with
    | none => none
    | some (st2, t2) =>
      if pteValid (st2.mem t2 (idx2 v)) then none
      else some { st2 with mem := upd2 st2.mem t2 (idx2 v) (pteNew p (f ||| 1)) }

/-- PageTable::translate from page_table.rs: walk, returning early at a
leaf in an intermediate level, None at any invalid slot. -/
def ptTranslate (m : Nat → Nat → Nat) (root v : Nat) : Option (Nat × Nat) :=
  let e0 := m root (idx0 v)
  if pteValid e0 then
    if pteLeaf e0 then some (ptePpn e0, pteFlags e0)
    else
      let e1 := m (ptePpn e0) (idx1 v)
      if pteValid e1 then
        if pteLeaf e1 then some (ptePpn e1, pteFlags e1)
        else
          let e2 := m (ptePpn e1) (idx2 v)
          if pteValid e2 then some (ptePpn e2, pteFlags e2) else none
      else none
  else none

/-- PageTable::unmap from page_table.rs: walk levels 2 and 1 requiring
valid non-leaf slots, require a valid leaf slot, clear it and return the
leaf ppn. -/
def ptUnmap (st : Machine) (root v : Nat) : Option (Machine × Nat) :=
  let e0 := st.mem root (idx0 v)
  if pteValid e0 then
    if pteLeaf e0 then none
    else
      let e1 := st.mem (ptePpn e0) (idx1 v)
      if pteValid e1 then
        if pteLeaf e1 then none
        else
          let e2 := st.mem (ptePpn e1) (idx2 v)
          if pteValid e2 then
            some ({ st with mem := upd2 st.mem (ptePpn e1) (idx2 v) 0 }, ptePpn e2)
          else none
      else none
  else none

/-- A frame is safe when the allocator can never hand it out: it lies
outside the managed range or its bitmap bit is set. -/
def Safe (st : Machine) (p : Nat) : Prop :=
  p < st.startP ∨ st.endP ≤ p ∨ st.bm (p - st.startP) = true

/-- A frame currently marked allocated inside the managed range. -/
def markedD (st : Machine) (p : Nat) : Prop :=
  st.startP ≤ p ∧ p < st.endP ∧ st.bm (p - st.startP) = true

instance (st : Machine) (p : Nat) : Decidable (Safe st p) := by
  unfold Safe; infer_instance

instance (st : Machine) (p : Nat) : Decidable (markedD st p) := by
  unfold markedD; infer_instance

instance decBall3 (P : Nat → Nat → Nat → Prop) [∀ i j k, Decidable (P i j k)]
    (a b c : Nat) :
    Decidable (∀ i, i < a → ∀ j, j < b → ∀ k, k < c → P i j k) := inferInstance

instance decBall4 (P : Nat → Nat → Nat → Nat → Prop)
    [∀ i j k l, Decidable (P i j k l)] (a b c d : Nat) :
    Decidable (∀ i, i < a → ∀ j, j < b → ∀ k, k < c → ∀ l, l < d → P i j k l) :=
  inferInstance

/-- Structural well-formedness of one page-table radix tree inside the
machine: the managed range fits in 44-bit ppns, the root and every branch
table are frames the allocator can no longer hand out, no table appears
at two places of the tree, and no table coincides with the root. -/
def WFpt (st : Machine) (root : Nat) : Prop :=
  st.endP ≤ 2 ^ 44 ∧ Safe st root ∧
  (∀ i, i < 512 → pteBranch (st.mem root i) = true →
     Safe st (ptePpn (st.mem root i)) ∧ ptePpn (st.mem root i) ≠ root) ∧
  (∀ i, i < 512 → ∀ i', i' < 512 → pteBranch (st.mem root i) = true →
     pteBranch (st.mem root i') = true →
     ptePpn (st.mem root i) = ptePpn (st.mem root i') → i = i') ∧
  (∀ i, i < 512 → ∀ j, j < 512 → pteBranch (st.mem root i) = true →
     pteBranch (st.mem (ptePpn (st.mem root i)) j) = true →
     Safe st (ptePpn (st.mem (ptePpn (st.mem root i)) j)) ∧
     ptePpn (st.mem (ptePpn (st.mem root i)) j) ≠ root) ∧
  (∀ i, i < 512 → ∀ j, j < 512 → ∀ i', i' < 512 →
     pteBranch (st.mem root i) = true →
     pteBranch (st.mem (ptePpn (st.mem root i)) j) = true →
     pteBranch (st.mem root i') = true →
     ptePpn (st.mem (ptePpn (st.mem root i)) j) ≠ ptePpn (st.mem root i')) ∧
  (∀ i, i < 512 → ∀ j, j < 512 → ∀ i', i' < 512 → ∀ j', j' < 512 →
     pteBranch (st.mem root i) = true →
     pteBranch (st.mem (ptePpn (st.mem root i)) j) = true →
     pteBranch (st.mem root i') = true →
     pteBranch (st.mem (ptePpn (st.mem root i')) j') = true →
     ptePpn (st.mem (ptePpn (st.mem root i)) j) =
       ptePpn (st.mem (ptePpn (st.mem root i')) j') →
     i = i' ∧ j = j')

instance (st : Machine) (root : Nat) : Decidable (WFpt st root) := by
  unfold WFpt
  refine @instDecidableAnd _ _ ?_ (@instDecidableAnd _ _ ?_ (@instDecidableAnd _ _ ?_
    (@instDecidableAnd _ _ ?_ (@instDecidableAnd _ _ ?_ (@instDecidableAnd _ _ ?_ ?_)))))
  all_goals infer_instance

/-- Full-depth mapping predicate: the walk for v passes two branch
levels and finds exactly the entry e in the leaf slot. -/
def MappedAt (m : Nat → Nat → Nat) (root v e : Nat) : Prop :=
  pteBranch (m root (idx0 v)) = true ∧
  pteBranch (m (ptePpn (m root (idx0 v))) (idx1 v)) = true ∧
  m (ptePpn (m (ptePpn (m root (idx0 v))) (idx1 v))) (idx2 v) = e

instance (m : Nat → Nat → Nat) (root v e : Nat) : Decidable (MappedAt m root v e) := by
  unfold MappedAt; infer_instance

/-- A frame that is not part of the radix tree of the given root: it is
neither the root itself nor the target of any depth-1 or depth-2 branch
entry.  Data frames owned by Framed areas satisfy this, which is what
makes deallocating them safe for the table structure. -/
def notTable (st : Machine) (root p : Nat) : Prop :=
  p ≠ root ∧
  (∀ i, i < 512 → pteBranch (st.mem root i) = true → ptePpn (st.mem root i) ≠ p) ∧
  (∀ i, i < 512 → ∀ j, j < 512 → pteBranch (st.mem root i) = true →
     pteBranch (st.mem (ptePpn (st.mem root i)) j) = true →
     ptePpn (st.mem (ptePpn (st.mem root i)) j) ≠ p)

/-- Assoc-list model of the area's BTreeMap from VirtPageNum to
FrameTracker: lookup by key. -/
def aLookup : List (Nat × Nat) → Nat → Option Nat
  | [], _ => none
  | (k, x) :: rest, key => if key = k then some x else aLookup rest key

/-- BTreeMap::insert semantics: replace an existing key or add it. -/
def aInsert : List (Nat × Nat) → Nat → Nat → List (Nat × Nat)
  | [], key, x => [(key, x)]
  | (k, y) :: rest, key, x =>
    if key = k then (key, x) :: rest else (k, y) :: aInsert rest key x

/-- BTreeMap::remove semantics. -/
def aErase : List (Nat × Nat) → Nat → List (Nat × Nat)
  | [], _ => []
  | (k, y) :: rest, key => if key = k then rest else (k, y) :: aErase rest key

/-- MapArea from memory_set.rs: the vpn range, the owned data frames
(Framed only), the map type (framed = true for MapType::Framed, false for
MapType::Identical) and the MapPermission bits. -/
structure MapAreaM where
  startVpn : Nat
  endVpn : Nat
  frames : List (Nat × Nat)
  framed : Bool
  perm : Nat

/-- MapArea::new: the range is the page numbers of the two addresses. -/
def mkArea (startVa endVa : Nat) (framed : Bool) (perm : Nat) : MapAreaM :=
  ⟨startVa / PAGE_SIZE, endVa / PAGE_SIZE, [], framed, perm⟩

/-- FrameTracker::new zeroes the freshly allocated frame. -/
def trackFrame (st : Machine) (p : Nat) : Machine :=
  { st with bytes := zeroPage st.bytes p }

/-- Common tail of MapArea::map_one: determine the target frame
(Identical: the vpn itself; Framed: the tracked frame, allocating and
tracking a fresh one if absent) and install the leaf; a map error or an
allocation failure is a kernel panic (none). -/
def mapOneTail (st : Machine) (root : Nat) (a : MapAreaM) (vpn : Nat) :
    Option (Machine × MapAreaM) :=
  if a.framed then
    match aLookup a.frames vpn with
    | some p =>
      match ptMap st root vpn p a.perm with
      | none => none
      | some st' => some (st', a)
    | none =>
      match frameAlloc st with
      | none => none
      | some (p, st1) =>
        match ptMap (trackFrame st1 p) root vpn p a.perm with
        | none => none
        | some st' => some (st', { a with frames := aInsert a.frames vpn p })
  else
    match ptMap st root vpn vpn a.perm with
    | none => none
    | some st' => some (st', a)

/-- MapArea::map_one from memory_set.rs, including the conflict path: if
the vpn already translates, compute the expected frame (tracking a fresh
one for Framed areas when none is tracked yet), skip when the existing
mapping matches exactly, otherwise unmap and fall through to the common
mapping tail. -/
def mapOne (st : Machine) (root : Nat) (a : MapAreaM) (vpn : Nat) :
    Option (Machine × MapAreaM) :=
  match ptTranslate st.mem root vpn with
  | some (exP, exF) =>
    match (if a.framed then
             match aLookup a.frames vpn with
             | some p => some (p, st, a)
             | none =>
               match frameAlloc st with
               | none => none
               | some (p, st1) =>
                 some (p, trackFrame st1 p, { a with frames := aInsert a.frames vpn p })
           else some (vpn, st, a) : Option (Nat × Machine × MapAreaM)) with
    | none => none
    | some (expected, st1, a1) =>
      if exP = expected ∧ exF = a1.perm then some (st1, a1)
      else
        match ptUnmap st1 root vpn with
        | none => none
        | some (st2, _) => mapOneTail st2 root a1 vpn
  | none => mapOneTail st root a vpn

/-- Loop of MapArea::map over the vpn range, by remaining page count. -/
def mapRange (root : Nat) : Machine → MapAreaM → Nat → Nat → Option (Machine × MapAreaM)
  | st, a, _, 0 => some (st, a)
  | st, a, vpn, c + 1 =>
    match mapOne st root a vpn with
    | none => none
    | some (st', a') => mapRange root st' a' (vpn + 1) c

/-- MapArea::map: map every page of the vpn range. -/
def areaMap (st : Machine) (root : Nat) (a : MapAreaM) : Option (Machine × MapAreaM) :=
  mapRange root st a a.startVpn (a.endVpn - a.startVpn)

/-- MapArea::unmap_one: drop the tracked frame (Framed), which
deallocates it, then clear the page-table leaf; an unmap error is a
kernel panic (none). -/
def unmapOne (st : Machine) (root : Nat) (a : MapAreaM) (vpn : Nat) :
    Option (Machine × MapAreaM) :=
  let pr : Machine × MapAreaM :=
    if a.framed then
      match aLookup a.frames vpn with
      | some p => (frameDealloc st p, { a with frames := aErase a.frames vpn })
      | none => (st, a)
    else (st, a)
  match ptUnmap pr.1 root vpn with
  | none => none
  | some (st', _) => some (st', pr.2)

/-- Loop of MapArea::unmap over the vpn range. -/
def unmapRange (root : Nat) : Machine → MapAreaM → Nat → Nat → Option (Machine × MapAreaM)
  | st, a, _, 0 => some (st, a)
  | st, a, vpn, c + 1 =>
    match unmapOne st root a vpn with
    | none => none
    | some (st', a') => unmapRange root st' a' (vpn + 1) c

/-- MapArea::unmap: unmap every page of the vpn range. -/
def areaUnmap (st : Machine) (root : Nat) (a : MapAreaM) : Option (Machine × MapAreaM) :=
  unmapRange root st a a.startVpn (a.endVpn - a.startVpn)

/-- Linker and layout addresses consulted by the sanity checks inside
MapArea::copy_data (stext, ekernel, KERNEL_HEAP_START). -/
structure CopyEnv where
  stext : Nat
  ekernel : Nat
  heapStart : Nat

/-- Byte writes of one page copy: the source bytes are written at
offsets 0, 1, ... of frame p, as copy_data writes each page from the
start of the frame. -/
def writeSeq (p : Nat) : (Nat → Nat → Nat) → Nat → List Nat → Nat → Nat → Nat
  | f, _, [] => f
  | f, off, b :: rest => writeSeq p (upd2 f p off b) (off + 1) rest

/-- MapArea::copy_data from memory_set.rs: page-by-page copy of the data
slice into the translated frames, each page written from offset 0 of the
frame; a kernel panic (none) when a page is unmapped, when the target
frame overlaps the kernel image, or when it lies below the kernel heap
start.  The fuel bounds the page count of the loop. -/
def copyLoop (root : Nat) (env : CopyEnv) (data : List Nat) (len : Nat) :
    Machine → Nat → Nat → Nat → Option Machine
  | _, _, _, 0 => none
  | st, vpn, start, fuel + 1 =>
    match ptTranslate st.mem root vpn with
    | none => none
    | some (ppn, _) =>
      if env.stext ≤ ppn * PAGE_SIZE ∧ ppn * PAGE_SIZE < env.ekernel then none
      else if ppn * PAGE_SIZE < env.heapStart then none
      else
        let st' := { st with
          bytes := writeSeq ppn st.bytes 0 ((data.drop start).take PAGE_SIZE) }
        if len ≤ start + PAGE_SIZE then some st'
        else copyLoop root env data len st' (vpn + 1) (start + PAGE_SIZE) fuel

/-- MapArea::copy_data entry: asserts the area is Framed, then runs the
page loop from the start of the range. -/
def copyData (st : Machine) (root : Nat) (a : MapAreaM) (data : List Nat)
    (env : CopyEnv) : Option Machine :=
  if a.framed then
    copyLoop root env data data.length st a.startVpn 0 (data.length / PAGE_SIZE + 1)
  else none

/-- MemorySet from memory_set.rs: the page-table root frame plus the
ordered area list, over the shared machine state. -/
structure MS where
  machine : Machine
  root : Nat
  areas : List MapAreaM

/-- MemorySet::push: map the whole area, optionally copy data into it,
then append it to the area list. -/
def msPush (s : MS) (startVa endVa : Nat) (framed : Bool) (perm : Nat)
    (data : Option (List Nat)) (env : CopyEnv) : Option MS :=
  match areaMap s.machine s.root (mkArea startVa endVa framed perm) with
  | none => none
  | some (st1, a1) =>
    match data with
    | none => some ⟨st1, s.root, s.areas ++ [a1]⟩
    | some d =>
      match copyData st1 s.root a1 d env with
      | none => none
      | some st2 => some ⟨st2, s.root, s.areas ++ [a1]⟩

/-- MemorySet::remove_area: out-of-range indices are ignored; otherwise
the area is removed from the list and all of its pages are unmapped, the
frame trackers deallocating the owned frames. -/
def msRemoveArea (s : MS) (i : Nat) : Option MS :=
  if h : i < s.areas.length then
    match areaUnmap s.machine s.root (s.areas.get ⟨i, h⟩) with
    | none => none
    | some (st', _) => some ⟨st', s.root, s.areas.eraseIdx i⟩
  else some s

/-- MemorySet::new_bare over a given machine state and root frame (the
root page table is the zero-initialized array inside the MemorySet
value; its frame is not handed out by the allocator). -/
def msNewBare (st : Machine) (root : Nat) : MS := ⟨st, root, []⟩

/-- Operations on one memory set: MemorySet::push of a freshly built
MapArea, and MemorySet::remove_area. -/
inductive MOp where
  | push (startVa endVa : Nat) (framed : Bool) (perm : Nat) (data : Option (List Nat))
  | remove (i : Nat)

/-- One operation step. -/
def execOp (env : CopyEnv) (s : MS) : MOp → Option MS
  | .push sva eva fr pm d => msPush s sva eva fr pm d env
  | .remove i => msRemoveArea s i

/-- A sequence of operations; a panic (none) aborts the run. -/
def execOps (env : CopyEnv) : MS → List MOp → Option MS
  | s, [] => some s
  | s, op :: rest =>
    match execOp env s op with
    | none => none
    | some s' => execOps env s' rest

/-- Side condition of the amended claim C1 for one push: the pushed
range lies within the 39-bit SV39 VA space, the permission bits fit the
MapPermission byte, and the range is disjoint from every current area. -/
def pushOk (s : MS) (sva eva pm : Nat) : Bool :=
  decide (sva ≤ eva) && decide (eva ≤ 2 ^ 39) && decide (pm < 256) &&
  s.areas.all fun a =>
    decide (eva / PAGE_SIZE ≤ a.startVpn) || decide (a.endVpn ≤ sva / PAGE_SIZE)

/-- Admissible operation sequences for the amended claim C1: every push
is disjoint from the areas present at that moment. -/
def admissible (env : CopyEnv) : MS → List MOp → Bool
  | _, [] => true
  | s, op :: rest =>
    (match op with
     | .push sva eva _ pm _ => pushOk s sva eva pm
     | .remove _ => true) &&
    (match execOp env s op with
     | none => true
     | some s' => admissible env s' rest)

/-- Claim C1's property at one vpn of one Framed area: the frame map
records a frame for it, translation returns exactly that frame, and the
returned flags contain the area's permissions plus V. -/
def framedVpnOk (s : MS) (a : MapAreaM) (vpn : Nat) : Prop :=
  match aLookup a.frames vpn, ptTranslate s.machine.mem s.root vpn with
  | some p, some (q, fl) => p = q ∧ fl &&& (a.perm ||| 1) = a.perm ||| 1
  | _, _ => False

instance (s : MS) (a : MapAreaM) (vpn : Nat) : Decidable (framedVpnOk s a vpn) := by
  unfold framedVpnOk
  cases aLookup a.frames vpn with
  | none =>
    cases ptTranslate s.machine.mem s.root vpn with
    | none => exact inferInstanceAs (Decidable False)
    | some pr => exact inferInstanceAs (Decidable False)
  | some p =>
    cases ptTranslate s.machine.mem s.root vpn with
    | none => exact inferInstanceAs (Decidable False)
    | some pr =>
      obtain ⟨q, fl⟩ := pr
      exact inferInstanceAs (Decidable (p = q ∧ fl &&& (a.perm ||| 1) = a.perm ||| 1))

/-- Claim C1's invariant over a whole memory set. -/
def framedInv (s : MS) : Prop :=
  ∀ a ∈ s.areas, a.framed = true →
    ∀ d, d < a.endVpn - a.startVpn → framedVpnOk s a (a.startVpn + d)

/-- Per-area part of the MemorySet invariant: the range fits SV39 user
space, the permission bits fit the MapPermission byte, every page of a
Framed area is tracked and mapped to its tracked frame (which is marked
and no table), the frame map covers only the range, and every page of an
Identical area is mapped to the frame of the same number. -/
def okArea (st : Machine) (root : Nat) (a : MapAreaM) : Prop :=
  (a.startVpn ≤ a.endVpn ∧ a.endVpn ≤ 2 ^ 27) ∧ a.perm < 256 ∧
  (a.framed = true →
    (∀ d, d < a.endVpn - a.startVpn → ∃ p,
       aLookup a.frames (a.startVpn + d) = some p ∧
       MappedAt st.mem root (a.startVpn + d) (pteNew p (a.perm ||| 1)) ∧
       markedD st p ∧ notTable st root p) ∧
    (∀ k p, aLookup a.frames k = some p → a.startVpn ≤ k ∧ k < a.endVpn)) ∧
  (a.framed = false →
    ∀ d, d < a.endVpn - a.startVpn →
      MappedAt st.mem root (a.startVpn + d) (pteNew (a.startVpn + d) (a.perm ||| 1))) ∧
  (a.framed = false → a.frames = [])

/-- Two areas with disjoint vpn ranges. -/
def areasDisj (x y : MapAreaM) : Prop :=
  x.endVpn ≤ y.startVpn ∨ y.endVpn ≤ x.startVpn

/-- Some area of the memory set tracks frame p for page k. -/
def tracksAt (s : MS) (k p : Nat) : Prop :=
  ∃ a, a ∈ s.areas ∧ aLookup a.frames k = some p

/-- The MemorySet invariant: a well-formed page table, pairwise disjoint
areas each satisfying the per-area invariant, globally injective frame
tracking, and no translation outside the areas. -/
def msOk (s : MS) : Prop :=
  WFpt s.machine s.root ∧
  List.Pairwise areasDisj s.areas ∧
  (∀ a, a ∈ s.areas → okArea s.machine s.root a) ∧
  (∀ k p k' p', tracksAt s k p → tracksAt s k' p' → p = p' → k = k') ∧
  (∀ v, v < 2 ^ 27 → (∀ a, a ∈ s.areas → ¬(a.startVpn ≤ v ∧ v < a.endVpn)) →
    ptTranslate s.machine.mem s.root v = none)

/-- Scheduler from task/scheduler.rs: a fixed time slice (10 ticks) and
the running tick counter. -/
structure Sched where
  timeSlice : Nat
  currentTimeSlice : Nat

/-- Scheduler::new. -/
def schedNew : Sched := ⟨10, 0⟩

/-- Scheduler::tick: bump the counter; on reaching the time slice,
reset it and report expiry. -/
def schedTick (s : Sched) : Sched × Bool :=
  if s.timeSlice ≤ s.currentTimeSlice + 1 then (⟨s.timeSlice, 0⟩, true)
  else (⟨s.timeSlice, s.currentTimeSlice + 1⟩, false)

/-- Outcome of the SupervisorTimer arm of trap_handler: the scheduler
state afterwards, whether set_next_timer re-armed the timer, and whether
switch_task was invoked. -/
structure TimerOutcome where
  sched : Sched
  rearmed : Bool
  switched : Bool

/-- SupervisorTimer arm of trap_handler in trap/mod.rs: set_next_timer
runs unconditionally; only a user-mode trap with at least one task can
switch, and only when Scheduler::tick reports an expired time slice;
a supervisor-mode timer trap never switches. -/
def handleTimer (isUser : Bool) (taskCount : Nat) (s : Sched) : TimerOutcome :=
  if isUser then
    if 0 < taskCount then ⟨(schedTick s).1, true, (schedTick s).2⟩
    else ⟨s, true, false⟩
  else ⟨s, true, false⟩

/-- Memory-layout constants from config.rs. -/
def KERNEL_HEAP_START : Nat := 0x80420000

/-- Kernel heap size from config.rs (8 MiB). -/
def KERNEL_HEAP_SIZE : Nat := 0x800000

/-- End of the kernel heap window. -/
def KERNEL_HEAP_END : Nat := KERNEL_HEAP_START + KERNEL_HEAP_SIZE

/-- Physical memory end from config.rs (128 MiB RAM). -/
def MEMORY_END : Nat := 0x88000000

/-- Page alignment upwards, from memory_layout.rs. -/
def alignUp (a : Nat) : Nat := (a + PAGE_SIZE - 1) / PAGE_SIZE * PAGE_SIZE

/-- Page alignment downwards, from memory_layout.rs. -/
def alignDown (a : Nat) : Nat := a / PAGE_SIZE * PAGE_SIZE

/-- BitmapFrameAllocator::init: page-align the two ends of the range,
clear the bitmap, reset the cursor. -/
def allocInit (mem0 bytes0 : Nat → Nat → Nat) (a b : Nat) : Machine :=
  { mem := mem0, bytes := bytes0, bm := fun _ => false,
    startP := alignUp a / PAGE_SIZE, endP := alignDown b / PAGE_SIZE, next := 0 }

/-- The frame-allocator initialization performed by mm::init in
mm/mod.rs: mem_start = KERNEL_HEAP_START (the heap start, not its end),
mem_end = MEMORY_END. -/
def mmInitMachine (mem0 bytes0 : Nat → Nat → Nat) : Machine :=
  allocInit mem0 bytes0 KERNEL_HEAP_START MEMORY_END

/-- Mapping flags from syscall/memory.rs. -/
def MAP_ANONYMOUS : Nat := 0x20

/-- MAP_FIXED flag from syscall/memory.rs. -/
def MAP_FIXED : Nat := 0x10

/-- Start of the mmap region chosen when addr = 0, from sys_mmap. -/
def MMAP_START : Nat := 0x20000000

/-- sys_mmap from syscall/memory.rs, acting on the current task's
memory set (the model assumes a current task exists): only anonymous
mappings, length zero refused, the address chosen per the MAP_FIXED /
hint / kernel-chosen cases, permissions U plus the PROT bits, then a
Framed area is pushed without any overlap check.  usize arithmetic
wraps at 2^64. -/
def sysMmap (s : MS) (addr length prot flags fd offset : Nat) (env : CopyEnv) :
    Option (Int × MS) :=
  if flags &&& MAP_ANONYMOUS = 0 then some (-1, s)
  else if length = 0 then some (-1, s)
  else
    let alignedLength := (length + PAGE_SIZE - 1) % 2 ^ 64 / PAGE_SIZE * PAGE_SIZE
    match (if addr ≠ 0 ∧ flags &&& MAP_FIXED ≠ 0 then
             (if addr % PAGE_SIZE ≠ 0 then none else some addr)
           else if addr ≠ 0 then some (addr / PAGE_SIZE * PAGE_SIZE)
           else some MMAP_START : Option Nat) with
    | none => some (-1, s)
    | some startVa =>
      let endVa := (startVa + alignedLength) % 2 ^ 64
      let perm := 16 ||| (if prot &&& 1 ≠ 0 then 2 else 0) |||
        (if prot &&& 2 ≠ 0 then 4 else 0) ||| (if prot &&& 4 ≠ 0 then 8 else 0)
      match msPush s startVa endVa true perm none env with
      | none => none
      | some s' => some (Int.ofNat startVa, s')

/-- The area-search loop of sys_munmap: walk the area list in order; on
the first area overlapping [sva, eva), report its index when the range
matches exactly (some (some i)) and a partial-overlap error otherwise
(none); report some none when no area overlaps. -/
def munmapFind : List MapAreaM → Nat → Nat → Nat → Option (Option Nat)
  | [], _, _, _ => some none
  | a :: rest, sva, eva, i =>
    if sva < a.endVpn * PAGE_SIZE ∧ eva > a.startVpn * PAGE_SIZE then
      if sva = a.startVpn * PAGE_SIZE ∧ eva = a.endVpn * PAGE_SIZE then some (some i)
      else none
    else munmapFind rest sva eva (i + 1)

/-- sys_munmap from syscall/memory.rs, acting on the current task's
memory set: alignment and nonzero-length checks, then the first-overlap
search; only an exact match is removed. -/
def sysMunmap (s : MS) (addr length : Nat) : Option (Int × MS) :=
  if addr % PAGE_SIZE ≠ 0 then some (-1, s)
  else if length = 0 then some (-1, s)
  else
    let alignedLength := (length + PAGE_SIZE - 1) % 2 ^ 64 / PAGE_SIZE * PAGE_SIZE
    let endVa := (addr + alignedLength) % 2 ^ 64
    match munmapFind s.areas addr endVa 0 with
    | none => some (-1, s)
    | some none => some (-1, s)
    | some (some i) =>
      match msRemoveArea s i with
      | none => none
      | some s' => some (0, s')

/-- TRAMPOLINE address from memory_set.rs: usize::MAX - PAGE_SIZE + 1,
the last page of the 64-bit address space. -/
def TRAMPOLINE : Nat := 2 ^ 64 - PAGE_SIZE

/-- Overwrite one whole page of the byte view (the clear-then-copy of a
full page done for the trampoline). -/
def updPage (f : Nat → Nat → Nat) (p : Nat) (g : Nat → Nat) : Nat → Nat → Nat :=
  fun q j => if q = p then g j else f q j

/-- The trampoline mapping step shared by MemorySet::new_kernel and
MemorySet::from_elf: allocate a fresh frame, map the TRAMPOLINE page to
it with flags V|R|X (11), then copy the trampoline code (a page read
from the kernel image, modelled as the function src) into the fresh
frame.  The frame is returned alongside the new machine state. -/
def fromElfTramp (st : Machine) (root : Nat) (src : Nat → Nat) : Option (Machine × Nat) :=
  match frameAlloc st with
  | none => none
  | some (p, st1) =>
    match ptMap st1 root (TRAMPOLINE / PAGE_SIZE) p 11 with
    | none => none
    | some st2 => some ({ st2 with bytes := updPage st2.bytes p src }, p)

/-- Trampoline code bytes used by concrete witnesses. -/
def srcW : Nat → Nat := fun _ => 7

/-- The body of the PT_LOAD loop of MemorySet::from_elf: push a Framed
area over [vaddr, align_up(vaddr + memsz)) with the segment's
permission bits, copying the segment's file bytes into it. -/
def fromElfSegment (s : MS) (vaddr memsz perm : Nat) (data : List Nat)
    (env : CopyEnv) : Option MS :=
  msPush s vaddr (alignUp (vaddr + memsz)) true perm (some data) env

/-- Machine used by concrete witnesses: empty memory, empty bitmap over
frames 1..16, the root table in frame 0 outside the managed range. -/
def mW : Machine :=
  { mem := fun _ _ => 0, bytes := fun _ _ => 0, bm := fun _ => false,
    startP := 1, endP := 16, next := 0 }

/-- Copy environment used by concrete witnesses (no data is copied). -/
def envW : CopyEnv := ⟨0, 0, 0⟩

/-- One admissible push of the single page vpn 1 as a Framed, readable
area. -/
def opsW : List MOp := [MOp.push 4096 8192 true 2 none]

/-- Two overlapping pushes of the same page: the second push remaps the
page onto its own fresh frame while the first area still records the
old frame. -/
def opsWbad : List MOp :=
  [MOp.push 4096 8192 true 2 none, MOp.push 4096 8192 true 2 none]

/-- State after an mmap of two pages at 0x20000000 on the witness
machine (both MAP_ANONYMOUS and MAP_FIXED set, PROT_READ|PROT_WRITE). -/
def c7s1 : MS :=
  ((sysMmap (msNewBare mW 0) 0x20000000 8192 3 0x30 0 0 envW).getD
    (-1, msNewBare mW 0)).2

/-- State after a second, overlapping mmap of the single page at
0x20001000: sys_mmap performs no overlap check, so both areas coexist. -/
def c7s2 : MS :=
  ((sysMmap c7s1 0x20001000 4096 3 0x30 0 0 envW).getD (-1, msNewBare mW 0)).2

/-- Segment file bytes for the concrete C4 run: 0x200 bytes of value 5. -/
def c4data : List Nat := List.replicate 0x200 5

/-- State after from_elf pushes the C4 example segment (vaddr 0x10078,
memsz 0x400, perms U|R|X = 26) on the bare witness machine. -/
def c4s : MS :=
  (fromElfSegment (msNewBare mW 0) 0x10078 0x400 26 c4data envW).getD
    (msNewBare mW 0)

/-- Frame that the C4 example's single mapped page translates to. -/
def c4p : Nat := ((ptTranslate c4s.machine.mem 0 0x10).getD (0, 0)).1

/-- PageTable::translated_byte_buffer_readonly from page_table.rs: walk
the buffer page by page collecting (frame, page offset, byte count)
slices, each covering min(PAGE_SIZE - page_offset, remaining) bytes;
stop at the first unmapped page.  The loop is while remaining > 0; since
every iteration consumes at least one byte, calling with fuel = len
reproduces it exactly. -/
def tbb (st : Machine) (root : Nat) : Nat → Nat → Nat → List (Nat × Nat × Nat)
  | _, _, 0 => []
  | va, remaining, fuel + 1 =>
    if remaining = 0 then []
    else
      match ptTranslate st.mem root (va / PAGE_SIZE) with
      | none => []
      | some (ppn, _) =>
        (ppn, va % PAGE_SIZE, min (PAGE_SIZE - va % PAGE_SIZE) remaining) ::
          tbb st root (va + min (PAGE_SIZE - va % PAGE_SIZE) remaining)
            (remaining - min (PAGE_SIZE - va % PAGE_SIZE) remaining) fuel

/-- Total byte count of the collected slices: sys_write's total_written
accumulator sums buffer.len() over the returned buffers. -/
def tbbSum : List (Nat × Nat × Nat) → Nat
  | [] => 0
  | (_, _, n) :: rest => n + tbbSum rest

/-- Bytes held by the collected slices, in order: the console output of
sys_write's print loop (both the UTF-8 and the raw-byte branch emit
every byte of every buffer). -/
def consoleOut (st : Machine) : List (Nat × Nat × Nat) → List Nat
  | [] => []
  | (p, off, n) :: rest =>
    (List.range n).map (fun i => st.bytes p (off + i)) ++ consoleOut st rest

/-- sys_write from syscall/fs.rs acting on the current task's memory
set: only fd 1 (FD_STDOUT) is accepted; the buffer is translated with
translated_byte_buffer_readonly and every collected byte goes to the
console, the byte count being returned. -/
def sysWrite (s : MS) (fd bufVa len : Nat) : Int × List Nat :=
  if fd = 1 then
    (Int.ofNat (tbbSum (tbb s.machine s.root bufVa len len)),
     consoleOut s.machine (tbb s.machine s.root bufVa len len))
  else (-1, [])

/-- Byte found at the physical address a user virtual address translates
to. -/
def byteAt (st : Machine) (root va : Nat) : Nat :=
  st.bytes ((ptTranslate st.mem root (va / PAGE_SIZE)).getD (0, 0)).1
    (va % PAGE_SIZE)

/-- The first m bytes of a user buffer, read through the page table. -/
def userBytes (st : Machine) (root va m : Nat) : List Nat :=
  (List.range m).map (fun k => byteAt st root (va + k))

/-- Memory state with the single page [4096, 8192) mapped, used by the
C10 witness. -/
def c10s : MS := (execOps envW (msNewBare mW 0) opsW).getD (msNewBare mW 0)

instance (s : MS) : Decidable (framedInv s) := by
  unfold framedInv
  infer_instance

theorem upd2_same (f : Nat → Nat → Nat) (p i x : Nat) :
    upd2 f p i x p i = x := by simp [upd2]

theorem upd2_ne (f : Nat → Nat → Nat) (p i x q j : Nat)
    (h : ¬(q = p ∧ j = i)) : upd2 f p i x q j = f q j := by
  simp [upd2, h]

theorem zeroPage_same (f : Nat → Nat → Nat) (p j : Nat) :
    zeroPage f p p j = 0 := by simp [zeroPage]

theorem zeroPage_ne (f : Nat → Nat → Nat) (p q j : Nat) (h : q ≠ p) :
    zeroPage f p q j = f q j := by simp [zeroPage, h]

theorem updB_same (f : Nat → Bool) (i : Nat) (x : Bool) : updB f i x i = x := by
  simp [updB]

theorem updB_ne (f : Nat → Bool) (i : Nat) (x : Bool) (j : Nat) (h : j ≠ i) :
    updB f i x j = f j := by simp [updB, h]

theorem ptePpn_pteNew (p f : Nat) (hp : p < 2 ^ 44) :
    ptePpn (pteNew p f) = p := by
  unfold ptePpn pteNew
  have h54 : p % 2 ^ 54 = p := Nat.mod_eq_of_lt (lt_trans hp (by norm_num))
  rw [h54]
  have : (p * 1024 + f % 256) / 1024 = p := by omega
  rw [this]
  exact Nat.mod_eq_of_lt hp

theorem pteFlags_pteNew (p f : Nat) : pteFlags (pteNew p f) = f % 256 := by
  unfold pteFlags pteNew
  omega

theorem pteValid_pteNew (p f : Nat) : pteValid (pteNew p f) = decide (f % 2 = 1) := by
  unfold pteValid pteNew
  have : (p % 2 ^ 54 * 1024 + f % 256) % 2 = f % 2 := by omega
  rw [this]

theorem pteBranch_one (p : Nat) : pteBranch (pteNew p 1) = true := by
  unfold pteBranch pteValid pteLeaf pteNew
  simp only [decide_eq_true_eq, Bool.and_eq_true, Bool.not_eq_true', decide_eq_false_iff_not,
    ne_eq, not_not]
  omega

theorem pteValid_zero : pteValid 0 = false := by decide

theorem lor_one (f : Nat) : f ||| 1 = 2 * (f / 2) + 1 := by
  apply Nat.eq_of_testBit_eq
  intro i
  match i with
  | 0 =>
    simp only [Nat.testBit_lor, Nat.testBit_zero]
    simp
    omega
  | i + 1 =>
    rw [Nat.testBit_lor]
    have h1 : Nat.testBit 1 (i + 1) = false := by
      rw [Nat.testBit_succ]
      norm_num
    have h2 : (2 * (f / 2) + 1) / 2 = f / 2 := by omega
    rw [h1, Bool.or_false, Nat.testBit_succ, Nat.testBit_succ, h2]

theorem lor_one_lt (f : Nat) (h : f < 256) : f ||| 1 < 256 := by
  rw [lor_one]; omega

theorem lor_one_mod_two (f : Nat) : (f ||| 1) % 2 = 1 := by
  rw [lor_one]; omega

theorem markedD_safe {st : Machine} {p : Nat} (h : markedD st p) : Safe st p := by
  rcases h with ⟨h1, h2, h3⟩
  exact Or.inr (Or.inr h3)

theorem bmScan_spec (bm : Nat → Bool) (total startIdx : Nat) :
    ∀ rem off idx, rem ≤ total → bmScan bm total startIdx off rem = some idx →
      bm idx = false ∧ idx < total := by
  intro rem
  induction rem with
  | zero => intro off idx hle h; simp [bmScan] at h
  | succ n ih =>
    intro off idx hle h
    unfold bmScan at h
    by_cases hb : bm ((startIdx + off) % total) = false
    · simp only [hb, if_pos rfl] at h
      cases h
      exact ⟨hb, Nat.mod_lt _ (by omega)⟩
    · simp only [hb] at h
      exact ih (off + 1) idx (by omega) h

theorem frameAlloc_spec {st : Machine} {a : Nat} {st1 : Machine}
    (h : frameAlloc st = some (a, st1)) :
    st.startP ≤ a ∧ a < st.endP ∧ st.bm (a - st.startP) = false ∧
    st1.mem = zeroPage st.mem a ∧ st1.bytes = zeroPage st.bytes a ∧
    st1.bm = updB st.bm (a - st.startP) true ∧
    st1.startP = st.startP ∧ st1.endP = st.endP := by
  simp only [frameAlloc] at h
  cases hscan : bmScan st.bm (st.endP - st.startP) st.next 0 (st.endP - st.startP) with
  | none => rw [hscan] at h; cases h
  | some idx =>
    rw [hscan] at h
    obtain ⟨hfree, hlt⟩ := bmScan_spec st.bm _ st.next _ 0 idx le_rfl hscan
    cases h
    have hsub : st.startP + idx - st.startP = idx := by omega
    refine ⟨by omega, by omega, ?_, rfl, rfl, ?_, rfl, rfl⟩
    · rw [hsub]; exact hfree
    · rw [hsub]

theorem frameAlloc_fresh {st : Machine} {a : Nat} {st1 : Machine}
    (h : frameAlloc st = some (a, st1)) {p : Nat} (hs : Safe st p) : p ≠ a := by
  obtain ⟨h1, h2, h3, _⟩ := frameAlloc_spec h
  intro he
  subst he
  rcases hs with hlt | hge | hbit
  · omega
  · omega
  · rw [hbit] at h3; cases h3

theorem frameAlloc_safe_mono {st : Machine} {a : Nat} {st1 : Machine}
    (h : frameAlloc st = some (a, st1)) {p : Nat} (hs : Safe st p) : Safe st1 p := by
  obtain ⟨h1, h2, h3, _, _, hbm, hsp, hep⟩ := frameAlloc_spec h
  unfold Safe at hs ⊢
  rw [hbm, hsp, hep]
  rcases hs with hlt | hge | hbit
  · exact Or.inl hlt
  · exact Or.inr (Or.inl hge)
  · refine Or.inr (Or.inr ?_)
    unfold updB
    split <;> simp [hbit]

theorem frameAlloc_marked_mono {st : Machine} {a : Nat} {st1 : Machine}
    (h : frameAlloc st = some (a, st1)) {p : Nat} (hs : markedD st p) : markedD st1 p := by
  obtain ⟨h1, h2, h3, _, _, hbm, hsp, hep⟩ := frameAlloc_spec h
  unfold markedD at hs ⊢
  rw [hbm, hsp, hep]
  refine ⟨hs.1, hs.2.1, ?_⟩
  unfold updB
  split <;> simp [hs.2.2]

theorem frameAlloc_marked_new {st : Machine} {a : Nat} {st1 : Machine}
    (h : frameAlloc st = some (a, st1)) : markedD st1 a := by
  obtain ⟨h1, h2, h3, _, _, hbm, hsp, hep⟩ := frameAlloc_spec h
  unfold markedD
  rw [hbm, hsp, hep]
  exact ⟨h1, h2, by simp [updB]⟩

theorem frameDealloc_mem (st : Machine) (p : Nat) :
    (frameDealloc st p).mem = st.mem ∧ (frameDealloc st p).bytes = st.bytes ∧
    (frameDealloc st p).startP = st.startP ∧ (frameDealloc st p).endP = st.endP := by
  unfold frameDealloc
  split <;> exact ⟨rfl, rfl, rfl, rfl⟩

theorem frameDealloc_safe {st : Machine} {c : Nat} {p : Nat}
    (hs : Safe st p) (hne : p ≠ c) : Safe (frameDealloc st c) p := by
  unfold frameDealloc Safe
  split
  · exact hs
  · rename_i hrange
    rcases hs with hlt | hge | hbit
    · exact Or.inl hlt
    · exact Or.inr (Or.inl hge)
    · by_cases hplt : p < st.startP
      · exact Or.inl hplt
      · refine Or.inr (Or.inr ?_)
        show updB st.bm (c - st.startP) false (p - st.startP) = true
        rw [updB_ne]
        · exact hbit
        · omega

theorem frameDealloc_marked {st : Machine} {c : Nat} {p : Nat}
    (hs : markedD st p) (hne : p ≠ c) : markedD (frameDealloc st c) p := by
  unfold frameDealloc markedD
  split
  · exact hs
  · rename_i hrange
    refine ⟨hs.1, hs.2.1, ?_⟩
    show updB st.bm (c - st.startP) false (p - st.startP) = true
    rw [updB_ne]
    · exact hs.2.2
    · have := hs.1
      omega

theorem frameDealloc_cleared {st : Machine} {c : Nat}
    (hc : markedD st c) : ¬ markedD (frameDealloc st c) c := by
  unfold frameDealloc markedD
  intro h
  rcases h with ⟨h1, h2, h3⟩
  revert h3
  split
  · rename_i hr
    unfold markedD at hc
    omega
  · simp [updB]

theorem idx0_lt (v : Nat) : idx0 v < 512 := Nat.mod_lt _ (by norm_num)

theorem idx1_lt (v : Nat) : idx1 v < 512 := Nat.mod_lt _ (by norm_num)

theorem idx2_lt (v : Nat) : idx2 v < 512 := Nat.mod_lt _ (by norm_num)

theorem idx_inj {v v' : Nat} (hv : v < 2 ^ 27) (hv' : v' < 2 ^ 27)
    (h0 : idx0 v = idx0 v') (h1 : idx1 v = idx1 v') (h2 : idx2 v = idx2 v') :
    v = v' := by
  simp only [idx0, idx1, idx2] at h0 h1 h2
  omega

theorem stepAlloc_elim {st : Machine} {t i : Nat} {st' : Machine} {u : Nat}
    (h : stepAlloc st t i = some (st', u)) :
    (pteBranch (st.mem t i) = true ∧ st' = st ∧ u = ptePpn (st.mem t i)) ∨
    (pteValid (st.mem t i) = false ∧ ∃ stA, frameAlloc st = some (u, stA) ∧
      st' = { stA with mem := upd2 stA.mem t i (pteNew u 1) }) := by
  unfold stepAlloc at h
  by_cases hv : pteValid (st.mem t i)
  · simp only [hv, if_pos rfl] at h
    by_cases hl : pteLeaf (st.mem t i)
    · simp [hl] at h
    · left
      simp only [hl, Bool.false_eq_true, if_neg (by simp [hl] : ¬(pteLeaf (st.mem t i) = true))] at h
      cases h
      exact ⟨by simp [pteBranch, hv, hl], rfl, rfl⟩
  · right
    simp only [hv] at h
    refine ⟨by simp [hv], ?_⟩
    cases ha : frameAlloc st with
    | none => rw [ha] at h; cases h
    | some pr =>
      obtain ⟨a, stA⟩ := pr
      rw [ha] at h
      have hp : ({ stA with mem := upd2 stA.mem t i (pteNew a 1) }, a) = (st', u) :=
        Option.some.inj h
      have hst : { stA with mem := upd2 stA.mem t i (pteNew a 1) } = st' :=
        congrArg Prod.fst hp
      have hu : a = u := congrArg Prod.snd hp
      subst hu
      exact ⟨stA, rfl, hst.symm⟩

theorem safe_congr {st' st'' : Machine} (hbm : st'.bm = st''.bm)
    (hsp : st'.startP = st''.startP) (hep : st'.endP = st''.endP) {q : Nat}
    (h : Safe st'' q) : Safe st' q := by
  unfold Safe at h ⊢
  rw [hbm, hsp, hep]
  exact h

theorem marked_congr {st' st'' : Machine} (hbm : st'.bm = st''.bm)
    (hsp : st'.startP = st''.startP) (hep : st'.endP = st''.endP) {q : Nat}
    (h : markedD st'' q) : markedD st' q := by
  unfold markedD at h ⊢
  rw [hbm, hsp, hep]
  exact h

/-- Elimination principle for a successful PageTable::map: the three
possible shapes of the walk (both levels already present, level-1 table
allocated, both tables allocated), each with the exact final memory. -/
theorem ptMap_elim {st : Machine} {root v p f : Nat} {st2 : Machine}
    (hroot : Safe st root)
    (h : ptMap st root v p f = some st2) :
    ∃ t1 t2 M2,
      st2.mem = upd2 M2 t2 (idx2 v) (pteNew p (f ||| 1)) ∧
      pteValid (M2 t2 (idx2 v)) = false ∧
      ((pteBranch (st.mem root (idx0 v)) = true ∧
        t1 = ptePpn (st.mem root (idx0 v)) ∧
        pteBranch (st.mem t1 (idx1 v)) = true ∧
        t2 = ptePpn (st.mem t1 (idx1 v)) ∧
        M2 = st.mem ∧ st2.bm = st.bm ∧ st2.bytes = st.bytes ∧
        st2.startP = st.startP ∧ st2.endP = st.endP) ∨
       (pteBranch (st.mem root (idx0 v)) = true ∧
        t1 = ptePpn (st.mem root (idx0 v)) ∧
        pteValid (st.mem t1 (idx1 v)) = false ∧
        (∃ stB, frameAlloc st = some (t2, stB) ∧
          M2 = upd2 (zeroPage st.mem t2) t1 (idx1 v) (pteNew t2 1) ∧
          st2.bm = stB.bm ∧ st2.bytes = stB.bytes ∧
          st2.startP = st.startP ∧ st2.endP = st.endP)) ∨
       (pteValid (st.mem root (idx0 v)) = false ∧
        (∃ stA stB, frameAlloc st = some (t1, stA) ∧
          frameAlloc { stA with mem := upd2 stA.mem root (idx0 v) (pteNew t1 1) } =
            some (t2, stB) ∧
          M2 = upd2 (zeroPage (upd2 (zeroPage st.mem t1) root (idx0 v) (pteNew t1 1)) t2)
                 t1 (idx1 v) (pteNew t2 1) ∧
          st2.bm = stB.bm ∧ st2.bytes = stB.bytes ∧
          st2.startP = st.startP ∧ st2.endP = st.endP))) := by
  unfold ptMap at h
  cases h1 : stepAlloc st root (idx0 v) with
  | none => rw [h1] at h; cases h
  | some pr1 =>
    obtain ⟨st1, t1⟩ := pr1
    rw [h1] at h
    dsimp only at h
    cases h2 : stepAlloc st1 t1 (idx1 v) with
    | none => rw [h2] at h; cases h
    | some pr2 =>
      obtain ⟨st2w, t2⟩ := pr2
      rw [h2] at h
      dsimp only at h
      by_cases hleaf : pteValid (st2w.mem t2 (idx2 v))
      · rw [if_pos hleaf] at h; cases h
      · rw [if_neg hleaf] at h
        have hst2 : st2 = { st2w with mem := upd2 st2w.mem t2 (idx2 v) (pteNew p (f ||| 1)) } :=
          (Option.some.inj h).symm
        rcases stepAlloc_elim h1 with ⟨hbr0, hsteq, ht1⟩ | ⟨hnv0, stA, hallocA, hstA⟩
        · -- first level already a branch
          rw [hsteq] at h2
          rcases stepAlloc_elim h2 with ⟨hbr1, hsteq2, ht2⟩ | ⟨hnv1, stB, hallocB, hstB⟩
          · -- case A1
            have hmem2 : st2.mem = upd2 st.mem t2 (idx2 v) (pteNew p (f ||| 1)) := by
              rw [hst2, hsteq2]
            have hv2 : pteValid (st.mem t2 (idx2 v)) = false := by
              rw [← hsteq2]
              simpa using hleaf
            refine ⟨t1, t2, st.mem, hmem2, hv2,
              Or.inl ⟨hbr0, ht1, hbr1, ht2, rfl, ?_, ?_, ?_, ?_⟩⟩
            · rw [hst2, hsteq2]
            · rw [hst2, hsteq2]
            · rw [hst2, hsteq2]
            · rw [hst2, hsteq2]
          · -- case A2
            obtain ⟨hs1, hs2, hs3, hmemB, hbytesB, hbmB, hspB, hepB⟩ := frameAlloc_spec hallocB
            have hw : st2w.mem = upd2 (zeroPage st.mem t2) t1 (idx1 v) (pteNew t2 1) := by
              rw [hstB]
              show upd2 stB.mem t1 (idx1 v) (pteNew t2 1) = _
              rw [hmemB]
            have hmem2 : st2.mem =
                upd2 (upd2 (zeroPage st.mem t2) t1 (idx1 v) (pteNew t2 1)) t2 (idx2 v)
                  (pteNew p (f ||| 1)) := by
              rw [hst2]
              show upd2 st2w.mem t2 (idx2 v) (pteNew p (f ||| 1)) = _
              rw [hw]
            have hv2 : pteValid
                (upd2 (zeroPage st.mem t2) t1 (idx1 v) (pteNew t2 1) t2 (idx2 v)) = false := by
              rw [← hw]
              simpa using hleaf
            refine ⟨t1, t2, upd2 (zeroPage st.mem t2) t1 (idx1 v) (pteNew t2 1), hmem2, hv2,
              Or.inr (Or.inl ⟨hbr0, ht1, hnv1, stB, hallocB, rfl, ?_, ?_, ?_, ?_⟩)⟩
            · rw [hst2]
              show st2w.bm = stB.bm
              rw [hstB]
            · rw [hst2]
              show st2w.bytes = stB.bytes
              rw [hstB]
            · rw [hst2]
              show st2w.startP = st.startP
              rw [hstB]
              show stB.startP = st.startP
              rw [hspB]
            · rw [hst2]
              show st2w.endP = st.endP
              rw [hstB]
              show stB.endP = st.endP
              rw [hepB]
        · -- first level allocated: second level must be invalid then allocated
          obtain ⟨hsA1, hsA2, hsA3, hmemA, hbytesA, hbmA, hspA, hepA⟩ := frameAlloc_spec hallocA
          have ht1root : t1 ≠ root := by
            intro he
            exact (frameAlloc_fresh hallocA hroot) he.symm
          have hread : st1.mem t1 (idx1 v) = 0 := by
            rw [hstA]
            show upd2 stA.mem root (idx0 v) (pteNew t1 1) t1 (idx1 v) = 0
            rw [upd2_ne _ _ _ _ _ _ (by intro hc; exact ht1root hc.1)]
            rw [hmemA, zeroPage_same]
          rcases stepAlloc_elim h2 with ⟨hbr1, hq1, hq2⟩ | ⟨hnv1, stB, hallocB, hstB⟩
          · rw [hread] at hbr1
            simp [pteBranch, pteValid] at hbr1
          · obtain ⟨hsB1, hsB2, hsB3, hmemB, hbytesB, hbmB, hspB, hepB⟩ := frameAlloc_spec hallocB
            have hw : st2w.mem =
                upd2 (zeroPage (upd2 (zeroPage st.mem t1) root (idx0 v) (pteNew t1 1)) t2)
                  t1 (idx1 v) (pteNew t2 1) := by
              rw [hstB]
              show upd2 stB.mem t1 (idx1 v) (pteNew t2 1) = _
              rw [hmemB, hstA]
              show upd2 (zeroPage (upd2 stA.mem root (idx0 v) (pteNew t1 1)) t2) t1 (idx1 v)
                (pteNew t2 1) = _
              rw [hmemA]
            have hmem2 : st2.mem =
                upd2 (upd2 (zeroPage (upd2 (zeroPage st.mem t1) root (idx0 v) (pteNew t1 1)) t2)
                  t1 (idx1 v) (pteNew t2 1)) t2 (idx2 v) (pteNew p (f ||| 1)) := by
              rw [hst2]
              show upd2 st2w.mem t2 (idx2 v) (pteNew p (f ||| 1)) = _
              rw [hw]
            have hv2 : pteValid
                (upd2 (zeroPage (upd2 (zeroPage st.mem t1) root (idx0 v) (pteNew t1 1)) t2)
                  t1 (idx1 v) (pteNew t2 1) t2 (idx2 v)) = false := by
              rw [← hw]
              simpa using hleaf
            refine ⟨t1, t2,
              upd2 (zeroPage (upd2 (zeroPage st.mem t1) root (idx0 v) (pteNew t1 1)) t2)
                t1 (idx1 v) (pteNew t2 1), hmem2, hv2,
              Or.inr (Or.inr ⟨hnv0, stA, stB, hallocA, ?_, rfl, ?_, ?_, ?_, ?_⟩)⟩
            · rw [← hstA]
              exact hallocB
            · rw [hst2]
              show st2w.bm = stB.bm
              rw [hstB]
            · rw [hst2]
              show st2w.bytes = stB.bytes
              rw [hstB]
            · rw [hst2]
              show st2w.startP = st.startP
              rw [hstB]
              show stB.startP = st.startP
              rw [hspB, hstA]
              show stA.startP = st.startP
              rw [hspA]
            · rw [hst2]
              show st2w.endP = st.endP
              rw [hstB]
              show stB.endP = st.endP
              rw [hepB, hstA]
              show stA.endP = st.endP
              rw [hepA]

/-- Elimination principle for a successful PageTable::unmap: both walk
levels were valid branches, the leaf slot was valid, and the new memory
clears exactly that leaf slot. -/
theorem ptUnmap_elim {st : Machine} {root v : Nat} {st' : Machine} {q : Nat}
    (h : ptUnmap st root v = some (st', q)) :
    pteBranch (st.mem root (idx0 v)) = true ∧
    pteBranch (st.mem (ptePpn (st.mem root (idx0 v))) (idx1 v)) = true ∧
    pteValid (st.mem (ptePpn (st.mem (ptePpn (st.mem root (idx0 v))) (idx1 v))) (idx2 v)) =
      true ∧
    q = ptePpn (st.mem (ptePpn (st.mem (ptePpn (st.mem root (idx0 v))) (idx1 v))) (idx2 v)) ∧
    st' = { st with
      mem := upd2 st.mem (ptePpn (st.mem (ptePpn (st.mem root (idx0 v))) (idx1 v)))
               (idx2 v) 0 } := by
  unfold ptUnmap at h
  by_cases hv0 : pteValid (st.mem root (idx0 v))
  · rw [if_pos hv0] at h
    by_cases hl0 : pteLeaf (st.mem root (idx0 v))
    · rw [if_pos hl0] at h; cases h
    · rw [if_neg hl0] at h
      by_cases hv1 : pteValid (st.mem (ptePpn (st.mem root (idx0 v))) (idx1 v))
      · rw [if_pos hv1] at h
        by_cases hl1 : pteLeaf (st.mem (ptePpn (st.mem root (idx0 v))) (idx1 v))
        · rw [if_pos hl1] at h; cases h
        · rw [if_neg hl1] at h
          by_cases hv2 : pteValid
              (st.mem (ptePpn (st.mem (ptePpn (st.mem root (idx0 v))) (idx1 v))) (idx2 v))
          · rw [if_pos hv2] at h
            have hp := Option.some.inj h
            refine ⟨?_, ?_, hv2, (congrArg Prod.snd hp).symm, (congrArg Prod.fst hp).symm⟩
            · simp [pteBranch, hv0, hl0]
            · simp [pteBranch, hv1, hl1]
          · rw [if_neg hv2] at h; cases h
      · rw [if_neg hv1] at h; cases h
  · rw [if_neg hv0] at h; cases h

theorem mappedAt_translate {m : Nat → Nat → Nat} {root v e : Nat}
    (h : MappedAt m root v e) (hv : pteValid e = true) :
    ptTranslate m root v = some (ptePpn e, pteFlags e) := by
  obtain ⟨h0, h1, h2⟩ := h
  unfold ptTranslate
  have hv0 : pteValid (m root (idx0 v)) = true := by
    unfold pteBranch at h0
    exact (Bool.and_eq_true _ _ |>.mp h0).1
  have hl0 : pteLeaf (m root (idx0 v)) = false := by
    unfold pteBranch at h0
    have := (Bool.and_eq_true _ _ |>.mp h0).2
    simpa using this
  have hv1 : pteValid (m (ptePpn (m root (idx0 v))) (idx1 v)) = true := by
    unfold pteBranch at h1
    exact (Bool.and_eq_true _ _ |>.mp h1).1
  have hl1 : pteLeaf (m (ptePpn (m root (idx0 v))) (idx1 v)) = false := by
    unfold pteBranch at h1
    have := (Bool.and_eq_true _ _ |>.mp h1).2
    simpa using this
  simp only [hv0, hl0, hv1, hl1, h2, hv, if_true, if_false, Bool.false_eq_true]

theorem mappedAt_unmap {st : Machine} {root v e : Nat}
    (h : MappedAt st.mem root v e) (hv : pteValid e = true) :
    ptUnmap st root v =
      some ({ st with
        mem := upd2 st.mem (ptePpn (st.mem (ptePpn (st.mem root (idx0 v))) (idx1 v)))
                 (idx2 v) 0 }, ptePpn e) := by
  obtain ⟨h0, h1, h2⟩ := h
  unfold pteBranch at h0 h1
  have hv0 := (Bool.and_eq_true _ _ |>.mp h0).1
  have hl0 : pteLeaf (st.mem root (idx0 v)) = false := by
    have := (Bool.and_eq_true _ _ |>.mp h0).2
    simpa using this
  have hv1 := (Bool.and_eq_true _ _ |>.mp h1).1
  have hl1 : pteLeaf (st.mem (ptePpn (st.mem root (idx0 v))) (idx1 v)) = false := by
    have := (Bool.and_eq_true _ _ |>.mp h1).2
    simpa using this
  unfold ptUnmap
  simp only [hv0, hl0, hv1, hl1, h2, hv, if_true, if_false, Bool.false_eq_true]

theorem upd2_ne_page (f : Nat → Nat → Nat) (p i x q j : Nat) (h : q ≠ p) :
    upd2 f p i x q j = f q j := upd2_ne f p i x q j (fun hc => h hc.1)

theorem upd2_ne_idx (f : Nat → Nat → Nat) (p i x q j : Nat) (h : j ≠ i) :
    upd2 f p i x q j = f q j := upd2_ne f p i x q j (fun hc => h hc.2)

theorem safe_memUpd (st : Machine) (m : Nat → Nat → Nat) (q : Nat) :
    Safe { st with mem := m } q ↔ Safe st q := Iff.rfl

/-- After a successful PageTable::map of v, the leaf slot of v holds
exactly the new entry, through two branch levels. -/
theorem ptMap_mappedAt {st : Machine} {root v p f : Nat} {st2 : Machine}
    (hWF : WFpt st root) (h : ptMap st root v p f = some st2) :
    MappedAt st2.mem root v (pteNew p (f ||| 1)) := by
  obtain ⟨hep, hsr, hw2, hw3, hw4a, hw4b, hw5⟩ := hWF
  obtain ⟨t1, t2, M2, hmem, hv2, hcase⟩ := ptMap_elim hsr h
  rcases hcase with ⟨hbr0, ht1, hbr1, ht2, hM2, _⟩ | ⟨hbr0, ht1, hnv1, stB, hallocB, hM2, _⟩ |
    ⟨hnv0, stA, stB, hallocA, hallocB, hM2, _⟩
  · -- case A1: both levels pre-existing
    have hbr1x : pteBranch (st.mem (ptePpn (st.mem root (idx0 v))) (idx1 v)) = true := by
      rw [← ht1]
      exact hbr1
    obtain ⟨hsafe2, hne2root⟩ := hw4a (idx0 v) (idx0_lt v) (idx1 v) (idx1_lt v) hbr0 hbr1x
    have hne2t1 := hw4b (idx0 v) (idx0_lt v) (idx1 v) (idx1_lt v) (idx0 v) (idx0_lt v)
      hbr0 hbr1x hbr0
    rw [← ht1] at hsafe2 hne2root hne2t1
    rw [← ht2] at hsafe2 hne2root hne2t1
    have hr0 : st2.mem root (idx0 v) = st.mem root (idx0 v) := by
      rw [hmem, hM2, upd2_ne_page st.mem t2 (idx2 v) (pteNew p (f ||| 1)) root (idx0 v)
        (fun hc => hne2root hc.symm)]
    have hr1 : st2.mem (ptePpn (st2.mem root (idx0 v))) (idx1 v) = st.mem t1 (idx1 v) := by
      rw [hr0, ← ht1, hmem, hM2, upd2_ne_page st.mem t2 (idx2 v) (pteNew p (f ||| 1)) t1
        (idx1 v) (fun hc => hne2t1 hc.symm)]
    have hr2 : st2.mem (ptePpn (st2.mem (ptePpn (st2.mem root (idx0 v))) (idx1 v))) (idx2 v) =
        pteNew p (f ||| 1) := by
      rw [hr1, ← ht2, hmem, hM2, upd2_same]
    exact ⟨by rw [hr0]; exact hbr0, by rw [hr1]; exact hbr1, hr2⟩
  · -- case A2: level-1 table freshly allocated
    obtain ⟨hsafe1, hne1root⟩ := hw2 (idx0 v) (idx0_lt v) hbr0
    rw [← ht1] at hsafe1 hne1root
    have hne2root : root ≠ t2 := frameAlloc_fresh hallocB hsr
    have hne2t1 : t1 ≠ t2 := frameAlloc_fresh hallocB hsafe1
    have ht2lt : t2 < 2 ^ 44 := by
      obtain ⟨hA, hB, _⟩ := frameAlloc_spec hallocB
      omega
    have hr0 : st2.mem root (idx0 v) = st.mem root (idx0 v) := by
      rw [hmem, hM2,
        upd2_ne_page _ t2 (idx2 v) (pteNew p (f ||| 1)) root (idx0 v) hne2root,
        upd2_ne_page _ t1 (idx1 v) (pteNew t2 1) root (idx0 v) (by omega),
        zeroPage_ne st.mem t2 root (idx0 v) hne2root]
    have hr1 : st2.mem (ptePpn (st2.mem root (idx0 v))) (idx1 v) = pteNew t2 1 := by
      rw [hr0, ← ht1, hmem, hM2,
        upd2_ne_page _ t2 (idx2 v) (pteNew p (f ||| 1)) t1 (idx1 v) hne2t1,
        upd2_same]
    have hr2 : st2.mem (ptePpn (st2.mem (ptePpn (st2.mem root (idx0 v))) (idx1 v))) (idx2 v) =
        pteNew p (f ||| 1) := by
      rw [hr1, ptePpn_pteNew t2 1 ht2lt, hmem, upd2_same]
    exact ⟨by rw [hr0]; exact hbr0, by rw [hr1]; exact pteBranch_one t2, hr2⟩
  · -- case B: both tables freshly allocated
    have hne1root : root ≠ t1 := frameAlloc_fresh hallocA hsr
    have hsafeA_root : Safe { stA with mem := upd2 stA.mem root (idx0 v) (pteNew t1 1) } root := by
      rw [safe_memUpd]
      exact frameAlloc_safe_mono hallocA hsr
    have hne2root : root ≠ t2 := frameAlloc_fresh hallocB hsafeA_root
    have hsafeA_t1 : Safe { stA with mem := upd2 stA.mem root (idx0 v) (pteNew t1 1) } t1 := by
      rw [safe_memUpd]
      exact markedD_safe (frameAlloc_marked_new hallocA)
    have hne2t1 : t1 ≠ t2 := frameAlloc_fresh hallocB hsafeA_t1
    have ht1lt : t1 < 2 ^ 44 := by
      obtain ⟨hA, hB, _⟩ := frameAlloc_spec hallocA
      omega
    have ht2lt : t2 < 2 ^ 44 := by
      obtain ⟨hA, hB, hrest⟩ := frameAlloc_spec hallocB
      have hstep : stA.endP = st.endP := (frameAlloc_spec hallocA).2.2.2.2.2.2.2
      have hBp : t2 < ({ stA with mem := upd2 stA.mem root (idx0 v) (pteNew t1 1)} : Machine).endP := hB
      simp only at hBp
      omega
    have hr0 : st2.mem root (idx0 v) = pteNew t1 1 := by
      rw [hmem, hM2,
        upd2_ne_page _ t2 (idx2 v) (pteNew p (f ||| 1)) root (idx0 v) hne2root,
        upd2_ne_page _ t1 (idx1 v) (pteNew t2 1) root (idx0 v) (by omega),
        zeroPage_ne _ t2 root (idx0 v) hne2root, upd2_same]
    have hr1 : st2.mem (ptePpn (st2.mem root (idx0 v))) (idx1 v) = pteNew t2 1 := by
      rw [hr0, ptePpn_pteNew t1 1 ht1lt, hmem, hM2,
        upd2_ne_page _ t2 (idx2 v) (pteNew p (f ||| 1)) t1 (idx1 v) hne2t1,
        upd2_same]
    have hr2 : st2.mem (ptePpn (st2.mem (ptePpn (st2.mem root (idx0 v))) (idx1 v))) (idx2 v) =
        pteNew p (f ||| 1) := by
      rw [hr1, ptePpn_pteNew t2 1 ht2lt, hmem, upd2_same]
    exact ⟨by rw [hr0]; exact pteBranch_one t1, by rw [hr1]; exact pteBranch_one t2, hr2⟩

/-- After a successful PageTable::unmap of v, v no longer translates. -/
theorem ptUnmap_translate_none {st : Machine} {root v : Nat} {st' : Machine} {q : Nat}
    (h : ptUnmap st root v = some (st', q)) :
    ptTranslate st'.mem root v = none := by
  obtain ⟨hbr0, hbr1, hv2, hq, hst'⟩ := ptUnmap_elim h
  have hmem : st'.mem = upd2 st.mem
      (ptePpn (st.mem (ptePpn (st.mem root (idx0 v))) (idx1 v))) (idx2 v) 0 := by
    rw [hst']
  by_cases hc0 : root = ptePpn (st.mem (ptePpn (st.mem root (idx0 v))) (idx1 v)) ∧
      idx0 v = idx2 v
  · have he0 : st'.mem root (idx0 v) = 0 := by
      rw [hmem, ← hc0.1, hc0.2, upd2_same]
    unfold ptTranslate
    simp only [he0, pteValid_zero, Bool.false_eq_true, if_false]
  · have he0 : st'.mem root (idx0 v) = st.mem root (idx0 v) := by
      rw [hmem, upd2_ne _ _ _ _ _ _ hc0]
    have hval0 : pteValid (st.mem root (idx0 v)) = true := by
      unfold pteBranch at hbr0
      exact (Bool.and_eq_true _ _ |>.mp hbr0).1
    have hlf0 : pteLeaf (st.mem root (idx0 v)) = false := by
      unfold pteBranch at hbr0
      have := (Bool.and_eq_true _ _ |>.mp hbr0).2
      simpa using this
    by_cases hc1 : ptePpn (st.mem root (idx0 v)) =
        ptePpn (st.mem (ptePpn (st.mem root (idx0 v))) (idx1 v)) ∧ idx1 v = idx2 v
    · have he1 : st'.mem (ptePpn (st.mem root (idx0 v))) (idx1 v) = 0 := by
        rw [hmem, ← hc1.1, hc1.2, upd2_same]
      unfold ptTranslate
      simp only [he0, hval0, hlf0, he1, pteValid_zero, Bool.false_eq_true, if_false,
        if_true]
    · have he1 : st'.mem (ptePpn (st.mem root (idx0 v))) (idx1 v) =
          st.mem (ptePpn (st.mem root (idx0 v))) (idx1 v) := by
        rw [hmem, upd2_ne _ _ _ _ _ _ hc1]
      have hval1 : pteValid (st.mem (ptePpn (st.mem root (idx0 v))) (idx1 v)) = true := by
        unfold pteBranch at hbr1
        exact (Bool.and_eq_true _ _ |>.mp hbr1).1
      have hlf1 : pteLeaf (st.mem (ptePpn (st.mem root (idx0 v))) (idx1 v)) = false := by
        unfold pteBranch at hbr1
        have := (Bool.and_eq_true _ _ |>.mp hbr1).2
        simpa using this
      have he2 : st'.mem (ptePpn (st.mem (ptePpn (st.mem root (idx0 v))) (idx1 v)))
          (idx2 v) = 0 := by
        rw [hmem, upd2_same]
      unfold ptTranslate
      simp only [he0, hval0, hlf0, he1, hval1, hlf1, he2, pteValid_zero,
        Bool.false_eq_true, if_false, if_true]

/-- Claim C3: for every page table, virtual page v, physical page p and
flag set f (44-bit ppn and 8-bit flags per the data model, over a
well-formed table), if map(v, p, f) succeeds then translate(v) returns
Some((p, f | V)), and if unmap(v) succeeds then translate(v) returns
None. -/
theorem c3_page_table_round_trip (st : Machine) (root v p f : Nat)
    (hWF : WFpt st root) (hp : p < 2 ^ 44) (hf : f < 256) :
    (∀ st2, ptMap st root v p f = some st2 →
       ptTranslate st2.mem root v = some (p, f ||| 1)) ∧
    (∀ st' q, ptUnmap st root v = some (st', q) →
       ptTranslate st'.mem root v = none) := by
  constructor
  · intro st2 h
    have hma := ptMap_mappedAt hWF h
    have hv : pteValid (pteNew p (f ||| 1)) = true := by
      rw [pteValid_pteNew]
      simp [Nat.mod_eq_of_lt (lor_one_lt f hf), lor_one_mod_two]
    have := mappedAt_translate hma hv
    rw [this, ptePpn_pteNew p _ hp, pteFlags_pteNew]
    rw [Nat.mod_eq_of_lt (lor_one_lt f hf)]
  · intro st' q h
    exact ptUnmap_translate_none h

theorem WFpt_empty (st : Machine) (root : Nat) (hmem : ∀ t i, st.mem t i = 0)
    (hep : st.endP ≤ 2 ^ 44) (hsr : Safe st root) : WFpt st root := by
  have hbr : ∀ t i, pteBranch (st.mem t i) = false := by
    intro t i
    rw [hmem]
    decide
  refine ⟨hep, hsr, ?_, ?_, ?_, ?_, ?_⟩
  · intro i hi hb
    rw [hbr] at hb
    cases hb
  · intro i hi i' hi' hb
    rw [hbr] at hb
    cases hb
  · intro i hi j hj hb
    rw [hbr] at hb
    cases hb
  · intro i hi j hj i' hi' hb
    rw [hbr] at hb
    cases hb
  · intro i hi j hj i' hi' j' hj' hb
    rw [hbr] at hb
    cases hb

set_option maxRecDepth 8192 in
theorem c3_page_table_round_trip_witness :
    WFpt mW 0 ∧ 7 < 2 ^ 44 ∧ 6 < 256 ∧
    ((∀ st2, ptMap mW 0 74565 7 6 = some st2 →
        ptTranslate st2.mem 0 74565 = some (7, 6 ||| 1)) ∧
     (∀ st' q, ptUnmap mW 0 74565 = some (st', q) →
        ptTranslate st'.mem 0 74565 = none)) ∧
    (ptMap mW 0 74565 7 6).isSome = true :=
  ⟨WFpt_empty mW 0 (fun t i => rfl) (by decide) (Or.inl (by decide)),
   by decide, by decide,
   c3_page_table_round_trip mW 0 74565 7 6
     (WFpt_empty mW 0 (fun t i => rfl) (by decide) (Or.inl (by decide)))
     (by decide) (by decide),
   by decide⟩

/-- Claim C5, counterexample: a user-mode timer tick on the freshly
constructed scheduler (counter 0, slice 10) with one live task re-arms
the timer but does not invoke the task switch, refuting preemption on
every tick. -/
theorem c5_every_tick_counterexample :
    (handleTimer true 1 schedNew).rearmed = true ∧
    (handleTimer true 1 schedNew).switched = false := by decide

/-- Claim C5, amended: on every user-mode SupervisorTimer trap the
handler re-arms the timer, but invokes the task switch only when at
least one task exists and the scheduler's tick counter reaches the
10-tick time slice (the counter then resets). -/
theorem c5_timer_rearm_and_time_slice (n : Nat) (s : Sched) :
    (handleTimer true n s).rearmed = true ∧
    ((handleTimer true n s).switched = true ↔
       0 < n ∧ s.timeSlice ≤ s.currentTimeSlice + 1) := by
  unfold handleTimer schedTick
  by_cases hn : 0 < n
  · simp only [hn, if_pos rfl, if_true]
    by_cases hs : s.timeSlice ≤ s.currentTimeSlice + 1
    · simp [hs, hn]
    · simp [hs, hn]
  · simp [hn]

/-- Claim C8: a SupervisorTimer trap whose saved SPP is Supervisor
(kernel mode) re-arms the timer, never invokes the task switch, and
leaves the scheduler state untouched. -/
theorem c8_kernel_timer_never_switches (n : Nat) (s : Sched) :
    handleTimer false n s = ⟨s, true, false⟩ := by
  unfold handleTimer
  simp

/-- Claim C6: mm::init initializes the frame allocator over
[KERNEL_HEAP_START, MEMORY_END) rather than [HEAP_END, MEMORY_END); the
very first frame it hands out is 0x80420, whose physical address
0x80420000 lies inside the kernel heap window. -/
theorem c6_first_frame_inside_heap_window :
    (frameAlloc (mmInitMachine (fun _ _ => 0) (fun _ _ => 0))).map Prod.fst =
      some 0x80420 ∧
    KERNEL_HEAP_START ≤ 0x80420 * PAGE_SIZE ∧
    0x80420 * PAGE_SIZE < KERNEL_HEAP_END ∧
    (mmInitMachine (fun _ _ => 0) (fun _ _ => 0)).startP * PAGE_SIZE =
      KERNEL_HEAP_START := by
  refine ⟨?_, by decide, by decide, by decide⟩
  decide

theorem pteBranch_valid {e : Nat} (h : pteBranch e = true) : pteValid e = true :=
  (Bool.and_eq_true _ _ |>.mp h).1

theorem pteBranch_not_leaf {e : Nat} (h : pteBranch e = true) : pteLeaf e = false := by
  have := (Bool.and_eq_true _ _ |>.mp h).2
  simpa using this

theorem pteBranch_of_parts {e : Nat} (hv : pteValid e = true) (hl : pteLeaf e = false) :
    pteBranch e = true := by
  unfold pteBranch
  rw [hv, hl]
  rfl

theorem ptTranslate_none_of_l0 {m : Nat → Nat → Nat} {root v : Nat}
    (h : pteValid (m root (idx0 v)) = false) : ptTranslate m root v = none := by
  unfold ptTranslate
  simp only [h, Bool.false_eq_true, if_false]

theorem ptTranslate_none_of_l1 {m : Nat → Nat → Nat} {root v : Nat}
    (h0 : pteBranch (m root (idx0 v)) = true)
    (h1 : pteValid (m (ptePpn (m root (idx0 v))) (idx1 v)) = false) :
    ptTranslate m root v = none := by
  unfold ptTranslate
  simp only [pteBranch_valid h0, pteBranch_not_leaf h0, h1, Bool.false_eq_true,
    if_false, if_true]

theorem ptTranslate_none_of_l2 {m : Nat → Nat → Nat} {root v : Nat}
    (h0 : pteBranch (m root (idx0 v)) = true)
    (h1 : pteBranch (m (ptePpn (m root (idx0 v))) (idx1 v)) = true)
    (h2 : pteValid (m (ptePpn (m (ptePpn (m root (idx0 v))) (idx1 v))) (idx2 v)) = false) :
    ptTranslate m root v = none := by
  unfold ptTranslate
  simp only [pteBranch_valid h0, pteBranch_not_leaf h0, pteBranch_valid h1,
    pteBranch_not_leaf h1, h2, Bool.false_eq_true, if_false, if_true]

theorem ptTranslate_none_elim {m : Nat → Nat → Nat} {root v : Nat}
    (h : ptTranslate m root v = none) :
    pteValid (m root (idx0 v)) = false ∨
    (pteBranch (m root (idx0 v)) = true ∧
      pteValid (m (ptePpn (m root (idx0 v))) (idx1 v)) = false) ∨
    (pteBranch (m root (idx0 v)) = true ∧
      pteBranch (m (ptePpn (m root (idx0 v))) (idx1 v)) = true ∧
      pteValid (m (ptePpn (m (ptePpn (m root (idx0 v))) (idx1 v))) (idx2 v)) = false) := by
  unfold ptTranslate at h
  by_cases hv0 : pteValid (m root (idx0 v))
  · by_cases hl0 : pteLeaf (m root (idx0 v))
    · simp only [hv0, hl0, if_true] at h
      cases h
    · have hb0 := pteBranch_of_parts hv0 (by simpa using hl0)
      by_cases hv1 : pteValid (m (ptePpn (m root (idx0 v))) (idx1 v))
      · by_cases hl1 : pteLeaf (m (ptePpn (m root (idx0 v))) (idx1 v))
        · simp only [hv0, hl0, hv1, hl1, if_true, Bool.false_eq_true, if_false] at h
          cases h
        · have hb1 := pteBranch_of_parts hv1 (by simpa using hl1)
          by_cases hv2 : pteValid
              (m (ptePpn (m (ptePpn (m root (idx0 v))) (idx1 v))) (idx2 v))
          · simp only [hv0, hl0, hv1, hl1, hv2, if_true, Bool.false_eq_true, if_false] at h
            cases h
          · exact Or.inr (Or.inr ⟨hb0, hb1, by simpa using hv2⟩)
      · exact Or.inr (Or.inl ⟨hb0, by simpa using hv1⟩)
  · exact Or.inl (by simpa using hv0)

theorem ptMap_fields {st : Machine} {root v p f : Nat} {st2 : Machine}
    (hroot : Safe st root) (h : ptMap st root v p f = some st2) :
    st2.startP = st.startP ∧ st2.endP = st.endP ∧
    (∀ q, Safe st q → Safe st2 q) ∧ (∀ q, markedD st q → markedD st2 q) := by
  obtain ⟨t1, t2, M2, hmem, hv2, hcase⟩ := ptMap_elim hroot h
  rcases hcase with ⟨_, _, _, _, _, hbm, _, hsp, hep⟩ |
    ⟨_, _, _, stB, hallocB, _, hbm, _, hsp, hep⟩ |
    ⟨_, stA, stB, hallocA, hallocB, _, hbm, _, hsp, hep⟩
  · refine ⟨hsp, hep, ?_, ?_⟩
    · intro q hq
      exact safe_congr hbm hsp hep hq
    · intro q hq
      exact marked_congr hbm hsp hep hq
  · obtain ⟨_, _, _, _, _, hbmB, hspB, hepB⟩ := frameAlloc_spec hallocB
    refine ⟨hsp, hep, ?_, ?_⟩
    · intro q hq
      exact safe_congr hbm (by rw [hsp, ← hspB]) (by rw [hep, ← hepB])
        (frameAlloc_safe_mono hallocB hq)
    · intro q hq
      exact marked_congr hbm (by rw [hsp, ← hspB]) (by rw [hep, ← hepB])
        (frameAlloc_marked_mono hallocB hq)
  · obtain ⟨_, _, _, _, _, hbmA, hspA, hepA⟩ := frameAlloc_spec hallocA
    obtain ⟨_, _, _, _, _, hbmB, hspB, hepB⟩ := frameAlloc_spec hallocB
    refine ⟨hsp, hep, ?_, ?_⟩
    · intro q hq
      have h1 : Safe { stA with mem := upd2 stA.mem root (idx0 v) (pteNew t1 1) } q :=
        (safe_memUpd _ _ _).mpr (frameAlloc_safe_mono hallocA hq)
      have h2 := frameAlloc_safe_mono hallocB h1
      exact safe_congr hbm (by dsimp only at hspB; omega) (by dsimp only at hepB; omega) h2
    · intro q hq
      have h1 : markedD { stA with mem := upd2 stA.mem root (idx0 v) (pteNew t1 1) } q :=
        frameAlloc_marked_mono hallocA hq
      have h2 := frameAlloc_marked_mono hallocB h1
      exact marked_congr hbm (by dsimp only at hspB; omega) (by dsimp only at hepB; omega) h2

theorem mappedAt_congr {m m' : Nat → Nat → Nat} {root v e : Nat}
    (hMA : MappedAt m root v e)
    (h0 : m' root (idx0 v) = m root (idx0 v))
    (h1 : m' (ptePpn (m root (idx0 v))) (idx1 v) = m (ptePpn (m root (idx0 v))) (idx1 v))
    (h2 : m' (ptePpn (m (ptePpn (m root (idx0 v))) (idx1 v))) (idx2 v) =
      m (ptePpn (m (ptePpn (m root (idx0 v))) (idx1 v))) (idx2 v)) :
    MappedAt m' root v e := by
  obtain ⟨a, b, c⟩ := hMA
  refine ⟨?_, ?_, ?_⟩
  · rw [h0]
    exact a
  · rw [h0, h1]
    exact b
  · rw [h0, h1, h2]
    exact c

/-- A successful PageTable::map of v preserves the full-depth mapping of
every page v' whose SV39 index path differs from that of v. -/
theorem ptMap_mappedAt_other {st : Machine} {root v p f : Nat} {st2 : Machine}
    (hWF : WFpt st root) (h : ptMap st root v p f = some st2)
    {vx e : Nat}
    (htr : ¬(idx0 vx = idx0 v ∧ idx1 vx = idx1 v ∧ idx2 vx = idx2 v))
    (hMA : MappedAt st.mem root vx e) :
    MappedAt st2.mem root vx e := by
  obtain ⟨hep, hsr, hw2, hw3, hw4a, hw4b, hw5⟩ := hWF
  obtain ⟨hb0x, hb1x, hex⟩ := hMA
  obtain ⟨hsafeT1x, hT1xroot⟩ := hw2 (idx0 vx) (idx0_lt vx) hb0x
  obtain ⟨hsafeT2x, hT2xroot⟩ :=
    hw4a (idx0 vx) (idx0_lt vx) (idx1 vx) (idx1_lt vx) hb0x hb1x
  obtain ⟨t1, t2, M2, hmem, hv2, hcase⟩ := ptMap_elim hsr h
  rcases hcase with ⟨hbr0, ht1, hbr1, ht2, hM2, hrest⟩ |
    ⟨hbr0, ht1, hnv1, stB, hallocB, hM2, hrest⟩ |
    ⟨hnv0, stA, stB, hallocA, hallocB, hM2, hrest⟩
  · -- case A1: the only write is the leaf of v at (t2, idx2 v)
    have hbr1r : pteBranch (st.mem (ptePpn (st.mem root (idx0 v))) (idx1 v)) = true := by
      rw [← ht1]
      exact hbr1
    obtain ⟨hsafet2, ht2root⟩ :=
      hw4a (idx0 v) (idx0_lt v) (idx1 v) (idx1_lt v) hbr0 hbr1r
    have ht2A : t2 = ptePpn (st.mem (ptePpn (st.mem root (idx0 v))) (idx1 v)) := by
      rw [ht2, ht1]
    have ht2nT1x : t2 ≠ ptePpn (st.mem root (idx0 vx)) := by
      rw [ht2A]
      exact hw4b (idx0 v) (idx0_lt v) (idx1 v) (idx1_lt v) (idx0 vx) (idx0_lt vx)
        hbr0 hbr1r hb0x
    refine mappedAt_congr ⟨hb0x, hb1x, hex⟩ ?_ ?_ ?_
    · rw [hmem, hM2]
      exact upd2_ne_page _ _ _ _ _ _ (by rw [ht2A]; omega)
    · rw [hmem, hM2]
      exact upd2_ne_page _ _ _ _ _ _ (fun hc => ht2nT1x hc.symm)
    · rw [hmem, hM2]
      by_cases hT2eq : ptePpn (st.mem (ptePpn (st.mem root (idx0 vx))) (idx1 vx)) = t2
      · obtain ⟨hi0, hi1⟩ := hw5 (idx0 vx) (idx0_lt vx) (idx1 vx) (idx1_lt vx)
          (idx0 v) (idx0_lt v) (idx1 v) (idx1_lt v) hb0x hb1x hbr0 hbr1r
          (by rw [hT2eq, ht2A])
        have hi2 : idx2 vx ≠ idx2 v := fun hc => htr ⟨hi0, hi1, hc⟩
        exact upd2_ne_idx _ _ _ _ _ _ hi2
      · exact upd2_ne_page _ _ _ _ _ _ hT2eq
  · -- case A2: branch write at (t1, idx1 v), zero of fresh t2, leaf at (t2, idx2 v)
    obtain ⟨hsafet1, ht1root⟩ := hw2 (idx0 v) (idx0_lt v) hbr0
    rw [← ht1] at hsafet1 ht1root
    have hroott2 : root ≠ t2 := frameAlloc_fresh hallocB hsr
    have hT1xt2 : ptePpn (st.mem root (idx0 vx)) ≠ t2 := frameAlloc_fresh hallocB hsafeT1x
    have hT2xt2 : ptePpn (st.mem (ptePpn (st.mem root (idx0 vx))) (idx1 vx)) ≠ t2 :=
      frameAlloc_fresh hallocB hsafeT2x
    have hT2xt1 : ptePpn (st.mem (ptePpn (st.mem root (idx0 vx))) (idx1 vx)) ≠ t1 := by
      rw [ht1]
      exact hw4b (idx0 vx) (idx0_lt vx) (idx1 vx) (idx1_lt vx) (idx0 v) (idx0_lt v)
        hb0x hb1x hbr0
    refine mappedAt_congr ⟨hb0x, hb1x, hex⟩ ?_ ?_ ?_
    · rw [hmem, hM2, upd2_ne_page _ _ _ _ _ _ hroott2,
        upd2_ne_page _ _ _ _ _ _ (fun hc => ht1root hc.symm),
        zeroPage_ne _ _ _ _ hroott2]
    · rw [hmem, hM2, upd2_ne_page _ _ _ _ _ _ hT1xt2]
      by_cases hT1eq : ptePpn (st.mem root (idx0 vx)) = t1
      · have hi0 : idx0 vx = idx0 v := by
          refine hw3 (idx0 vx) (idx0_lt vx) (idx0 v) (idx0_lt v) hb0x hbr0 ?_
          rw [hT1eq, ht1]
        have hi1 : idx1 vx ≠ idx1 v := by
          intro hc
          rw [hT1eq, hc] at hb1x
          rw [pteBranch_valid hb1x] at hnv1
          cases hnv1
        rw [upd2_ne _ _ _ _ _ _ (fun hc => hi1 hc.2), zeroPage_ne _ _ _ _ hT1xt2]
      · rw [upd2_ne_page _ _ _ _ _ _ hT1eq, zeroPage_ne _ _ _ _ hT1xt2]
    · rw [hmem, hM2, upd2_ne_page _ _ _ _ _ _ hT2xt2,
        upd2_ne_page _ _ _ _ _ _ hT2xt1, zeroPage_ne _ _ _ _ hT2xt2]
  · -- case B: both tables fresh; the root slot of v was invalid
    have hroott1 : root ≠ t1 := frameAlloc_fresh hallocA hsr
    have hfresh2 : ∀ q, Safe st q → q ≠ t2 := by
      intro q hq
      exact frameAlloc_fresh hallocB
        ((safe_memUpd _ _ _).mpr (frameAlloc_safe_mono hallocA hq))
    have hroott2 : root ≠ t2 := hfresh2 root hsr
    have hT1xt1 : ptePpn (st.mem root (idx0 vx)) ≠ t1 :=
      frameAlloc_fresh hallocA hsafeT1x
    have hT1xt2 : ptePpn (st.mem root (idx0 vx)) ≠ t2 := hfresh2 _ hsafeT1x
    have hT2xt1 : ptePpn (st.mem (ptePpn (st.mem root (idx0 vx))) (idx1 vx)) ≠ t1 :=
      frameAlloc_fresh hallocA hsafeT2x
    have hT2xt2 : ptePpn (st.mem (ptePpn (st.mem root (idx0 vx))) (idx1 vx)) ≠ t2 :=
      hfresh2 _ hsafeT2x
    have hi0 : idx0 vx ≠ idx0 v := by
      intro hc
      have hbx := hb0x
      rw [hc] at hbx
      have hval := pteBranch_valid hbx
      rw [hnv0] at hval
      cases hval
    refine mappedAt_congr ⟨hb0x, hb1x, hex⟩ ?_ ?_ ?_
    · rw [hmem, hM2, upd2_ne_page _ _ _ _ _ _ hroott2,
        upd2_ne_page _ _ _ _ _ _ hroott1,
        zeroPage_ne _ _ _ _ hroott2,
        upd2_ne _ _ _ _ _ _ (fun hc => hi0 hc.2), zeroPage_ne _ _ _ _ hroott1]
    · rw [hmem, hM2, upd2_ne_page _ _ _ _ _ _ hT1xt2,
        upd2_ne_page _ _ _ _ _ _ hT1xt1, zeroPage_ne _ _ _ _ hT1xt2,
        upd2_ne_page _ _ _ _ _ _ hT1xroot, zeroPage_ne _ _ _ _ hT1xt1]
    · rw [hmem, hM2, upd2_ne_page _ _ _ _ _ _ hT2xt2,
        upd2_ne_page _ _ _ _ _ _ hT2xt1, zeroPage_ne _ _ _ _ hT2xt2,
        upd2_ne_page _ _ _ _ _ _ hT2xroot, zeroPage_ne _ _ _ _ hT2xt1]

/-- A successful PageTable::map of v leaves every non-translating page
vx with a distinct SV39 index path non-translating. -/
theorem ptMap_translate_none_other {st : Machine} {root v p f : Nat} {st2 : Machine}
    (hWF : WFpt st root) (h : ptMap st root v p f = some st2)
    {vx : Nat}
    (htr : ¬(idx0 vx = idx0 v ∧ idx1 vx = idx1 v ∧ idx2 vx = idx2 v))
    (hN : ptTranslate st.mem root vx = none) :
    ptTranslate st2.mem root vx = none := by
  obtain ⟨hep, hsr, hw2, hw3, hw4a, hw4b, hw5⟩ := hWF
  obtain ⟨t1, t2, M2, hmem, hv2, hcase⟩ := ptMap_elim hsr h
  rcases hcase with ⟨hbr0, ht1, hbr1, ht2, hM2, hrest⟩ |
    ⟨hbr0, ht1, hnv1, stB, hallocB, hM2, hrest⟩ |
    ⟨hnv0, stA, stB, hallocA, hallocB, hM2, hrest⟩
  · -- case A1: single leaf write at (t2, idx2 v), t2 the L2 table of v
    have hbr1r : pteBranch (st.mem (ptePpn (st.mem root (idx0 v))) (idx1 v)) = true := by
      rw [← ht1]
      exact hbr1
    obtain ⟨hsafet2, ht2root⟩ :=
      hw4a (idx0 v) (idx0_lt v) (idx1 v) (idx1_lt v) hbr0 hbr1r
    have ht2A : t2 = ptePpn (st.mem (ptePpn (st.mem root (idx0 v))) (idx1 v)) := by
      rw [ht2, ht1]
    have hr0 : st2.mem root (idx0 vx) = st.mem root (idx0 vx) := by
      rw [hmem, hM2]
      exact upd2_ne_page _ _ _ _ _ _ (by rw [ht2A]; omega)
    rcases ptTranslate_none_elim hN with hinv0 | ⟨hb0x, hinv1⟩ | ⟨hb0x, hb1x, hinv2⟩
    · exact ptTranslate_none_of_l0 (by rw [hr0]; exact hinv0)
    · have hT1xt2 : ptePpn (st.mem root (idx0 vx)) ≠ t2 := by
        rw [ht2A]
        exact hw4b (idx0 v) (idx0_lt v) (idx1 v) (idx1_lt v) (idx0 vx) (idx0_lt vx)
          hbr0 hbr1r hb0x |>.symm
      have hr1 : st2.mem (ptePpn (st.mem root (idx0 vx))) (idx1 vx) =
          st.mem (ptePpn (st.mem root (idx0 vx))) (idx1 vx) := by
        rw [hmem, hM2]
        exact upd2_ne_page _ _ _ _ _ _ hT1xt2
      refine ptTranslate_none_of_l1 ?_ ?_
      · rw [hr0]
        exact hb0x
      · rw [hr0, hr1]
        exact hinv1
    · have hT1xt2 : ptePpn (st.mem root (idx0 vx)) ≠ t2 := by
        rw [ht2A]
        exact hw4b (idx0 v) (idx0_lt v) (idx1 v) (idx1_lt v) (idx0 vx) (idx0_lt vx)
          hbr0 hbr1r hb0x |>.symm
      have hr1 : st2.mem (ptePpn (st.mem root (idx0 vx))) (idx1 vx) =
          st.mem (ptePpn (st.mem root (idx0 vx))) (idx1 vx) := by
        rw [hmem, hM2]
        exact upd2_ne_page _ _ _ _ _ _ hT1xt2
      have hr2 : st2.mem (ptePpn (st.mem (ptePpn (st.mem root (idx0 vx))) (idx1 vx)))
          (idx2 vx) = st.mem (ptePpn (st.mem (ptePpn (st.mem root (idx0 vx))) (idx1 vx)))
          (idx2 vx) := by
        rw [hmem, hM2]
        by_cases hT2eq : ptePpn (st.mem (ptePpn (st.mem root (idx0 vx))) (idx1 vx)) = t2
        · obtain ⟨hi0, hi1⟩ := hw5 (idx0 vx) (idx0_lt vx) (idx1 vx) (idx1_lt vx)
            (idx0 v) (idx0_lt v) (idx1 v) (idx1_lt v) hb0x hb1x hbr0 hbr1r
            (by rw [hT2eq, ht2A])
          exact upd2_ne_idx _ _ _ _ _ _ (fun hc => htr ⟨hi0, hi1, hc⟩)
        · exact upd2_ne_page _ _ _ _ _ _ hT2eq
      refine ptTranslate_none_of_l2 ?_ ?_ ?_
      · rw [hr0]
        exact hb0x
      · rw [hr0, hr1]
        exact hb1x
      · rw [hr0, hr1, hr2]
        exact hinv2
  · -- case A2: fresh t2; branch write into the existing L1 table t1 of v
    obtain ⟨hsafet1, ht1root⟩ := hw2 (idx0 v) (idx0_lt v) hbr0
    rw [← ht1] at hsafet1 ht1root
    have hroott2 : root ≠ t2 := frameAlloc_fresh hallocB hsr
    have ht1t2 : t1 ≠ t2 := frameAlloc_fresh hallocB hsafet1
    have ht2lt : t2 < 2 ^ 44 := by
      obtain ⟨hA, hB, _⟩ := frameAlloc_spec hallocB
      omega
    have hr0 : st2.mem root (idx0 vx) = st.mem root (idx0 vx) := by
      rw [hmem, hM2, upd2_ne_page _ _ _ _ _ _ hroott2,
        upd2_ne_page _ _ _ _ _ _ (fun hc => ht1root hc.symm),
        zeroPage_ne _ _ _ _ hroott2]
    rcases ptTranslate_none_elim hN with hinv0 | ⟨hb0x, hinv1⟩ | ⟨hb0x, hb1x, hinv2⟩
    · exact ptTranslate_none_of_l0 (by rw [hr0]; exact hinv0)
    · obtain ⟨hsafeT1x, hT1xroot⟩ := hw2 (idx0 vx) (idx0_lt vx) hb0x
      have hT1xt2 : ptePpn (st.mem root (idx0 vx)) ≠ t2 :=
        frameAlloc_fresh hallocB hsafeT1x
      by_cases hT1eq : ptePpn (st.mem root (idx0 vx)) = t1
      · have hi0 : idx0 vx = idx0 v := by
          refine hw3 (idx0 vx) (idx0_lt vx) (idx0 v) (idx0_lt v) hb0x hbr0 ?_
          rw [hT1eq, ht1]
        by_cases hi1 : idx1 vx = idx1 v
        · -- the fresh branch appears where vx's walk continues: it ends at a
          -- zeroed slot of the fresh table
          have hi2 : idx2 vx ≠ idx2 v := fun hc => htr ⟨hi0, hi1, hc⟩
          have hr1 : st2.mem (ptePpn (st2.mem root (idx0 vx))) (idx1 vx) = pteNew t2 1 := by
            rw [hr0, hT1eq, hmem, hM2, upd2_ne_page _ _ _ _ _ _ ht1t2, hi1, upd2_same]
          have hr2 : st2.mem t2 (idx2 vx) = 0 := by
            rw [hmem, hM2, upd2_ne_idx _ _ _ _ _ _ hi2,
              upd2_ne_page _ _ _ _ _ _ (fun hc => ht1t2 hc.symm), zeroPage_same]
          refine ptTranslate_none_of_l2 ?_ ?_ ?_
          · rw [hr0]
            exact hb0x
          · rw [hr1]
            exact pteBranch_one t2
          · rw [hr1, ptePpn_pteNew t2 1 ht2lt, hr2]
            exact pteValid_zero
        · have hr1 : st2.mem (ptePpn (st.mem root (idx0 vx))) (idx1 vx) =
              st.mem (ptePpn (st.mem root (idx0 vx))) (idx1 vx) := by
            rw [hmem, hM2, upd2_ne_page _ _ _ _ _ _ hT1xt2,
              upd2_ne _ _ _ _ _ _ (fun hc => hi1 (by rw [hc.2]))]
            rw [zeroPage_ne _ _ _ _ hT1xt2]
          exact ptTranslate_none_of_l1 (by rw [hr0]; exact hb0x)
            (by rw [hr0, hr1]; exact hinv1)
      · have hr1 : st2.mem (ptePpn (st.mem root (idx0 vx))) (idx1 vx) =
            st.mem (ptePpn (st.mem root (idx0 vx))) (idx1 vx) := by
          rw [hmem, hM2, upd2_ne_page _ _ _ _ _ _ hT1xt2,
            upd2_ne_page _ _ _ _ _ _ hT1eq, zeroPage_ne _ _ _ _ hT1xt2]
        exact ptTranslate_none_of_l1 (by rw [hr0]; exact hb0x)
          (by rw [hr0, hr1]; exact hinv1)
    · -- both levels of vx are branches in st: its L1 table cannot be t1 with
      -- the same level-1 index (that slot is invalid in st), and its L2 table
      -- is distinct from both written pages
      obtain ⟨hsafeT1x, hT1xroot⟩ := hw2 (idx0 vx) (idx0_lt vx) hb0x
      obtain ⟨hsafeT2x, hT2xroot⟩ :=
        hw4a (idx0 vx) (idx0_lt vx) (idx1 vx) (idx1_lt vx) hb0x hb1x
      have hT1xt2 : ptePpn (st.mem root (idx0 vx)) ≠ t2 :=
        frameAlloc_fresh hallocB hsafeT1x
      have hT2xt2 : ptePpn (st.mem (ptePpn (st.mem root (idx0 vx))) (idx1 vx)) ≠ t2 :=
        frameAlloc_fresh hallocB hsafeT2x
      have hT2xt1 : ptePpn (st.mem (ptePpn (st.mem root (idx0 vx))) (idx1 vx)) ≠ t1 := by
        rw [ht1]
        exact hw4b (idx0 vx) (idx0_lt vx) (idx1 vx) (idx1_lt vx) (idx0 v) (idx0_lt v)
          hb0x hb1x hbr0
      have hnb : ¬(ptePpn (st.mem root (idx0 vx)) = t1 ∧ idx1 vx = idx1 v) := by
        intro hc
        have hbx := hb1x
        rw [hc.1, hc.2] at hbx
        have hval := pteBranch_valid hbx
        rw [hnv1] at hval
        cases hval
      have hr1 : st2.mem (ptePpn (st.mem root (idx0 vx))) (idx1 vx) =
          st.mem (ptePpn (st.mem root (idx0 vx))) (idx1 vx) := by
        rw [hmem, hM2, upd2_ne_page _ _ _ _ _ _ hT1xt2, upd2_ne _ _ _ _ _ _ hnb,
          zeroPage_ne _ _ _ _ hT1xt2]
      have hr2 : st2.mem (ptePpn (st.mem (ptePpn (st.mem root (idx0 vx))) (idx1 vx)))
          (idx2 vx) = st.mem (ptePpn (st.mem (ptePpn (st.mem root (idx0 vx))) (idx1 vx)))
          (idx2 vx) := by
        rw [hmem, hM2, upd2_ne_page _ _ _ _ _ _ hT2xt2,
          upd2_ne_page _ _ _ _ _ _ hT2xt1, zeroPage_ne _ _ _ _ hT2xt2]
      refine ptTranslate_none_of_l2 ?_ ?_ ?_
      · rw [hr0]
        exact hb0x
      · rw [hr0, hr1]
        exact hb1x
      · rw [hr0, hr1, hr2]
        exact hinv2
  · -- case B: both tables fresh; the root slot of v was invalid in st
    have hroott1 : root ≠ t1 := frameAlloc_fresh hallocA hsr
    have hfresh2 : ∀ q, Safe st q → q ≠ t2 := by
      intro q hq
      exact frameAlloc_fresh hallocB
        ((safe_memUpd _ _ _).mpr (frameAlloc_safe_mono hallocA hq))
    have hroott2 : root ≠ t2 := hfresh2 root hsr
    have ht1t2 : t1 ≠ t2 :=
      frameAlloc_fresh hallocB
        ((safe_memUpd _ _ _).mpr (markedD_safe (frameAlloc_marked_new hallocA)))
    have ht1lt : t1 < 2 ^ 44 := by
      obtain ⟨hA, hB, _⟩ := frameAlloc_spec hallocA
      omega
    have ht2lt : t2 < 2 ^ 44 := by
      obtain ⟨hA, hB, _⟩ := frameAlloc_spec hallocB
      obtain ⟨_, _, _, _, _, _, _, hepA⟩ := frameAlloc_spec hallocA
      dsimp only at hB
      omega
    by_cases hi0 : idx0 vx = idx0 v
    · -- vx's walk now enters the fresh tables and dies at a zeroed slot
      have hr0 : st2.mem root (idx0 vx) = pteNew t1 1 := by
        rw [hmem, hM2, upd2_ne_page _ _ _ _ _ _ hroott2,
          upd2_ne_page _ _ _ _ _ _ hroott1, zeroPage_ne _ _ _ _ hroott2, hi0, upd2_same]
      have hinv0 : pteValid (st.mem root (idx0 vx)) = false := by
        rw [hi0]
        exact hnv0
      by_cases hi1 : idx1 vx = idx1 v
      · have hi2 : idx2 vx ≠ idx2 v := fun hc => htr ⟨hi0, hi1, hc⟩
        have hr1 : st2.mem t1 (idx1 vx) = pteNew t2 1 := by
          rw [hmem, hM2, upd2_ne_page _ _ _ _ _ _ ht1t2, hi1, upd2_same]
        have hr2 : st2.mem t2 (idx2 vx) = 0 := by
          rw [hmem, hM2, upd2_ne_idx _ _ _ _ _ _ hi2,
            upd2_ne_page _ _ _ _ _ _ (fun hc => ht1t2 hc.symm), zeroPage_same]
        refine ptTranslate_none_of_l2 ?_ ?_ ?_
        · rw [hr0]
          exact pteBranch_one t1
        · rw [hr0, ptePpn_pteNew t1 1 ht1lt, hr1]
          exact pteBranch_one t2
        · rw [hr0, ptePpn_pteNew t1 1 ht1lt, hr1, ptePpn_pteNew t2 1 ht2lt, hr2]
          exact pteValid_zero
      · have hr1 : st2.mem t1 (idx1 vx) = 0 := by
          rw [hmem, hM2, upd2_ne_page _ _ _ _ _ _ ht1t2,
            upd2_ne _ _ _ _ _ _ (fun hc => hi1 hc.2), zeroPage_ne _ _ _ _ ht1t2,
            upd2_ne_page _ _ _ _ _ _ (fun hc => hroott1 hc.symm), zeroPage_same]
        refine ptTranslate_none_of_l1 ?_ ?_
        · rw [hr0]
          exact pteBranch_one t1
        · rw [hr0, ptePpn_pteNew t1 1 ht1lt, hr1]
          exact pteValid_zero
    · -- vx's root slot is untouched
      have hr0 : st2.mem root (idx0 vx) = st.mem root (idx0 vx) := by
        rw [hmem, hM2, upd2_ne_page _ _ _ _ _ _ hroott2,
          upd2_ne_page _ _ _ _ _ _ hroott1, zeroPage_ne _ _ _ _ hroott2,
          upd2_ne _ _ _ _ _ _ (fun hc => hi0 hc.2), zeroPage_ne _ _ _ _ hroott1]
      rcases ptTranslate_none_elim hN with hinv0 | ⟨hb0x, hinv1⟩ | ⟨hb0x, hb1x, hinv2⟩
      · exact ptTranslate_none_of_l0 (by rw [hr0]; exact hinv0)
      · obtain ⟨hsafeT1x, hT1xroot⟩ := hw2 (idx0 vx) (idx0_lt vx) hb0x
        have hT1xt1 : ptePpn (st.mem root (idx0 vx)) ≠ t1 :=
          frameAlloc_fresh hallocA hsafeT1x
        have hT1xt2 : ptePpn (st.mem root (idx0 vx)) ≠ t2 := hfresh2 _ hsafeT1x
        have hr1 : st2.mem (ptePpn (st.mem root (idx0 vx))) (idx1 vx) =
            st.mem (ptePpn (st.mem root (idx0 vx))) (idx1 vx) := by
          rw [hmem, hM2, upd2_ne_page _ _ _ _ _ _ hT1xt2,
            upd2_ne_page _ _ _ _ _ _ hT1xt1, zeroPage_ne _ _ _ _ hT1xt2,
            upd2_ne_page _ _ _ _ _ _ hT1xroot, zeroPage_ne _ _ _ _ hT1xt1]
        exact ptTranslate_none_of_l1 (by rw [hr0]; exact hb0x)
          (by rw [hr0, hr1]; exact hinv1)
      · obtain ⟨hsafeT1x, hT1xroot⟩ := hw2 (idx0 vx) (idx0_lt vx) hb0x
        obtain ⟨hsafeT2x, hT2xroot⟩ :=
          hw4a (idx0 vx) (idx0_lt vx) (idx1 vx) (idx1_lt vx) hb0x hb1x
        have hT1xt1 : ptePpn (st.mem root (idx0 vx)) ≠ t1 :=
          frameAlloc_fresh hallocA hsafeT1x
        have hT1xt2 : ptePpn (st.mem root (idx0 vx)) ≠ t2 := hfresh2 _ hsafeT1x
        have hT2xt1 : ptePpn (st.mem (ptePpn (st.mem root (idx0 vx))) (idx1 vx)) ≠ t1 :=
          frameAlloc_fresh hallocA hsafeT2x
        have hT2xt2 : ptePpn (st.mem (ptePpn (st.mem root (idx0 vx))) (idx1 vx)) ≠ t2 :=
          hfresh2 _ hsafeT2x
        have hr1 : st2.mem (ptePpn (st.mem root (idx0 vx))) (idx1 vx) =
            st.mem (ptePpn (st.mem root (idx0 vx))) (idx1 vx) := by
          rw [hmem, hM2, upd2_ne_page _ _ _ _ _ _ hT1xt2,
            upd2_ne_page _ _ _ _ _ _ hT1xt1, zeroPage_ne _ _ _ _ hT1xt2,
            upd2_ne_page _ _ _ _ _ _ hT1xroot, zeroPage_ne _ _ _ _ hT1xt1]
        have hr2 : st2.mem (ptePpn (st.mem (ptePpn (st.mem root (idx0 vx))) (idx1 vx)))
            (idx2 vx) = st.mem (ptePpn (st.mem (ptePpn (st.mem root (idx0 vx)))
            (idx1 vx))) (idx2 vx) := by
          rw [hmem, hM2, upd2_ne_page _ _ _ _ _ _ hT2xt2,
            upd2_ne_page _ _ _ _ _ _ hT2xt1, zeroPage_ne _ _ _ _ hT2xt2,
            upd2_ne_page _ _ _ _ _ _ hT2xroot, zeroPage_ne _ _ _ _ hT2xt1]
        refine ptTranslate_none_of_l2 ?_ ?_ ?_
        · rw [hr0]
          exact hb0x
        · rw [hr0, hr1]
          exact hb1x
        · rw [hr0, hr1, hr2]
          exact hinv2

/-- A successful PageTable::map preserves the structural well-formedness
of the page-table radix tree. -/
theorem ptMap_WF {st : Machine} {root v p f : Nat} {st2 : Machine}
    (hWF : WFpt st root) (h : ptMap st root v p f = some st2) :
    WFpt st2 root := by
  obtain ⟨hep0, hsr, hw2, hw3, hw4a, hw4b, hw5⟩ := hWF
  obtain ⟨hsp2, hep2, hSafeM, hMarkM⟩ := ptMap_fields hsr h
  obtain ⟨t1, t2, M2, hmem, hv2, hcase⟩ := ptMap_elim hsr h
  rcases hcase with ⟨hbr0, ht1, hbr1, ht2, hMeq, hbm, hbyt, hspq, hepq⟩ |
    ⟨hbr0, ht1, hnv1, stB, hallocB, hM2, hbm, hbyt, hspq, hepq⟩ |
    ⟨hnv0, stA, stB, hallocA, hallocB, hM2, hbm, hbyt, hspq, hepq⟩
  · -- case A1: only the leaf slot of v changes, inside the L2 table of v
    have hbr1r : pteBranch (st.mem (ptePpn (st.mem root (idx0 v))) (idx1 v)) = true := by
      have hx := hbr1
      rw [ht1] at hx
      exact hx
    obtain ⟨hsafet2r, ht2rootr⟩ :=
      hw4a (idx0 v) (idx0_lt v) (idx1 v) (idx1_lt v) hbr0 hbr1r
    have ht2A : t2 = ptePpn (st.mem (ptePpn (st.mem root (idx0 v))) (idx1 v)) := by
      rw [ht2, ht1]
    have hR : ∀ i, st2.mem root i = st.mem root i := by
      intro i
      rw [hmem, hMeq]
      exact upd2_ne_page _ _ _ _ _ _ (by rw [ht2A]; omega)
    have hL : ∀ i, i < 512 → pteBranch (st.mem root i) = true →
        ∀ j, st2.mem (ptePpn (st.mem root i)) j = st.mem (ptePpn (st.mem root i)) j := by
      intro i hi hb j
      rw [hmem, hMeq]
      refine upd2_ne_page _ _ _ _ _ _ ?_
      rw [ht2A]
      exact (hw4b (idx0 v) (idx0_lt v) (idx1 v) (idx1_lt v) i hi hbr0 hbr1r hb).symm
    refine ⟨by rw [hepq]; exact hep0, hSafeM root hsr, ?_, ?_, ?_, ?_, ?_⟩
    · intro i hi hb
      rw [hR i] at hb ⊢
      exact ⟨hSafeM _ (hw2 i hi hb).1, (hw2 i hi hb).2⟩
    · intro i hi i' hi' hb hb' hpp
      rw [hR i] at hb hpp
      rw [hR i'] at hb' hpp
      exact hw3 i hi i' hi' hb hb' hpp
    · intro i hi j hj hbi hbj
      rw [hR i] at hbi hbj ⊢
      rw [hL i hi hbi j] at hbj ⊢
      exact ⟨hSafeM _ (hw4a i hi j hj hbi hbj).1, (hw4a i hi j hj hbi hbj).2⟩
    · intro i hi j hj i' hi' hbi hbj hbi'
      rw [hR i] at hbi hbj ⊢
      rw [hR i'] at hbi' ⊢
      rw [hL i hi hbi j] at hbj ⊢
      exact hw4b i hi j hj i' hi' hbi hbj hbi'
    · intro i hi j hj i' hi' j' hj' hbi hbj hbi' hbj' hpp
      rw [hR i] at hbi hbj hpp
      rw [hR i'] at hbi' hbj' hpp
      rw [hL i hi hbi j] at hbj hpp
      rw [hL i' hi' hbi' j'] at hbj' hpp
      exact hw5 i hi j hj i' hi' j' hj' hbi hbj hbi' hbj' hpp
  · -- case A2: a fresh L2 table t2 is hung below the existing L1 table t1
    obtain ⟨hsafet1, ht1root⟩ := hw2 (idx0 v) (idx0_lt v) hbr0
    rw [← ht1] at hsafet1 ht1root
    have hroott2 : root ≠ t2 := frameAlloc_fresh hallocB hsr
    have ht1t2 : t1 ≠ t2 := frameAlloc_fresh hallocB hsafet1
    obtain ⟨hsA, hsB, hfree, hmemB, hbytB, hbmB, hspB, hepB⟩ := frameAlloc_spec hallocB
    have ht2lt : t2 < 2 ^ 44 := by omega
    have hmarked2 : markedD st2 t2 :=
      marked_congr hbm (by rw [hspq, hspB]) (by rw [hepq, hepB])
        (frameAlloc_marked_new hallocB)
    have hsafe2t2 : Safe st2 t2 := markedD_safe hmarked2
    have hR : ∀ i, st2.mem root i = st.mem root i := by
      intro i
      rw [hmem, hM2, upd2_ne_page _ _ _ _ _ _ hroott2,
        upd2_ne_page _ _ _ _ _ _ (fun hc => ht1root hc.symm),
        zeroPage_ne _ _ _ _ hroott2]
    have hLt1v : st2.mem t1 (idx1 v) = pteNew t2 1 := by
      rw [hmem, hM2, upd2_ne_page _ _ _ _ _ _ ht1t2, upd2_same]
    have hLt1 : ∀ j, j ≠ idx1 v → st2.mem t1 j = st.mem t1 j := by
      intro j hj
      rw [hmem, hM2, upd2_ne_page _ _ _ _ _ _ ht1t2,
        upd2_ne _ _ _ _ _ _ (fun hc => hj hc.2), zeroPage_ne _ _ _ _ ht1t2]
    have hL : ∀ i, i < 512 → pteBranch (st.mem root i) = true →
        ptePpn (st.mem root i) ≠ t1 →
        ∀ j, st2.mem (ptePpn (st.mem root i)) j = st.mem (ptePpn (st.mem root i)) j := by
      intro i hi hb hne j
      have hnt2 : ptePpn (st.mem root i) ≠ t2 :=
        frameAlloc_fresh hallocB (hw2 i hi hb).1
      rw [hmem, hM2, upd2_ne_page _ _ _ _ _ _ hnt2,
        upd2_ne_page _ _ _ _ _ _ hne, zeroPage_ne _ _ _ _ hnt2]
    refine ⟨by rw [hepq]; exact hep0, hSafeM root hsr, ?_, ?_, ?_, ?_, ?_⟩
    · intro i hi hb
      rw [hR i] at hb ⊢
      exact ⟨hSafeM _ (hw2 i hi hb).1, (hw2 i hi hb).2⟩
    · intro i hi i' hi' hb hb' hpp
      rw [hR i] at hb hpp
      rw [hR i'] at hb' hpp
      exact hw3 i hi i' hi' hb hb' hpp
    · intro i hi j hj hbi hbj
      rw [hR i] at hbi hbj ⊢
      by_cases hT : ptePpn (st.mem root i) = t1
      · rw [hT] at hbj ⊢
        by_cases hjv : j = idx1 v
        · rw [hjv, hLt1v] at hbj ⊢
          rw [ptePpn_pteNew t2 1 ht2lt]
          exact ⟨hsafe2t2, fun hc => hroott2 hc.symm⟩
        · rw [hLt1 j hjv] at hbj ⊢
          have hst := hw4a i hi j hj hbi (by rw [hT]; exact hbj)
          rw [hT] at hst
          exact ⟨hSafeM _ hst.1, hst.2⟩
      · rw [hL i hi hbi hT j] at hbj ⊢
        exact ⟨hSafeM _ (hw4a i hi j hj hbi hbj).1, (hw4a i hi j hj hbi hbj).2⟩
    · intro i hi j hj i' hi' hbi hbj hbi'
      rw [hR i] at hbi hbj ⊢
      rw [hR i'] at hbi' ⊢
      by_cases hT : ptePpn (st.mem root i) = t1
      · rw [hT] at hbj ⊢
        by_cases hjv : j = idx1 v
        · rw [hjv, hLt1v] at hbj ⊢
          rw [ptePpn_pteNew t2 1 ht2lt]
          exact fun hc => frameAlloc_fresh hallocB (hw2 i' hi' hbi').1 hc.symm
        · rw [hLt1 j hjv] at hbj ⊢
          have hst := hw4b i hi j hj i' hi' hbi (by rw [hT]; exact hbj) hbi'
          rw [hT] at hst
          exact hst
      · rw [hL i hi hbi hT j] at hbj ⊢
        exact hw4b i hi j hj i' hi' hbi hbj hbi'
    · intro i hi j hj i' hi' j' hj' hbi hbj hbi' hbj' hpp
      rw [hR i] at hbi hbj hpp
      rw [hR i'] at hbi' hbj' hpp
      have hside : ∀ k, k < 512 → ∀ l, l < 512 →
          pteBranch (st.mem root k) = true →
          (ptePpn (st.mem root k) = t1 ∧ l = idx1 v ∧
            ptePpn (st2.mem (ptePpn (st.mem root k)) l) = t2) ∨
          st2.mem (ptePpn (st.mem root k)) l = st.mem (ptePpn (st.mem root k)) l := by
        intro k hk l hl hb
        by_cases hT : ptePpn (st.mem root k) = t1
        · by_cases hlv : l = idx1 v
          · refine Or.inl ⟨hT, hlv, ?_⟩
            rw [hT, hlv, hLt1v, ptePpn_pteNew t2 1 ht2lt]
          · refine Or.inr ?_
            rw [hT]
            exact hLt1 l hlv
        · exact Or.inr (hL k hk hb hT l)
      rcases hside i hi j hj hbi with ⟨hTi, hjv, hppi⟩ | holdi
      · rcases hside i' hi' j' hj' hbi' with ⟨hTi', hjv', hppi'⟩ | holdi'
        · refine ⟨?_, by rw [hjv, hjv']⟩
          exact hw3 i hi i' hi' hbi hbi' (by rw [hTi, hTi'])
        · rw [holdi'] at hbj' hpp
          rw [hppi] at hpp
          have hst := hw4a i' hi' j' hj' hbi' hbj'
          exact absurd hpp.symm (frameAlloc_fresh hallocB hst.1)
      · rcases hside i' hi' j' hj' hbi' with ⟨hTi', hjv', hppi'⟩ | holdi'
        · rw [holdi] at hbj hpp
          rw [hppi'] at hpp
          have hst := hw4a i hi j hj hbi hbj
          exact absurd hpp (frameAlloc_fresh hallocB hst.1)
        · rw [holdi] at hbj hpp
          rw [holdi'] at hbj' hpp
          exact hw5 i hi j hj i' hi' j' hj' hbi hbj hbi' hbj' hpp
  · -- case B: both the L1 table t1 and the L2 table t2 are fresh
    have hroott1 : root ≠ t1 := frameAlloc_fresh hallocA hsr
    have hfresh2 : ∀ q, Safe st q → q ≠ t2 := by
      intro q hq
      exact frameAlloc_fresh hallocB
        ((safe_memUpd _ _ _).mpr (frameAlloc_safe_mono hallocA hq))
    have hroott2 : root ≠ t2 := hfresh2 root hsr
    have ht1t2 : t1 ≠ t2 :=
      frameAlloc_fresh hallocB
        ((safe_memUpd _ _ _).mpr (markedD_safe (frameAlloc_marked_new hallocA)))
    obtain ⟨hsA1, hsA2, hfreeA, hmemA, hbytA, hbmA, hspA, hepA⟩ := frameAlloc_spec hallocA
    obtain ⟨hsB1, hsB2, hfreeB, hmemB, hbytB, hbmB, hspB, hepB⟩ := frameAlloc_spec hallocB
    have ht1lt : t1 < 2 ^ 44 := by omega
    have ht2lt : t2 < 2 ^ 44 := by
      dsimp only at hsB2 hepA
      omega
    have hmarked1 : markedD st2 t1 := by
      refine marked_congr hbm (by dsimp only at hspB; omega) (by dsimp only at hepB; omega) ?_
      have hmA0 : markedD stA t1 := frameAlloc_marked_new hallocA
      have hmA : markedD { stA with mem := upd2 stA.mem root (idx0 v) (pteNew t1 1) } t1 :=
        marked_congr rfl rfl rfl hmA0
      exact frameAlloc_marked_mono hallocB hmA
    have hmarked2 : markedD st2 t2 :=
      marked_congr hbm (by dsimp only at hspB; omega) (by dsimp only at hepB; omega)
        (frameAlloc_marked_new hallocB)
    have hsafe2t1 : Safe st2 t1 := markedD_safe hmarked1
    have hsafe2t2 : Safe st2 t2 := markedD_safe hmarked2
    have hRo : ∀ i, i ≠ idx0 v → st2.mem root i = st.mem root i := by
      intro i hne
      rw [hmem, hM2, upd2_ne_page _ _ _ _ _ _ hroott2,
        upd2_ne_page _ _ _ _ _ _ hroott1, zeroPage_ne _ _ _ _ hroott2,
        upd2_ne _ _ _ _ _ _ (fun hc => hne hc.2), zeroPage_ne _ _ _ _ hroott1]
    have hRv : st2.mem root (idx0 v) = pteNew t1 1 := by
      rw [hmem, hM2, upd2_ne_page _ _ _ _ _ _ hroott2,
        upd2_ne_page _ _ _ _ _ _ hroott1, zeroPage_ne _ _ _ _ hroott2, upd2_same]
    have hT1v : st2.mem t1 (idx1 v) = pteNew t2 1 := by
      rw [hmem, hM2, upd2_ne_page _ _ _ _ _ _ ht1t2, upd2_same]
    have hT1o : ∀ j, j ≠ idx1 v → st2.mem t1 j = 0 := by
      intro j hj
      rw [hmem, hM2, upd2_ne_page _ _ _ _ _ _ ht1t2,
        upd2_ne _ _ _ _ _ _ (fun hc => hj hc.2), zeroPage_ne _ _ _ _ ht1t2,
        upd2_ne_page _ _ _ _ _ _ (fun hc => hroott1 hc.symm), zeroPage_same]
    have hL : ∀ i, i < 512 → pteBranch (st.mem root i) = true →
        ∀ j, st2.mem (ptePpn (st.mem root i)) j = st.mem (ptePpn (st.mem root i)) j := by
      intro i hi hb j
      obtain ⟨hsafeT, hTroot⟩ := hw2 i hi hb
      have hTt1 : ptePpn (st.mem root i) ≠ t1 := frameAlloc_fresh hallocA hsafeT
      have hTt2 : ptePpn (st.mem root i) ≠ t2 := hfresh2 _ hsafeT
      rw [hmem, hM2, upd2_ne_page _ _ _ _ _ _ hTt2, upd2_ne_page _ _ _ _ _ _ hTt1,
        zeroPage_ne _ _ _ _ hTt2, upd2_ne_page _ _ _ _ _ _ hTroot,
        zeroPage_ne _ _ _ _ hTt1]
    have hnotbr0 : ∀ i, i = idx0 v → pteBranch (st.mem root i) = true → False := by
      intro i hie hb
      rw [hie] at hb
      have hval := pteBranch_valid hb
      rw [hnv0] at hval
      cases hval
    refine ⟨by rw [hepq]; exact hep0, hSafeM root hsr, ?_, ?_, ?_, ?_, ?_⟩
    · intro i hi hb
      by_cases hiv : i = idx0 v
      · rw [hiv, hRv, ptePpn_pteNew t1 1 ht1lt]
        exact ⟨hsafe2t1, fun hc => hroott1 hc.symm⟩
      · rw [hRo i hiv] at hb ⊢
        exact ⟨hSafeM _ (hw2 i hi hb).1, (hw2 i hi hb).2⟩
    · intro i hi i' hi' hb hb' hpp
      by_cases hiv : i = idx0 v
      · by_cases hiv' : i' = idx0 v
        · rw [hiv, hiv']
        · rw [hiv, hRv, ptePpn_pteNew t1 1 ht1lt] at hpp
          rw [hRo i' hiv'] at hb' hpp
          exact absurd hpp.symm (frameAlloc_fresh hallocA (hw2 i' hi' hb').1)
      · by_cases hiv' : i' = idx0 v
        · rw [hiv', hRv, ptePpn_pteNew t1 1 ht1lt] at hpp
          rw [hRo i hiv] at hb hpp
          exact absurd hpp (frameAlloc_fresh hallocA (hw2 i hi hb).1)
        · rw [hRo i hiv] at hb hpp
          rw [hRo i' hiv'] at hb' hpp
          exact hw3 i hi i' hi' hb hb' hpp
    · intro i hi j hj hbi hbj
      by_cases hiv : i = idx0 v
      · rw [hiv, hRv, ptePpn_pteNew t1 1 ht1lt] at hbj ⊢
        by_cases hjv : j = idx1 v
        · rw [hjv, hT1v, ptePpn_pteNew t2 1 ht2lt]
          exact ⟨hsafe2t2, fun hc => hroott2 hc.symm⟩
        · rw [hT1o j hjv] at hbj
          exact absurd hbj (by decide)
      · rw [hRo i hiv] at hbi hbj ⊢
        rw [hL i hi hbi j] at hbj ⊢
        exact ⟨hSafeM _ (hw4a i hi j hj hbi hbj).1, (hw4a i hi j hj hbi hbj).2⟩
    · intro i hi j hj i' hi' hbi hbj hbi'
      have hRHS : (ptePpn (st2.mem root i') = t1 ∧ i' = idx0 v) ∨
          (st2.mem root i' = st.mem root i' ∧ pteBranch (st.mem root i') = true) := by
        by_cases hiv' : i' = idx0 v
        · refine Or.inl ⟨?_, hiv'⟩
          rw [hiv', hRv, ptePpn_pteNew t1 1 ht1lt]
        · refine Or.inr ⟨hRo i' hiv', ?_⟩
          rw [hRo i' hiv'] at hbi'
          exact hbi'
      by_cases hiv : i = idx0 v
      · rw [hiv, hRv, ptePpn_pteNew t1 1 ht1lt] at hbj ⊢
        by_cases hjv : j = idx1 v
        · rw [hjv, hT1v, ptePpn_pteNew t2 1 ht2lt]
          rcases hRHS with ⟨he, _⟩ | ⟨he, hbr⟩
          · rw [he]
            exact fun hc => ht1t2 hc.symm
          · rw [he]
            exact fun hc => hfresh2 _ (hw2 i' hi' hbr).1 hc.symm
        · rw [hT1o j hjv] at hbj
          exact absurd hbj (by decide)
      · rw [hRo i hiv] at hbi hbj ⊢
        rw [hL i hi hbi j] at hbj ⊢
        rcases hRHS with ⟨he, _⟩ | ⟨he, hbr⟩
        · rw [he]
          exact frameAlloc_fresh hallocA (hw4a i hi j hj hbi hbj).1
        · rw [he]
          exact hw4b i hi j hj i' hi' hbi hbj hbr
    · intro i hi j hj i' hi' j' hj' hbi hbj hbi' hbj' hpp
      have hside : ∀ k, k < 512 → ∀ l, l < 512 →
          pteBranch (st2.mem root k) = true →
          pteBranch (st2.mem (ptePpn (st2.mem root k)) l) = true →
          (k = idx0 v ∧ l = idx1 v ∧
            ptePpn (st2.mem (ptePpn (st2.mem root k)) l) = t2) ∨
          (st2.mem root k = st.mem root k ∧
            pteBranch (st.mem root k) = true ∧
            st2.mem (ptePpn (st.mem root k)) l = st.mem (ptePpn (st.mem root k)) l ∧
            pteBranch (st.mem (ptePpn (st.mem root k)) l) = true) := by
        intro k hk l hl hbk hbl
        by_cases hkv : k = idx0 v
        · by_cases hlv : l = idx1 v
          · refine Or.inl ⟨hkv, hlv, ?_⟩
            rw [hkv, hRv, ptePpn_pteNew t1 1 ht1lt, hlv, hT1v,
              ptePpn_pteNew t2 1 ht2lt]
          · rw [hkv, hRv, ptePpn_pteNew t1 1 ht1lt, hT1o l hlv] at hbl
            exact absurd hbl (by decide)
        · have he := hRo k hkv
          rw [he] at hbk hbl
          have hl2 := hL k hk hbk l
          rw [hl2] at hbl
          exact Or.inr ⟨he, hbk, hl2, hbl⟩
      rcases hside i hi j hj hbi hbj with ⟨hkv, hlv, hppv⟩ | ⟨he0, hb0, he1, hb1⟩
      · rcases hside i' hi' j' hj' hbi' hbj' with ⟨hkv', hlv', hppv'⟩ | ⟨he0', hb0', he1', hb1'⟩
        · exact ⟨by rw [hkv, hkv'], by rw [hlv, hlv']⟩
        · rw [hppv, he0', he1'] at hpp
          exact absurd hpp.symm (hfresh2 _ (hw4a i' hi' j' hj' hb0' hb1').1)
      · rcases hside i' hi' j' hj' hbi' hbj' with ⟨hkv', hlv', hppv'⟩ | ⟨he0', hb0', he1', hb1'⟩
        · rw [hppv', he0, he1] at hpp
          exact absurd hpp (hfresh2 _ (hw4a i hi j hj hb0 hb1).1)
        · rw [he0, he1, he0', he1'] at hpp
          exact hw5 i hi j hj i' hi' j' hj' hb0 hb1 hb0' hb1' hpp

/-- A successful frame allocation leaves every read of a Safe page of
memory unchanged: only the fresh frame is zeroed. -/
theorem frameAlloc_read {st : Machine} {a : Nat} {st1 : Machine}
    (h : frameAlloc st = some (a, st1)) {c : Nat} (hc : Safe st c) (j : Nat) :
    st1.mem c j = st.mem c j := by
  obtain ⟨_, _, _, hmem, _⟩ := frameAlloc_spec h
  rw [hmem, zeroPage_ne _ _ _ _ (frameAlloc_fresh h hc)]

/-- Frame allocation preserves page-table well-formedness: the fresh
frame is zeroed, but every table page is Safe and hence untouched. -/
theorem frameAlloc_WF {st : Machine} {root : Nat} {a : Nat} {st1 : Machine}
    (hWF : WFpt st root) (h : frameAlloc st = some (a, st1)) : WFpt st1 root := by
  obtain ⟨hep0, hsr, hw2, hw3, hw4a, hw4b, hw5⟩ := hWF
  obtain ⟨_, _, _, _, _, _, _, hep⟩ := frameAlloc_spec h
  have hR : ∀ i, st1.mem root i = st.mem root i := frameAlloc_read h hsr
  have hL : ∀ i, i < 512 → pteBranch (st.mem root i) = true →
      ∀ j, st1.mem (ptePpn (st.mem root i)) j = st.mem (ptePpn (st.mem root i)) j := by
    intro i hi hb j
    exact frameAlloc_read h (hw2 i hi hb).1 j
  refine ⟨by rw [hep]; exact hep0, frameAlloc_safe_mono h hsr, ?_, ?_, ?_, ?_, ?_⟩
  · intro i hi hb
    rw [hR i] at hb ⊢
    exact ⟨frameAlloc_safe_mono h (hw2 i hi hb).1, (hw2 i hi hb).2⟩
  · intro i hi i' hi' hb hb' hpp
    rw [hR i] at hb hpp
    rw [hR i'] at hb' hpp
    exact hw3 i hi i' hi' hb hb' hpp
  · intro i hi j hj hbi hbj
    rw [hR i] at hbi hbj ⊢
    rw [hL i hi hbi j] at hbj ⊢
    exact ⟨frameAlloc_safe_mono h (hw4a i hi j hj hbi hbj).1, (hw4a i hi j hj hbi hbj).2⟩
  · intro i hi j hj i' hi' hbi hbj hbi'
    rw [hR i] at hbi hbj ⊢
    rw [hR i'] at hbi' ⊢
    rw [hL i hi hbi j] at hbj ⊢
    exact hw4b i hi j hj i' hi' hbi hbj hbi'
  · intro i hi j hj i' hi' j' hj' hbi hbj hbi' hbj' hpp
    rw [hR i] at hbi hbj hpp
    rw [hR i'] at hbi' hbj' hpp
    rw [hL i hi hbi j] at hbj hpp
    rw [hL i' hi' hbi' j'] at hbj' hpp
    exact hw5 i hi j hj i' hi' j' hj' hbi hbj hbi' hbj' hpp

/-- Frame allocation preserves every established full-depth mapping. -/
theorem frameAlloc_mappedAt {st : Machine} {root : Nat} {a : Nat} {st1 : Machine}
    (hWF : WFpt st root) (h : frameAlloc st = some (a, st1)) {v e : Nat}
    (hMA : MappedAt st.mem root v e) : MappedAt st1.mem root v e := by
  obtain ⟨hep0, hsr, hw2, hw3, hw4a, hw4b, hw5⟩ := hWF
  have hb0 := hMA.1
  have hb1 := hMA.2.1
  refine mappedAt_congr hMA (frameAlloc_read h hsr _) ?_ ?_
  · exact frameAlloc_read h (hw2 (idx0 v) (idx0_lt v) hb0).1 _
  · exact frameAlloc_read h
      (hw4a (idx0 v) (idx0_lt v) (idx1 v) (idx1_lt v) hb0 hb1).1 _

/-- Frame allocation preserves non-translation of every page: only the
fresh frame is zeroed, and zero entries are invalid anyway. -/
theorem frameAlloc_translate_none {st : Machine} {root : Nat} {a : Nat} {st1 : Machine}
    (hWF : WFpt st root) (h : frameAlloc st = some (a, st1)) {vx : Nat}
    (hN : ptTranslate st.mem root vx = none) :
    ptTranslate st1.mem root vx = none := by
  obtain ⟨hep0, hsr, hw2, hw3, hw4a, hw4b, hw5⟩ := hWF
  have hR : ∀ j, st1.mem root j = st.mem root j := frameAlloc_read h hsr
  rcases ptTranslate_none_elim hN with hinv0 | ⟨hb0x, hinv1⟩ | ⟨hb0x, hb1x, hinv2⟩
  · exact ptTranslate_none_of_l0 (by rw [hR]; exact hinv0)
  · have hr1 := frameAlloc_read h (hw2 (idx0 vx) (idx0_lt vx) hb0x).1 (idx1 vx)
    exact ptTranslate_none_of_l1 (by rw [hR]; exact hb0x) (by rw [hR, hr1]; exact hinv1)
  · have hr1 := frameAlloc_read h (hw2 (idx0 vx) (idx0_lt vx) hb0x).1 (idx1 vx)
    have hr2 := frameAlloc_read h
      (hw4a (idx0 vx) (idx0_lt vx) (idx1 vx) (idx1_lt vx) hb0x hb1x).1 (idx2 vx)
    refine ptTranslate_none_of_l2 (by rw [hR]; exact hb0x) ?_ ?_
    · rw [hR, hr1]
      exact hb1x
    · rw [hR, hr1, hr2]
      exact hinv2

/-- Frame allocation preserves the non-table property of any frame. -/
theorem frameAlloc_notTable {st : Machine} {root : Nat} {a : Nat} {st1 : Machine}
    (hWF : WFpt st root) (h : frameAlloc st = some (a, st1)) {p : Nat}
    (hnt : notTable st root p) : notTable st1 root p := by
  obtain ⟨hep0, hsr, hw2, hw3, hw4a, hw4b, hw5⟩ := hWF
  obtain ⟨hpr, hnt2, hnt3⟩ := hnt
  have hR : ∀ j, st1.mem root j = st.mem root j := frameAlloc_read h hsr
  refine ⟨hpr, ?_, ?_⟩
  · intro i hi hb
    rw [hR] at hb ⊢
    exact hnt2 i hi hb
  · intro i hi j hj hbi hbj
    rw [hR] at hbi hbj ⊢
    rw [frameAlloc_read h (hw2 i hi hbi).1 j] at hbj ⊢
    exact hnt3 i hi j hj hbi hbj

/-- The freshly allocated frame is not part of the table structure. -/
theorem frameAlloc_notTable_new {st : Machine} {root : Nat} {a : Nat} {st1 : Machine}
    (hWF : WFpt st root) (h : frameAlloc st = some (a, st1)) : notTable st1 root a := by
  obtain ⟨hep0, hsr, hw2, hw3, hw4a, hw4b, hw5⟩ := hWF
  have hR : ∀ j, st1.mem root j = st.mem root j := frameAlloc_read h hsr
  refine ⟨Ne.symm (frameAlloc_fresh h hsr), ?_, ?_⟩
  · intro i hi hb
    rw [hR] at hb ⊢
    exact frameAlloc_fresh h (hw2 i hi hb).1
  · intro i hi j hj hbi hbj
    rw [hR] at hbi hbj ⊢
    rw [frameAlloc_read h (hw2 i hi hbi).1 j] at hbj ⊢
    exact frameAlloc_fresh h (hw4a i hi j hj hbi hbj).1

/-- Frame deallocation of a non-table frame preserves page-table
well-formedness: memory is untouched and every table frame keeps its
Safe status. -/
theorem frameDealloc_WF {st : Machine} {root c : Nat}
    (hWF : WFpt st root) (hnt : notTable st root c) :
    WFpt (frameDealloc st c) root := by
  obtain ⟨hep0, hsr, hw2, hw3, hw4a, hw4b, hw5⟩ := hWF
  obtain ⟨hcr, hnt2, hnt3⟩ := hnt
  obtain ⟨hmem, hbyt, hsp, hep⟩ := frameDealloc_mem st c
  refine ⟨by rw [hep]; exact hep0, frameDealloc_safe hsr (Ne.symm hcr), ?_, ?_, ?_, ?_, ?_⟩
  · intro i hi hb
    rw [hmem] at hb ⊢
    exact ⟨frameDealloc_safe (hw2 i hi hb).1 (hnt2 i hi hb), (hw2 i hi hb).2⟩
  · intro i hi i' hi' hb hb' hpp
    rw [hmem] at hb hb' hpp
    exact hw3 i hi i' hi' hb hb' hpp
  · intro i hi j hj hbi hbj
    rw [hmem] at hbi hbj ⊢
    exact ⟨frameDealloc_safe (hw4a i hi j hj hbi hbj).1 (hnt3 i hi j hj hbi hbj),
      (hw4a i hi j hj hbi hbj).2⟩
  · intro i hi j hj i' hi' hbi hbj hbi'
    rw [hmem] at hbi hbj hbi' ⊢
    exact hw4b i hi j hj i' hi' hbi hbj hbi'
  · intro i hi j hj i' hi' j' hj' hbi hbj hbi' hbj' hpp
    rw [hmem] at hbi hbj hbi' hbj' hpp
    exact hw5 i hi j hj i' hi' j' hj' hbi hbj hbi' hbj' hpp

/-- Frame deallocation leaves the page tables untouched, so every
mapping survives. -/
theorem frameDealloc_mappedAt {st : Machine} {root c v e : Nat}
    (hMA : MappedAt st.mem root v e) : MappedAt (frameDealloc st c).mem root v e := by
  rw [(frameDealloc_mem st c).1]
  exact hMA

/-- Frame deallocation leaves non-translation untouched. -/
theorem frameDealloc_translate_none {st : Machine} {root c vx : Nat}
    (hN : ptTranslate st.mem root vx = none) :
    ptTranslate (frameDealloc st c).mem root vx = none := by
  rw [(frameDealloc_mem st c).1]
  exact hN

/-- Frame deallocation preserves the non-table property. -/
theorem frameDealloc_notTable {st : Machine} {root c p : Nat}
    (hnt : notTable st root p) : notTable (frameDealloc st c) root p := by
  obtain ⟨h1, h2, h3⟩ := hnt
  obtain ⟨hmem, _⟩ := frameDealloc_mem st c
  refine ⟨h1, ?_, ?_⟩
  · intro i hi hb
    rw [hmem] at hb ⊢
    exact h2 i hi hb
  · intro i hi j hj hbi hbj
    rw [hmem] at hbi hbj ⊢
    exact h3 i hi j hj hbi hbj

/-- A successful PageTable::unmap keeps the allocator state and the byte
view: only one leaf slot of memory is cleared. -/
theorem ptUnmap_fields {st : Machine} {root v : Nat} {st' : Machine} {q : Nat}
    (h : ptUnmap st root v = some (st', q)) :
    st'.bm = st.bm ∧ st'.bytes = st.bytes ∧ st'.startP = st.startP ∧ st'.endP = st.endP := by
  obtain ⟨_, _, _, _, hst'⟩ := ptUnmap_elim h
  rw [hst']
  exact ⟨rfl, rfl, rfl, rfl⟩

/-- Reads of the root page are unchanged by PageTable::unmap on a
well-formed table. -/
theorem ptUnmap_read_root {st : Machine} {root v : Nat} {st' : Machine} {q : Nat}
    (hWF : WFpt st root) (h : ptUnmap st root v = some (st', q)) (i : Nat) :
    st'.mem root i = st.mem root i := by
  obtain ⟨hep0, hsr, hw2, hw3, hw4a, hw4b, hw5⟩ := hWF
  obtain ⟨hbr0, hbr1, hv2, hq, hst'⟩ := ptUnmap_elim h
  rw [hst']
  exact upd2_ne_page _ _ _ _ _ _
    (Ne.symm (hw4a (idx0 v) (idx0_lt v) (idx1 v) (idx1_lt v) hbr0 hbr1).2)

/-- Reads of every depth-1 table page are unchanged by PageTable::unmap
on a well-formed table. -/
theorem ptUnmap_read_l1 {st : Machine} {root v : Nat} {st' : Machine} {q : Nat}
    (hWF : WFpt st root) (h : ptUnmap st root v = some (st', q)) {i : Nat}
    (hi : i < 512) (hb : pteBranch (st.mem root i) = true) (j : Nat) :
    st'.mem (ptePpn (st.mem root i)) j = st.mem (ptePpn (st.mem root i)) j := by
  obtain ⟨hep0, hsr, hw2, hw3, hw4a, hw4b, hw5⟩ := hWF
  obtain ⟨hbr0, hbr1, hv2, hq, hst'⟩ := ptUnmap_elim h
  rw [hst']
  exact upd2_ne_page _ _ _ _ _ _
    (Ne.symm (hw4b (idx0 v) (idx0_lt v) (idx1 v) (idx1_lt v) i hi hbr0 hbr1 hb))

/-- A successful PageTable::unmap preserves page-table well-formedness:
it only clears a slot inside a depth-2 table. -/
theorem ptUnmap_WF {st : Machine} {root v : Nat} {st' : Machine} {q : Nat}
    (hWF : WFpt st root) (h : ptUnmap st root v = some (st', q)) :
    WFpt st' root := by
  have hR := ptUnmap_read_root hWF h
  have hL := fun {i} hi hb j => ptUnmap_read_l1 hWF h (i := i) hi hb j
  obtain ⟨hep0, hsr, hw2, hw3, hw4a, hw4b, hw5⟩ := hWF
  obtain ⟨hbm, hbyt, hsp, hep⟩ := ptUnmap_fields h
  have hSafe : ∀ p, Safe st p → Safe st' p := fun p hp => safe_congr hbm hsp hep hp
  refine ⟨by rw [hep]; exact hep0, hSafe root hsr, ?_, ?_, ?_, ?_, ?_⟩
  · intro i hi hb
    rw [hR i] at hb ⊢
    exact ⟨hSafe _ (hw2 i hi hb).1, (hw2 i hi hb).2⟩
  · intro i hi i' hi' hb hb' hpp
    rw [hR i] at hb hpp
    rw [hR i'] at hb' hpp
    exact hw3 i hi i' hi' hb hb' hpp
  · intro i hi j hj hbi hbj
    rw [hR i] at hbi hbj ⊢
    rw [hL hi hbi j] at hbj ⊢
    exact ⟨hSafe _ (hw4a i hi j hj hbi hbj).1, (hw4a i hi j hj hbi hbj).2⟩
  · intro i hi j hj i' hi' hbi hbj hbi'
    rw [hR i] at hbi hbj ⊢
    rw [hR i'] at hbi' ⊢
    rw [hL hi hbi j] at hbj ⊢
    exact hw4b i hi j hj i' hi' hbi hbj hbi'
  · intro i hi j hj i' hi' j' hj' hbi hbj hbi' hbj' hpp
    rw [hR i] at hbi hbj hpp
    rw [hR i'] at hbi' hbj' hpp
    rw [hL hi hbi j] at hbj hpp
    rw [hL hi' hbi' j'] at hbj' hpp
    exact hw5 i hi j hj i' hi' j' hj' hbi hbj hbi' hbj' hpp

/-- A successful PageTable::unmap of v preserves the full-depth mapping
of every page with a distinct SV39 index path. -/
theorem ptUnmap_mappedAt_other {st : Machine} {root v : Nat} {st' : Machine} {q : Nat}
    (hWF : WFpt st root) (h : ptUnmap st root v = some (st', q)) {vx e : Nat}
    (htr : ¬(idx0 vx = idx0 v ∧ idx1 vx = idx1 v ∧ idx2 vx = idx2 v))
    (hMA : MappedAt st.mem root vx e) : MappedAt st'.mem root vx e := by
  have hR := ptUnmap_read_root hWF h
  have hL := fun {i} hi hb j => ptUnmap_read_l1 hWF h (i := i) hi hb j
  obtain ⟨hep0, hsr, hw2, hw3, hw4a, hw4b, hw5⟩ := hWF
  obtain ⟨hbr0, hbr1, hv2, hq, hst'⟩ := ptUnmap_elim h
  have hb0x := hMA.1
  have hb1x := hMA.2.1
  refine mappedAt_congr hMA (hR _) (hL (idx0_lt vx) hb0x _) ?_
  rw [hst']
  by_cases hT : ptePpn (st.mem (ptePpn (st.mem root (idx0 vx))) (idx1 vx)) =
      ptePpn (st.mem (ptePpn (st.mem root (idx0 v))) (idx1 v))
  · obtain ⟨hi0, hi1⟩ := hw5 (idx0 vx) (idx0_lt vx) (idx1 vx) (idx1_lt vx)
      (idx0 v) (idx0_lt v) (idx1 v) (idx1_lt v) hb0x hb1x hbr0 hbr1 hT
    exact upd2_ne_idx _ _ _ _ _ _ (fun hc => htr ⟨hi0, hi1, hc⟩)
  · exact upd2_ne_page _ _ _ _ _ _ hT

/-- A successful PageTable::unmap preserves non-translation of every
page: it only invalidates entries. -/
theorem ptUnmap_translate_none_other {st : Machine} {root v : Nat} {st' : Machine} {q : Nat}
    (hWF : WFpt st root) (h : ptUnmap st root v = some (st', q)) {vx : Nat}
    (hN : ptTranslate st.mem root vx = none) :
    ptTranslate st'.mem root vx = none := by
  have hR := ptUnmap_read_root hWF h
  have hL := fun {i} hi hb j => ptUnmap_read_l1 hWF h (i := i) hi hb j
  obtain ⟨hep0, hsr, hw2, hw3, hw4a, hw4b, hw5⟩ := hWF
  obtain ⟨hbr0, hbr1, hv2, hq, hst'⟩ := ptUnmap_elim h
  rcases ptTranslate_none_elim hN with hinv0 | ⟨hb0x, hinv1⟩ | ⟨hb0x, hb1x, hinv2⟩
  · exact ptTranslate_none_of_l0 (by rw [hR]; exact hinv0)
  · exact ptTranslate_none_of_l1 (by rw [hR]; exact hb0x)
      (by rw [hR, hL (idx0_lt vx) hb0x]; exact hinv1)
  · refine ptTranslate_none_of_l2 (by rw [hR]; exact hb0x)
      (by rw [hR, hL (idx0_lt vx) hb0x]; exact hb1x) ?_
    rw [hR, hL (idx0_lt vx) hb0x, hst']
    dsimp only
    by_cases hid : idx2 vx = idx2 v
    · by_cases hT : ptePpn (st.mem (ptePpn (st.mem root (idx0 vx))) (idx1 vx)) =
          ptePpn (st.mem (ptePpn (st.mem root (idx0 v))) (idx1 v))
      · rw [hT, hid, upd2_same]
        exact pteValid_zero
      · rw [upd2_ne_page _ _ _ _ _ _ hT]
        exact hinv2
    · rw [upd2_ne_idx _ _ _ _ _ _ hid]
      exact hinv2

/-- A successful PageTable::unmap preserves the non-table property: the
branch structure of the tree is untouched. -/
theorem ptUnmap_notTable {st : Machine} {root v : Nat} {st' : Machine} {q : Nat}
    (hWF : WFpt st root) (h : ptUnmap st root v = some (st', q)) {p : Nat}
    (hnt : notTable st root p) : notTable st' root p := by
  have hR := ptUnmap_read_root hWF h
  have hL := fun {i} hi hb j => ptUnmap_read_l1 hWF h (i := i) hi hb j
  obtain ⟨h1, h2, h3⟩ := hnt
  refine ⟨h1, ?_, ?_⟩
  · intro i hi hb
    rw [hR] at hb ⊢
    exact h2 i hi hb
  · intro i hi j hj hbi hbj
    rw [hR] at hbi hbj ⊢
    rw [hL hi hbi j] at hbj ⊢
    exact h3 i hi j hj hbi hbj

/-- A successful PageTable::map preserves the non-table property of any
frame that is Safe: the freshly allocated table frames are distinct from
it, and the old branch entries keep their targets. -/
theorem ptMap_notTable {st : Machine} {root v pd f : Nat} {st2 : Machine}
    (hWF : WFpt st root) (h : ptMap st root v pd f = some st2) {p : Nat}
    (hnt : notTable st root p) (hps : Safe st p) : notTable st2 root p := by
  obtain ⟨hep0, hsr, hw2, hw3, hw4a, hw4b, hw5⟩ := hWF
  obtain ⟨h1, h2, h3⟩ := hnt
  obtain ⟨t1, t2, M2, hmem, hv2, hcase⟩ := ptMap_elim hsr h
  rcases hcase with ⟨hbr0, ht1, hbr1, ht2, hMeq, hbm, hbyt, hspq, hepq⟩ |
    ⟨hbr0, ht1, hnv1, stB, hallocB, hM2, hbm, hbyt, hspq, hepq⟩ |
    ⟨hnv0, stA, stB, hallocA, hallocB, hM2, hbm, hbyt, hspq, hepq⟩
  · -- case A1: root and depth-1 pages untouched
    have hbr1r : pteBranch (st.mem (ptePpn (st.mem root (idx0 v))) (idx1 v)) = true := by
      have hx := hbr1
      rw [ht1] at hx
      exact hx
    obtain ⟨hsafet2r, ht2rootr⟩ :=
      hw4a (idx0 v) (idx0_lt v) (idx1 v) (idx1_lt v) hbr0 hbr1r
    have ht2A : t2 = ptePpn (st.mem (ptePpn (st.mem root (idx0 v))) (idx1 v)) := by
      rw [ht2, ht1]
    have hR : ∀ i, st2.mem root i = st.mem root i := by
      intro i
      rw [hmem, hMeq]
      exact upd2_ne_page _ _ _ _ _ _ (by rw [ht2A]; omega)
    have hL : ∀ i, i < 512 → pteBranch (st.mem root i) = true →
        ∀ j, st2.mem (ptePpn (st.mem root i)) j = st.mem (ptePpn (st.mem root i)) j := by
      intro i hi hb j
      rw [hmem, hMeq]
      refine upd2_ne_page _ _ _ _ _ _ ?_
      rw [ht2A]
      exact (hw4b (idx0 v) (idx0_lt v) (idx1 v) (idx1_lt v) i hi hbr0 hbr1r hb).symm
    refine ⟨h1, ?_, ?_⟩
    · intro i hi hb
      rw [hR] at hb ⊢
      exact h2 i hi hb
    · intro i hi j hj hbi hbj
      rw [hR] at hbi hbj ⊢
      rw [hL i hi hbi j] at hbj ⊢
      exact h3 i hi j hj hbi hbj
  · -- case A2: one fresh table t2
    obtain ⟨hsafet1, ht1root⟩ := hw2 (idx0 v) (idx0_lt v) hbr0
    rw [← ht1] at hsafet1 ht1root
    have hroott2 : root ≠ t2 := frameAlloc_fresh hallocB hsr
    have ht1t2 : t1 ≠ t2 := frameAlloc_fresh hallocB hsafet1
    have hpt2 : p ≠ t2 := frameAlloc_fresh hallocB hps
    obtain ⟨hsA, hsB, hfree, hmemB, hbytB, hbmB, hspB, hepB⟩ := frameAlloc_spec hallocB
    have ht2lt : t2 < 2 ^ 44 := by omega
    have hR : ∀ i, st2.mem root i = st.mem root i := by
      intro i
      rw [hmem, hM2, upd2_ne_page _ _ _ _ _ _ hroott2,
        upd2_ne_page _ _ _ _ _ _ (fun hc => ht1root hc.symm),
        zeroPage_ne _ _ _ _ hroott2]
    have hLt1v : st2.mem t1 (idx1 v) = pteNew t2 1 := by
      rw [hmem, hM2, upd2_ne_page _ _ _ _ _ _ ht1t2, upd2_same]
    have hLt1 : ∀ j, j ≠ idx1 v → st2.mem t1 j = st.mem t1 j := by
      intro j hj
      rw [hmem, hM2, upd2_ne_page _ _ _ _ _ _ ht1t2,
        upd2_ne _ _ _ _ _ _ (fun hc => hj hc.2), zeroPage_ne _ _ _ _ ht1t2]
    have hL : ∀ i, i < 512 → pteBranch (st.mem root i) = true →
        ptePpn (st.mem root i) ≠ t1 →
        ∀ j, st2.mem (ptePpn (st.mem root i)) j = st.mem (ptePpn (st.mem root i)) j := by
      intro i hi hb hne j
      have hnt2 : ptePpn (st.mem root i) ≠ t2 :=
        frameAlloc_fresh hallocB (hw2 i hi hb).1
      rw [hmem, hM2, upd2_ne_page _ _ _ _ _ _ hnt2,
        upd2_ne_page _ _ _ _ _ _ hne, zeroPage_ne _ _ _ _ hnt2]
    refine ⟨h1, ?_, ?_⟩
    · intro i hi hb
      rw [hR] at hb ⊢
      exact h2 i hi hb
    · intro i hi j hj hbi hbj
      rw [hR] at hbi hbj ⊢
      by_cases hT : ptePpn (st.mem root i) = t1
      · rw [hT] at hbj ⊢
        by_cases hjv : j = idx1 v
        · rw [hjv, hLt1v] at hbj ⊢
          rw [ptePpn_pteNew t2 1 ht2lt]
          exact fun hc => hpt2 hc.symm
        · rw [hLt1 j hjv] at hbj ⊢
          have hst := h3 i hi j hj hbi (by rw [hT]; exact hbj)
          rw [hT] at hst
          exact hst
      · rw [hL i hi hbi hT j] at hbj ⊢
        exact h3 i hi j hj hbi hbj
  · -- case B: two fresh tables t1, t2
    have hroott1 : root ≠ t1 := frameAlloc_fresh hallocA hsr
    have hfresh2 : ∀ w, Safe st w → w ≠ t2 := by
      intro w hw
      exact frameAlloc_fresh hallocB
        ((safe_memUpd _ _ _).mpr (frameAlloc_safe_mono hallocA hw))
    have hroott2 : root ≠ t2 := hfresh2 root hsr
    have ht1t2 : t1 ≠ t2 :=
      frameAlloc_fresh hallocB
        ((safe_memUpd _ _ _).mpr (markedD_safe (frameAlloc_marked_new hallocA)))
    have hpt1 : p ≠ t1 := frameAlloc_fresh hallocA hps
    have hpt2 : p ≠ t2 := hfresh2 p hps
    obtain ⟨hsA1, hsA2, hfreeA, hmemA, hbytA, hbmA, hspA, hepA⟩ := frameAlloc_spec hallocA
    obtain ⟨hsB1, hsB2, hfreeB, hmemB, hbytB, hbmB, hspB, hepB⟩ := frameAlloc_spec hallocB
    have ht1lt : t1 < 2 ^ 44 := by omega
    have ht2lt : t2 < 2 ^ 44 := by
      dsimp only at hsB2 hepA
      omega
    have hRo : ∀ i, i ≠ idx0 v → st2.mem root i = st.mem root i := by
      intro i hne
      rw [hmem, hM2, upd2_ne_page _ _ _ _ _ _ hroott2,
        upd2_ne_page _ _ _ _ _ _ hroott1, zeroPage_ne _ _ _ _ hroott2,
        upd2_ne _ _ _ _ _ _ (fun hc => hne hc.2), zeroPage_ne _ _ _ _ hroott1]
    have hRv : st2.mem root (idx0 v) = pteNew t1 1 := by
      rw [hmem, hM2, upd2_ne_page _ _ _ _ _ _ hroott2,
        upd2_ne_page _ _ _ _ _ _ hroott1, zeroPage_ne _ _ _ _ hroott2, upd2_same]
    have hT1v : st2.mem t1 (idx1 v) = pteNew t2 1 := by
      rw [hmem, hM2, upd2_ne_page _ _ _ _ _ _ ht1t2, upd2_same]
    have hT1o : ∀ j, j ≠ idx1 v → st2.mem t1 j = 0 := by
      intro j hj
      rw [hmem, hM2, upd2_ne_page _ _ _ _ _ _ ht1t2,
        upd2_ne _ _ _ _ _ _ (fun hc => hj hc.2), zeroPage_ne _ _ _ _ ht1t2,
        upd2_ne_page _ _ _ _ _ _ (fun hc => hroott1 hc.symm), zeroPage_same]
    have hL : ∀ i, i < 512 → pteBranch (st.mem root i) = true →
        ∀ j, st2.mem (ptePpn (st.mem root i)) j = st.mem (ptePpn (st.mem root i)) j := by
      intro i hi hb j
      obtain ⟨hsafeT, hTroot⟩ := hw2 i hi hb
      have hTt1 : ptePpn (st.mem root i) ≠ t1 := frameAlloc_fresh hallocA hsafeT
      have hTt2 : ptePpn (st.mem root i) ≠ t2 := hfresh2 _ hsafeT
      rw [hmem, hM2, upd2_ne_page _ _ _ _ _ _ hTt2, upd2_ne_page _ _ _ _ _ _ hTt1,
        zeroPage_ne _ _ _ _ hTt2, upd2_ne_page _ _ _ _ _ _ hTroot,
        zeroPage_ne _ _ _ _ hTt1]
    refine ⟨h1, ?_, ?_⟩
    · intro i hi hb
      by_cases hiv : i = idx0 v
      · rw [hiv, hRv, ptePpn_pteNew t1 1 ht1lt]
        exact fun hc => hpt1 hc.symm
      · rw [hRo i hiv] at hb ⊢
        exact h2 i hi hb
    · intro i hi j hj hbi hbj
      by_cases hiv : i = idx0 v
      · rw [hiv, hRv, ptePpn_pteNew t1 1 ht1lt] at hbj ⊢
        by_cases hjv : j = idx1 v
        · rw [hjv, hT1v, ptePpn_pteNew t2 1 ht2lt]
          exact fun hc => hpt2 hc.symm
        · rw [hT1o j hjv] at hbj
          exact absurd hbj (by decide)
      · rw [hRo i hiv] at hbi hbj ⊢
        rw [hL i hi hbi j] at hbj ⊢
        exact h3 i hi j hj hbi hbj

/-- Lookup after BTreeMap::insert: the inserted key, or the old map. -/
theorem aLookup_aInsert (fr : List (Nat × Nat)) (k x k' : Nat) :
    aLookup (aInsert fr k x) k' = if k' = k then some x else aLookup fr k' := by
  induction fr with
  | nil => simp [aInsert, aLookup]
  | cons hd tl ih =>
    obtain ⟨a, b⟩ := hd
    by_cases hk : k = a
    · subst hk
      by_cases hk' : k' = k
      · simp [aInsert, aLookup, hk']
      · simp [aInsert, aLookup, hk']
    · by_cases hk' : k' = a
      · have hne : k' ≠ k := fun hc => hk (hc ▸ hk')
        have hka : a ≠ k := fun hc => hk hc.symm
        simp [aInsert, aLookup, hk, hk', hne, hka]
      · simp [aInsert, aLookup, hk, hk', ih]

/-- Lookup after BTreeMap::remove at a different key is unchanged. -/
theorem aLookup_aErase (fr : List (Nat × Nat)) (k k' : Nat) (hne : k' ≠ k) :
    aLookup (aErase fr k) k' = aLookup fr k' := by
  induction fr with
  | nil => simp [aErase]
  | cons hd tl ih =>
    obtain ⟨a, b⟩ := hd
    by_cases hk : k = a
    · subst hk
      simp [aErase, aLookup, hne]
    · by_cases hk' : k' = a
      · simp [aErase, aLookup, hk, hk']
      · simp [aErase, aLookup, hk, hk', ih]

/-- The frame returned by a successful allocation was not Safe before:
it lay free inside the managed range. -/
theorem frameAlloc_not_safe {st : Machine} {a : Nat} {st1 : Machine}
    (h : frameAlloc st = some (a, st1)) : ¬ Safe st a := by
  obtain ⟨h1, h2, h3, _⟩ := frameAlloc_spec h
  intro hs
  rcases hs with hlt | hge | hbit
  · omega
  · omega
  · rw [hbit] at h3
    cases h3

/-- FrameTracker::new only zeroes the byte view: the PTE view, the
allocator bookkeeping and hence all table-structure predicates are
untouched. -/
theorem trackFrame_mem (st : Machine) (p : Nat) : (trackFrame st p).mem = st.mem := rfl

theorem WFpt_trackFrame (st : Machine) (p root : Nat) :
    WFpt (trackFrame st p) root ↔ WFpt st root := Iff.rfl

theorem safe_trackFrame (st : Machine) (p q : Nat) :
    Safe (trackFrame st p) q ↔ Safe st q := Iff.rfl

theorem marked_trackFrame (st : Machine) (p q : Nat) :
    markedD (trackFrame st p) q ↔ markedD st q := Iff.rfl

theorem notTable_trackFrame (st : Machine) (p root q : Nat) :
    notTable (trackFrame st p) root q ↔ notTable st root q := Iff.rfl

/-- Distinct page numbers below 2^27 have distinct SV39 index paths. -/
theorem triple_ne_of_ne {v v' : Nat} (hv : v < 2 ^ 27) (hv' : v' < 2 ^ 27)
    (hne : v ≠ v') :
    ¬(idx0 v = idx0 v' ∧ idx1 v = idx1 v' ∧ idx2 v = idx2 v') :=
  fun hc => hne (idx_inj hv hv' hc.1 hc.2.1 hc.2.2)

/-- MapArea::map_one on a Framed area at a page that does not yet
translate and has no tracked frame: a fresh frame is allocated, tracked
and mapped. -/
theorem mapOne_fresh_framed {st : Machine} {root : Nat} {a : MapAreaM} {vpn : Nat}
    {st' : Machine} {a' : MapAreaM}
    (hfr : a.framed = true) (hN : ptTranslate st.mem root vpn = none)
    (hlk : aLookup a.frames vpn = none)
    (h : mapOne st root a vpn = some (st', a')) :
    ∃ p st1, frameAlloc st = some (p, st1) ∧
      ptMap (trackFrame st1 p) root vpn p a.perm = some st' ∧
      a' = { a with frames := aInsert a.frames vpn p } := by
  unfold mapOne at h
  rw [hN] at h
  unfold mapOneTail at h
  rw [hfr] at h
  simp only [if_true, hlk] at h
  cases halloc : frameAlloc st with
  | none =>
    rw [halloc] at h
    cases h
  | some pr =>
    obtain ⟨p, st1⟩ := pr
    rw [halloc] at h
    dsimp only at h
    cases hmap : ptMap (trackFrame st1 p) root vpn p a.perm with
    | none =>
      rw [hmap] at h
      cases h
    | some stm =>
      rw [hmap] at h
      dsimp only at h
      have hp := Option.some.inj h
      have h1 := congrArg Prod.fst hp
      have h2 := congrArg Prod.snd hp
      dsimp only at h1 h2
      refine ⟨p, st1, rfl, hmap.trans (congrArg some h1), ?_⟩
      rw [← h2, hfr]

/-- MapArea::map_one on an Identical area at a page that does not yet
translate: the page is mapped to the frame of the same number. -/
theorem mapOne_fresh_ident {st : Machine} {root : Nat} {a : MapAreaM} {vpn : Nat}
    {st' : Machine} {a' : MapAreaM}
    (hfr : a.framed = false) (hN : ptTranslate st.mem root vpn = none)
    (h : mapOne st root a vpn = some (st', a')) :
    ptMap st root vpn vpn a.perm = some st' ∧ a' = a := by
  unfold mapOne at h
  rw [hN] at h
  unfold mapOneTail at h
  rw [hfr] at h
  simp only [Bool.false_eq_true, if_false] at h
  cases hmap : ptMap st root vpn vpn a.perm with
  | none =>
    rw [hmap] at h
    cases h
  | some stm =>
    rw [hmap] at h
    dsimp only at h
    have hp := Option.some.inj h
    have h1 := congrArg Prod.fst hp
    have h2 := congrArg Prod.snd hp
    dsimp only at h1 h2
    exact ⟨congrArg some h1, h2.symm⟩

/-- Full specification of the MapArea::map loop for a Framed area over a
range of pages that do not yet translate and are not yet tracked: fresh
frames are allocated and mapped one per page, everything established
before is preserved, and the new frames are fresh, marked, non-table and
pairwise distinct. -/
theorem mapRange_framed_spec {root : Nat} {st' : Machine} {a' : MapAreaM} :
    ∀ c st a vpn,
      WFpt st root →
      a.framed = true →
      (∀ d, d < c → ptTranslate st.mem root (vpn + d) = none) →
      (∀ d, d < c → aLookup a.frames (vpn + d) = none) →
      vpn + c ≤ 2 ^ 27 →
      mapRange root st a vpn c = some (st', a') →
      a'.startVpn = a.startVpn ∧ a'.endVpn = a.endVpn ∧ a'.framed = a.framed ∧
      a'.perm = a.perm ∧
      WFpt st' root ∧
      st'.startP = st.startP ∧ st'.endP = st.endP ∧
      (∀ q, Safe st q → Safe st' q) ∧
      (∀ q, markedD st q → markedD st' q) ∧
      (∀ q, notTable st root q → Safe st q → notTable st' root q) ∧
      (∀ vx e, vx < 2 ^ 27 → (vx < vpn ∨ vpn + c ≤ vx) →
        MappedAt st.mem root vx e → MappedAt st'.mem root vx e) ∧
      (∀ vx, vx < 2 ^ 27 → (vx < vpn ∨ vpn + c ≤ vx) →
        ptTranslate st.mem root vx = none → ptTranslate st'.mem root vx = none) ∧
      (∀ k pq, aLookup a.frames k = some pq → aLookup a'.frames k = some pq) ∧
      ∃ F : Nat → Nat,
        (∀ d, d < c → aLookup a'.frames (vpn + d) = some (F d)) ∧
        (∀ d, d < c → MappedAt st'.mem root (vpn + d) (pteNew (F d) (a.perm ||| 1))) ∧
        (∀ d, d < c → markedD st' (F d) ∧ notTable st' root (F d) ∧ ¬ Safe st (F d)) ∧
        (∀ d d', d < c → d' < c → d ≠ d' → F d ≠ F d') ∧
        (∀ k pq, aLookup a'.frames k = some pq →
          aLookup a.frames k = some pq ∨ ∃ d, d < c ∧ k = vpn + d ∧ pq = F d) := by
  intro c
  induction c with
  | zero =>
    intro st a vpn hWF hfr hnone hlook hbound h
    simp only [mapRange] at h
    have hp := Option.some.inj h
    have h1 := congrArg Prod.fst hp
    have h2 := congrArg Prod.snd hp
    dsimp only at h1 h2
    subst h1
    subst h2
    refine ⟨rfl, rfl, rfl, rfl, hWF, rfl, rfl, fun q hq => hq, fun q hq => hq,
      fun q hq _ => hq, fun vx e _ _ hMA => hMA, fun vx _ _ hN => hN,
      fun k pq hk => hk, fun _ => 0, ?_, ?_, ?_, ?_, ?_⟩
    · intro d hd
      exact absurd hd (by omega)
    · intro d hd
      exact absurd hd (by omega)
    · intro d hd
      exact absurd hd (by omega)
    · intro d d' hd hd' hne
      exact absurd hd (by omega)
    · intro k pq hk
      exact Or.inl hk
  | succ c ih =>
    intro st a vpn hWF hfr hnone hlook hbound h
    simp only [mapRange] at h
    cases hm : mapOne st root a vpn with
    | none =>
      rw [hm] at h
      cases h
    | some pr =>
      obtain ⟨stm, am⟩ := pr
      rw [hm] at h
      dsimp only at h
      have hN0 : ptTranslate st.mem root vpn = none := by
        have hx := hnone 0 (by omega)
        simpa using hx
      have hlk0 : aLookup a.frames vpn = none := by
        have hx := hlook 0 (by omega)
        simpa using hx
      obtain ⟨p, st1, halloc, hmap, ham⟩ := mapOne_fresh_framed hfr hN0 hlk0 hm
      obtain ⟨hal1, hal2, halfree, halmem, halbyt, halbm, halsp, halep⟩ :=
        frameAlloc_spec halloc
      have hWF1 : WFpt st1 root := frameAlloc_WF hWF halloc
      have hWFt : WFpt (trackFrame st1 p) root := (WFpt_trackFrame _ _ _).mpr hWF1
      have hrootm : Safe (trackFrame st1 p) root := hWFt.2.1
      have hflds := ptMap_fields hrootm hmap
      have hWFm : WFpt stm root := ptMap_WF hWFt hmap
      have hSafe01 : ∀ q, Safe st q → Safe stm q := fun q hq =>
        hflds.2.2.1 q ((safe_trackFrame _ _ _).mpr (frameAlloc_safe_mono halloc hq))
      have hMark01 : ∀ q, markedD st q → markedD stm q := fun q hq =>
        hflds.2.2.2 q ((marked_trackFrame _ _ _).mpr (frameAlloc_marked_mono halloc hq))
      have hmkp : markedD stm p :=
        hflds.2.2.2 p ((marked_trackFrame _ _ _).mpr (frameAlloc_marked_new halloc))
      have hntp : notTable stm root p :=
        ptMap_notTable hWFt hmap
          ((notTable_trackFrame _ _ _ _).mpr (frameAlloc_notTable_new hWF halloc))
          ((safe_trackFrame _ _ _).mpr (markedD_safe (frameAlloc_marked_new halloc)))
      have hMAp : MappedAt stm.mem root vpn (pteNew p (a.perm ||| 1)) :=
        ptMap_mappedAt hWFt hmap
      have hvpnlt : vpn < 2 ^ 27 := by omega
      have hstep_none : ∀ vx, vx < 2 ^ 27 → vx ≠ vpn →
          ptTranslate st.mem root vx = none → ptTranslate stm.mem root vx = none := by
        intro vx hvx hne hN
        have h1 : ptTranslate st1.mem root vx = none :=
          frameAlloc_translate_none hWF halloc hN
        have h2 : ptTranslate (trackFrame st1 p).mem root vx = none := by
          rw [trackFrame_mem]
          exact h1
        exact ptMap_translate_none_other hWFt hmap (triple_ne_of_ne hvx hvpnlt hne) h2
      have hstep_MA : ∀ vx e, vx < 2 ^ 27 → vx ≠ vpn →
          MappedAt st.mem root vx e → MappedAt stm.mem root vx e := by
        intro vx e hvx hne hMA
        have h1 := frameAlloc_mappedAt hWF halloc hMA
        have h2 : MappedAt (trackFrame st1 p).mem root vx e := by
          rw [trackFrame_mem]
          exact h1
        exact ptMap_mappedAt_other hWFt hmap (triple_ne_of_ne hvx hvpnlt hne) h2
      have hstep_NT : ∀ q, notTable st root q → Safe st q → notTable stm root q := by
        intro q hq hs
        have h1 := frameAlloc_notTable hWF halloc hq
        exact ptMap_notTable hWFt hmap ((notTable_trackFrame _ _ _ _).mpr h1)
          ((safe_trackFrame _ _ _).mpr (frameAlloc_safe_mono halloc hs))
      have hm_sp : stm.startP = st.startP := by
        rw [hflds.1]
        exact halsp
      have hm_ep : stm.endP = st.endP := by
        rw [hflds.2.1]
        exact halep
      have hfr' : am.framed = true := by
        rw [ham]
        exact hfr
      have hnone' : ∀ d, d < c → ptTranslate stm.mem root (vpn + 1 + d) = none := by
        intro d hd
        have hnum : vpn + 1 + d = vpn + (1 + d) := by omega
        rw [hnum]
        exact hstep_none _ (by omega) (by omega) (hnone (1 + d) (by omega))
      have hlook' : ∀ d, d < c → aLookup am.frames (vpn + 1 + d) = none := by
        intro d hd
        rw [ham]
        dsimp only
        rw [aLookup_aInsert, if_neg (by omega)]
        have hnum : vpn + 1 + d = vpn + (1 + d) := by omega
        rw [hnum]
        exact hlook (1 + d) (by omega)
      obtain ⟨hA1, hA2, hA3, hA4, hWF2, hsp2, hep2, hSafe2, hMark2, hNT2, hMA2, hNN2,
        hLK2, F2, hF1, hF2x, hF3, hF4, hF5⟩ :=
        ih stm am (vpn + 1) hWFm hfr' hnone' hlook' (by omega) h
      have hamLK : ∀ k pq, aLookup a.frames k = some pq →
          aLookup am.frames k = some pq := by
        intro k pq hk
        rw [ham]
        dsimp only
        rw [aLookup_aInsert]
        by_cases hkv : k = vpn
        · rw [hkv, hlk0] at hk
          cases hk
        · rw [if_neg hkv]
          exact hk
      refine ⟨?_, ?_, ?_, ?_, hWF2, ?_, ?_, ?_, ?_, ?_, ?_, ?_, ?_, ?_⟩
      · rw [hA1, ham]
      · rw [hA2, ham]
      · rw [hA3, ham]
      · rw [hA4, ham]
      · rw [hsp2, hm_sp]
      · rw [hep2, hm_ep]
      · exact fun q hq => hSafe2 q (hSafe01 q hq)
      · exact fun q hq => hMark2 q (hMark01 q hq)
      · exact fun q hq hs => hNT2 q (hstep_NT q hq hs) (hSafe01 q hs)
      · intro vx e hvx hg hMA
        exact hMA2 vx e hvx (by omega) (hstep_MA vx e hvx (by omega) hMA)
      · intro vx hvx hg hN
        exact hNN2 vx hvx (by omega) (hstep_none vx hvx (by omega) hN)
      · exact fun k pq hk => hLK2 k pq (hamLK k pq hk)
      · refine ⟨fun d => match d with | 0 => p | Nat.succ d => F2 d, ?_, ?_, ?_, ?_, ?_⟩
        · intro d hd
          cases d with
          | zero =>
            have hlkam : aLookup am.frames vpn = some p := by
              rw [ham]
              dsimp only
              rw [aLookup_aInsert, if_pos rfl]
            have hx := hLK2 vpn p hlkam
            simpa using hx
          | succ d =>
            have hnum : vpn + (d + 1) = vpn + 1 + d := by omega
            rw [hnum]
            exact hF1 d (by omega)
        · intro d hd
          cases d with
          | zero =>
            have hx := hMA2 vpn (pteNew p (a.perm ||| 1)) hvpnlt (by omega) hMAp
            simpa using hx
          | succ d =>
            have hx := hF2x d (by omega)
            rw [ham] at hx
            have hnum : vpn + (d + 1) = vpn + 1 + d := by omega
            rw [hnum]
            exact hx
        · intro d hd
          cases d with
          | zero =>
            exact ⟨hMark2 p hmkp, hNT2 p hntp (markedD_safe hmkp),
              frameAlloc_not_safe halloc⟩
          | succ d =>
            obtain ⟨hx1, hx2, hx3⟩ := hF3 d (by omega)
            exact ⟨hx1, hx2, fun hs => hx3 (hSafe01 _ hs)⟩
        · intro d d' hd hd' hne
          cases d with
          | zero =>
            cases d' with
            | zero => exact absurd rfl hne
            | succ d' =>
              intro heq
              have heq' : p = F2 d' := heq
              exact (hF3 d' (by omega)).2.2 (heq' ▸ markedD_safe hmkp)
          | succ d =>
            cases d' with
            | zero =>
              intro heq
              have heq' : F2 d = p := heq
              exact (hF3 d (by omega)).2.2 (heq' ▸ markedD_safe hmkp)
            | succ d' =>
              exact hF4 d d' (by omega) (by omega) (by omega)
        · intro k pq hk
          rcases hF5 k pq hk with hold | ⟨d, hd, hkd, hpq⟩
          · rw [ham] at hold
            dsimp only at hold
            rw [aLookup_aInsert] at hold
            by_cases hkv : k = vpn
            · rw [if_pos hkv] at hold
              refine Or.inr ⟨0, by omega, by omega, ?_⟩
              exact (Option.some.inj hold).symm
            · rw [if_neg hkv] at hold
              exact Or.inl hold
          · exact Or.inr ⟨d + 1, by omega, by omega, hpq⟩

/-- Specification of the MapArea::map loop for an Identical area over a
range of pages that do not yet translate: each page is mapped to the
frame of the same number, and everything established before is
preserved. -/
theorem mapRange_ident_spec {root : Nat} {st' : Machine} {a' : MapAreaM} :
    ∀ c st a vpn,
      WFpt st root →
      a.framed = false →
      (∀ d, d < c → ptTranslate st.mem root (vpn + d) = none) →
      vpn + c ≤ 2 ^ 27 →
      mapRange root st a vpn c = some (st', a') →
      a' = a ∧
      WFpt st' root ∧
      st'.startP = st.startP ∧ st'.endP = st.endP ∧
      (∀ q, Safe st q → Safe st' q) ∧
      (∀ q, markedD st q → markedD st' q) ∧
      (∀ q, notTable st root q → Safe st q → notTable st' root q) ∧
      (∀ vx e, vx < 2 ^ 27 → (vx < vpn ∨ vpn + c ≤ vx) →
        MappedAt st.mem root vx e → MappedAt st'.mem root vx e) ∧
      (∀ vx, vx < 2 ^ 27 → (vx < vpn ∨ vpn + c ≤ vx) →
        ptTranslate st.mem root vx = none → ptTranslate st'.mem root vx = none) ∧
      (∀ d, d < c →
        MappedAt st'.mem root (vpn + d) (pteNew (vpn + d) (a.perm ||| 1))) := by
  intro c
  induction c with
  | zero =>
    intro st a vpn hWF hfr hnone hbound h
    simp only [mapRange] at h
    have hp := Option.some.inj h
    have h1 := congrArg Prod.fst hp
    have h2 := congrArg Prod.snd hp
    dsimp only at h1 h2
    subst h1
    subst h2
    refine ⟨rfl, hWF, rfl, rfl, fun q hq => hq, fun q hq => hq, fun q hq _ => hq,
      fun vx e _ _ hMA => hMA, fun vx _ _ hN => hN, ?_⟩
    intro d hd
    exact absurd hd (by omega)
  | succ c ih =>
    intro st a vpn hWF hfr hnone hbound h
    simp only [mapRange] at h
    cases hm : mapOne st root a vpn with
    | none =>
      rw [hm] at h
      cases h
    | some pr =>
      obtain ⟨stm, am⟩ := pr
      rw [hm] at h
      dsimp only at h
      have hN0 : ptTranslate st.mem root vpn = none := by
        have hx := hnone 0 (by omega)
        simpa using hx
      obtain ⟨hmap, ham⟩ := mapOne_fresh_ident hfr hN0 hm
      rw [ham] at h
      have hroot : Safe st root := hWF.2.1
      have hflds := ptMap_fields hroot hmap
      have hWFm : WFpt stm root := ptMap_WF hWF hmap
      have hMAp : MappedAt stm.mem root vpn (pteNew vpn (a.perm ||| 1)) :=
        ptMap_mappedAt hWF hmap
      have hvpnlt : vpn < 2 ^ 27 := by omega
      have hstep_none : ∀ vx, vx < 2 ^ 27 → vx ≠ vpn →
          ptTranslate st.mem root vx = none → ptTranslate stm.mem root vx = none := by
        intro vx hvx hne hN
        exact ptMap_translate_none_other hWF hmap (triple_ne_of_ne hvx hvpnlt hne) hN
      have hstep_MA : ∀ vx e, vx < 2 ^ 27 → vx ≠ vpn →
          MappedAt st.mem root vx e → MappedAt stm.mem root vx e := by
        intro vx e hvx hne hMA
        exact ptMap_mappedAt_other hWF hmap (triple_ne_of_ne hvx hvpnlt hne) hMA
      have hnone' : ∀ d, d < c → ptTranslate stm.mem root (vpn + 1 + d) = none := by
        intro d hd
        have hnum : vpn + 1 + d = vpn + (1 + d) := by omega
        rw [hnum]
        exact hstep_none _ (by omega) (by omega) (hnone (1 + d) (by omega))
      obtain ⟨hA, hWF2, hsp2, hep2, hSafe2, hMark2, hNT2, hMA2, hNN2, hMap2⟩ :=
        ih stm a (vpn + 1) hWFm hfr hnone' (by omega) h
      refine ⟨hA, hWF2, by rw [hsp2, hflds.1], by rw [hep2, hflds.2.1], ?_, ?_, ?_,
        ?_, ?_, ?_⟩
      · exact fun q hq => hSafe2 q (hflds.2.2.1 q hq)
      · exact fun q hq => hMark2 q (hflds.2.2.2 q hq)
      · intro q hq hs
        exact hNT2 q (ptMap_notTable hWF hmap hq hs) (hflds.2.2.1 q hs)
      · intro vx e hvx hg hMA
        exact hMA2 vx e hvx (by omega) (hstep_MA vx e hvx (by omega) hMA)
      · intro vx hvx hg hN
        exact hNN2 vx hvx (by omega) (hstep_none vx hvx (by omega) hN)
      · intro d hd
        cases d with
        | zero =>
          have hx := hMA2 vpn (pteNew vpn (a.perm ||| 1)) hvpnlt (by omega) hMAp
          simpa using hx
        | succ d =>
          have hnum : vpn + (d + 1) = vpn + 1 + d := by omega
          rw [hnum]
          exact hMap2 d (by omega)

/-- Leaf entries installed by PageTable::map always carry the V bit. -/
theorem pteValid_pteNew_or1 (p f : Nat) : pteValid (pteNew p (f ||| 1)) = true := by
  rw [pteValid_pteNew, lor_one_mod_two]
  decide

/-- Full specification of the MapArea::unmap loop for a Framed area
whose pages are all mapped and tracked: it succeeds, the owned frames
are released and the leaves cleared, and every mapping or non-mapping
outside the range survives. -/
theorem unmapRange_framed_spec {root : Nat} :
    ∀ c st a vpn (F : Nat → Nat),
      WFpt st root →
      a.framed = true →
      (∀ d, d < c → aLookup a.frames (vpn + d) = some (F d)) →
      (∀ d, d < c → MappedAt st.mem root (vpn + d) (pteNew (F d) (a.perm ||| 1))) →
      (∀ d, d < c → notTable st root (F d)) →
      vpn + c ≤ 2 ^ 27 →
      ∃ st' a',
        unmapRange root st a vpn c = some (st', a') ∧
        WFpt st' root ∧
        st'.startP = st.startP ∧ st'.endP = st.endP ∧
        (∀ q, Safe st q → (∀ d, d < c → q ≠ F d) → Safe st' q) ∧
        (∀ q, markedD st q → (∀ d, d < c → q ≠ F d) → markedD st' q) ∧
        (∀ q, notTable st root q → notTable st' root q) ∧
        (∀ vx e, vx < 2 ^ 27 → (vx < vpn ∨ vpn + c ≤ vx) →
          MappedAt st.mem root vx e → MappedAt st'.mem root vx e) ∧
        (∀ vx, vx < 2 ^ 27 → (vx < vpn ∨ vpn + c ≤ vx) →
          ptTranslate st.mem root vx = none → ptTranslate st'.mem root vx = none) ∧
        (∀ d, d < c → ptTranslate st'.mem root (vpn + d) = none) := by
  intro c
  induction c with
  | zero =>
    intro st a vpn F hWF hfr hlk hMA hNT hbound
    refine ⟨st, a, by simp [unmapRange], hWF, rfl, rfl, fun q hq _ => hq,
      fun q hq _ => hq, fun q hq => hq, fun vx e _ _ hx => hx, fun vx _ _ hx => hx, ?_⟩
    intro d hd
    exact absurd hd (by omega)
  | succ c ih =>
    intro st a vpn F hWF hfr hlk hMA hNT hbound
    have hlk0 : aLookup a.frames vpn = some (F 0) := by
      have hx := hlk 0 (by omega)
      simpa using hx
    have hMA0 : MappedAt st.mem root vpn (pteNew (F 0) (a.perm ||| 1)) := by
      have hx := hMA 0 (by omega)
      simpa using hx
    have hNT0 : notTable st root (F 0) := hNT 0 (by omega)
    have hvpnlt : vpn < 2 ^ 27 := by omega
    set std := frameDealloc st (F 0) with hstd
    have hdm := frameDealloc_mem st (F 0)
    have hWFd : WFpt std root := frameDealloc_WF hWF hNT0
    have hMAd : MappedAt std.mem root vpn (pteNew (F 0) (a.perm ||| 1)) := by
      rw [hdm.1]
      exact hMA0
    have hun := mappedAt_unmap hMAd (pteValid_pteNew_or1 (F 0) a.perm)
    set stm := { std with
      mem := upd2 std.mem (ptePpn (std.mem (ptePpn (std.mem root (idx0 vpn))) (idx1 vpn)))
               (idx2 vpn) 0 } with hstm
    have hone : unmapOne st root a vpn =
        some (stm, { a with frames := aErase a.frames vpn }) := by
      unfold unmapOne
      rw [hfr]
      simp only [if_true, hlk0]
      rw [hun]
    have hWFm : WFpt stm root := ptUnmap_WF hWFd hun
    have hufld := ptUnmap_fields hun
    have hstep_MA : ∀ vx e, vx < 2 ^ 27 → vx ≠ vpn →
        MappedAt st.mem root vx e → MappedAt stm.mem root vx e := by
      intro vx e hvx hne hx
      refine ptUnmap_mappedAt_other hWFd hun (triple_ne_of_ne hvx hvpnlt hne) ?_
      rw [hdm.1]
      exact hx
    have hstep_NN : ∀ vx, ptTranslate st.mem root vx = none →
        ptTranslate stm.mem root vx = none := by
      intro vx hx
      refine ptUnmap_translate_none_other hWFd hun ?_
      rw [hdm.1]
      exact hx
    have hstep_NT : ∀ q, notTable st root q → notTable stm root q := by
      intro q hq
      exact ptUnmap_notTable hWFd hun (frameDealloc_notTable hq)
    have hstep_S : ∀ q, Safe st q → q ≠ F 0 → Safe stm q := by
      intro q hq hne
      exact safe_congr hufld.1 hufld.2.2.1 hufld.2.2.2 (frameDealloc_safe hq hne)
    have hstep_M : ∀ q, markedD st q → q ≠ F 0 → markedD stm q := by
      intro q hq hne
      exact marked_congr hufld.1 hufld.2.2.1 hufld.2.2.2 (frameDealloc_marked hq hne)
    have hsp_m : stm.startP = st.startP := by
      rw [hufld.2.2.1, hdm.2.2.1]
    have hep_m : stm.endP = st.endP := by
      rw [hufld.2.2.2, hdm.2.2.2]
    have hlk' : ∀ d, d < c → aLookup (aErase a.frames vpn) (vpn + 1 + d) = some (F (1 + d)) := by
      intro d hd
      rw [aLookup_aErase _ _ _ (by omega)]
      have hnum : vpn + 1 + d = vpn + (1 + d) := by omega
      rw [hnum]
      exact hlk (1 + d) (by omega)
    have hMA' : ∀ d, d < c →
        MappedAt stm.mem root (vpn + 1 + d) (pteNew (F (1 + d)) (a.perm ||| 1)) := by
      intro d hd
      have hnum : vpn + 1 + d = vpn + (1 + d) := by omega
      rw [hnum]
      exact hstep_MA _ _ (by omega) (by omega) (hMA (1 + d) (by omega))
    have hNT' : ∀ d, d < c → notTable stm root (F (1 + d)) := by
      intro d hd
      exact hstep_NT _ (hNT (1 + d) (by omega))
    obtain ⟨st', a', hrun, hWF2, hsp2, hep2, hS2, hM2, hNT2, hMA2, hNN2, hgone⟩ :=
      ih stm { a with frames := aErase a.frames vpn } (vpn + 1) (fun d => F (1 + d))
        hWFm hfr hlk' hMA' hNT' (by omega)
    refine ⟨st', a', ?_, hWF2, by rw [hsp2, hsp_m], by rw [hep2, hep_m], ?_, ?_,
      ?_, ?_, ?_, ?_⟩
    · show unmapRange root st a vpn (c + 1) = some (st', a')
      simp only [unmapRange]
      rw [hone]
      exact hrun
    · intro q hq hne
      exact hS2 q (hstep_S q hq (hne 0 (by omega))) (fun d hd => hne (1 + d) (by omega))
    · intro q hq hne
      exact hM2 q (hstep_M q hq (hne 0 (by omega))) (fun d hd => hne (1 + d) (by omega))
    · exact fun q hq => hNT2 q (hstep_NT q hq)
    · intro vx e hvx hg hx
      exact hMA2 vx e hvx (by omega) (hstep_MA vx e hvx (by omega) hx)
    · intro vx hvx hg hx
      exact hNN2 vx hvx (by omega) (hstep_NN vx hx)
    · intro d hd
      cases d with
      | zero =>
        have hvN : ptTranslate stm.mem root vpn = none := ptUnmap_translate_none hun
        have hx := hNN2 vpn hvpnlt (by omega) hvN
        simpa using hx
      | succ d =>
        have hnum : vpn + (d + 1) = vpn + 1 + d := by omega
        rw [hnum]
        exact hgone d (by omega)

/-- Full specification of the MapArea::unmap loop for an Identical area
whose pages are all mapped: it succeeds and only clears the range's
leaves; the allocator state is untouched. -/
theorem unmapRange_ident_spec {root : Nat} :
    ∀ c st a vpn,
      WFpt st root →
      a.framed = false →
      (∀ d, d < c →
        MappedAt st.mem root (vpn + d) (pteNew (vpn + d) (a.perm ||| 1))) →
      vpn + c ≤ 2 ^ 27 →
      ∃ st' a',
        unmapRange root st a vpn c = some (st', a') ∧
        WFpt st' root ∧
        st'.startP = st.startP ∧ st'.endP = st.endP ∧ st'.bm = st.bm ∧
        (∀ q, notTable st root q → notTable st' root q) ∧
        (∀ vx e, vx < 2 ^ 27 → (vx < vpn ∨ vpn + c ≤ vx) →
          MappedAt st.mem root vx e → MappedAt st'.mem root vx e) ∧
        (∀ vx, vx < 2 ^ 27 → (vx < vpn ∨ vpn + c ≤ vx) →
          ptTranslate st.mem root vx = none → ptTranslate st'.mem root vx = none) ∧
        (∀ d, d < c → ptTranslate st'.mem root (vpn + d) = none) := by
  intro c
  induction c with
  | zero =>
    intro st a vpn hWF hfr hMA hbound
    refine ⟨st, a, by simp [unmapRange], hWF, rfl, rfl, rfl, fun q hq => hq,
      fun vx e _ _ hx => hx, fun vx _ _ hx => hx, ?_⟩
    intro d hd
    exact absurd hd (by omega)
  | succ c ih =>
    intro st a vpn hWF hfr hMA hbound
    have hMA0 : MappedAt st.mem root vpn (pteNew vpn (a.perm ||| 1)) := by
      have hx := hMA 0 (by omega)
      simpa using hx
    have hvpnlt : vpn < 2 ^ 27 := by omega
    have hun := mappedAt_unmap hMA0 (pteValid_pteNew_or1 vpn a.perm)
    set stm := { st with
      mem := upd2 st.mem (ptePpn (st.mem (ptePpn (st.mem root (idx0 vpn))) (idx1 vpn)))
               (idx2 vpn) 0 } with hstm
    have hone : unmapOne st root a vpn = some (stm, a) := by
      unfold unmapOne
      rw [hfr]
      simp only [Bool.false_eq_true, if_false]
      rw [hun]
    have hWFm : WFpt stm root := ptUnmap_WF hWF hun
    have hufld := ptUnmap_fields hun
    have hstep_MA : ∀ vx e, vx < 2 ^ 27 → vx ≠ vpn →
        MappedAt st.mem root vx e → MappedAt stm.mem root vx e := by
      intro vx e hvx hne hx
      exact ptUnmap_mappedAt_other hWF hun (triple_ne_of_ne hvx hvpnlt hne) hx
    have hstep_NN : ∀ vx, ptTranslate st.mem root vx = none →
        ptTranslate stm.mem root vx = none := by
      intro vx hx
      exact ptUnmap_translate_none_other hWF hun hx
    have hMA' : ∀ d, d < c →
        MappedAt stm.mem root (vpn + 1 + d) (pteNew (vpn + 1 + d) (a.perm ||| 1)) := by
      intro d hd
      have hnum : vpn + 1 + d = vpn + (1 + d) := by omega
      rw [hnum]
      exact hstep_MA _ _ (by omega) (by omega) (hMA (1 + d) (by omega))
    obtain ⟨st', a', hrun, hWF2, hsp2, hep2, hbm2, hNT2, hMA2, hNN2, hgone⟩ :=
      ih stm a (vpn + 1) hWFm hfr hMA' (by omega)
    refine ⟨st', a', ?_, hWF2, by rw [hsp2, hufld.2.2.1], by rw [hep2, hufld.2.2.2],
      by rw [hbm2, hufld.1], ?_, ?_, ?_, ?_⟩
    · show unmapRange root st a vpn (c + 1) = some (st', a')
      simp only [unmapRange]
      rw [hone]
      exact hrun
    · intro q hq
      exact hNT2 q (ptUnmap_notTable hWF hun hq)
    · intro vx e hvx hg hx
      exact hMA2 vx e hvx (by omega) (hstep_MA vx e hvx (by omega) hx)
    · intro vx hvx hg hx
      exact hNN2 vx hvx (by omega) (hstep_NN vx hx)
    · intro d hd
      cases d with
      | zero =>
        have hvN : ptTranslate stm.mem root vpn = none := ptUnmap_translate_none hun
        have hx := hNN2 vpn hvpnlt (by omega) hvN
        simpa using hx
      | succ d =>
        have hnum : vpn + (d + 1) = vpn + 1 + d := by omega
        rw [hnum]
        exact hgone d (by omega)

/-- The copy_data page loop only writes bytes: the PTE view and the
allocator bookkeeping are untouched. -/
theorem copyLoop_fields {root : Nat} {env : CopyEnv} {data : List Nat} {len : Nat} :
    ∀ fuel st vpn start stf,
      copyLoop root env data len st vpn start fuel = some stf →
      stf.mem = st.mem ∧ stf.bm = st.bm ∧ stf.startP = st.startP ∧ stf.endP = st.endP := by
  intro fuel
  induction fuel with
  | zero =>
    intro st vpn start stf h
    simp [copyLoop] at h
  | succ fuel ih =>
    intro st vpn start stf h
    simp only [copyLoop] at h
    cases ht : ptTranslate st.mem root vpn with
    | none =>
      rw [ht] at h
      cases h
    | some pr =>
      obtain ⟨ppn, fl⟩ := pr
      rw [ht] at h
      dsimp only at h
      by_cases h1 : env.stext ≤ ppn * PAGE_SIZE ∧ ppn * PAGE_SIZE < env.ekernel
      · rw [if_pos h1] at h
        cases h
      · rw [if_neg h1] at h
        by_cases h2 : ppn * PAGE_SIZE < env.heapStart
        · rw [if_pos h2] at h
          cases h
        · rw [if_neg h2] at h
          by_cases h3 : len ≤ start + PAGE_SIZE
          · rw [if_pos h3] at h
            have hx := Option.some.inj h
            rw [← hx]
            exact ⟨rfl, rfl, rfl, rfl⟩
          · rw [if_neg h3] at h
            obtain ⟨e1, e2, e3, e4⟩ := ih _ _ _ _ h
            exact ⟨e1, e2, e3, e4⟩

/-- MapArea::copy_data only writes bytes. -/
theorem copyData_fields {st : Machine} {root : Nat} {a : MapAreaM} {data : List Nat}
    {env : CopyEnv} {stf : Machine} (h : copyData st root a data env = some stf) :
    stf.mem = st.mem ∧ stf.bm = st.bm ∧ stf.startP = st.startP ∧ stf.endP = st.endP := by
  unfold copyData at h
  cases hfr : a.framed with
  | true =>
    rw [hfr] at h
    simp only [if_true] at h
    exact copyLoop_fields _ _ _ _ _ h
  | false =>
    rw [hfr] at h
    simp only [Bool.false_eq_true, if_false] at h
    cases h

/-- Bitwise and of a number with itself. -/
theorem land_self (x : Nat) : x &&& x = x := by
  apply Nat.eq_of_testBit_eq
  intro i
  simp [Nat.testBit_and]

/-- Well-formedness only depends on the PTE view and the allocator
bookkeeping. -/
theorem WFpt_congr {st' st'' : Machine} {root : Nat}
    (hmem : st'.mem = st''.mem) (hbm : st'.bm = st''.bm)
    (hsp : st'.startP = st''.startP) (hep : st'.endP = st''.endP)
    (h : WFpt st'' root) : WFpt st' root := by
  obtain ⟨h1, h2, h3, h4, h5, h6, h7⟩ := h
  refine ⟨by rw [hep]; exact h1, safe_congr hbm hsp hep h2, ?_, ?_, ?_, ?_, ?_⟩
  · intro i hi hb
    rw [hmem] at hb ⊢
    exact ⟨safe_congr hbm hsp hep (h3 i hi hb).1, (h3 i hi hb).2⟩
  · intro i hi i' hi' hb hb' hpp
    rw [hmem] at hb hb' hpp
    exact h4 i hi i' hi' hb hb' hpp
  · intro i hi j hj hbi hbj
    rw [hmem] at hbi hbj ⊢
    exact ⟨safe_congr hbm hsp hep (h5 i hi j hj hbi hbj).1, (h5 i hi j hj hbi hbj).2⟩
  · intro i hi j hj i' hi' hbi hbj hbi'
    rw [hmem] at hbi hbj hbi' ⊢
    exact h6 i hi j hj i' hi' hbi hbj hbi'
  · intro i hi j hj i' hi' j' hj' hbi hbj hbi' hbj' hpp
    rw [hmem] at hbi hbj hbi' hbj' hpp
    exact h7 i hi j hj i' hi' j' hj' hbi hbj hbi' hbj' hpp

/-- The non-table property only depends on the PTE view. -/
theorem notTable_congr {st' st'' : Machine} {root p : Nat}
    (hmem : st'.mem = st''.mem) (h : notTable st'' root p) : notTable st' root p := by
  obtain ⟨h1, h2, h3⟩ := h
  refine ⟨h1, ?_, ?_⟩
  · intro i hi hb
    rw [hmem] at hb ⊢
    exact h2 i hi hb
  · intro i hi j hj hbi hbj
    rw [hmem] at hbi hbj ⊢
    exact h3 i hi j hj hbi hbj

/-- The per-area invariant only depends on the PTE view and the
allocator bookkeeping. -/
theorem okArea_congr {st' st'' : Machine} {root : Nat} {a : MapAreaM}
    (hmem : st'.mem = st''.mem) (hbm : st'.bm = st''.bm)
    (hsp : st'.startP = st''.startP) (hep : st'.endP = st''.endP)
    (h : okArea st'' root a) : okArea st' root a := by
  obtain ⟨h1, h2, h3, h4, h5⟩ := h
  refine ⟨h1, h2, ?_, ?_, h5⟩
  · intro hfr
    obtain ⟨h3a, h3b⟩ := h3 hfr
    refine ⟨?_, h3b⟩
    intro d hd
    obtain ⟨p, hlk, hMA, hmk, hnt⟩ := h3a d hd
    refine ⟨p, hlk, by rw [hmem]; exact hMA, marked_congr hbm hsp hep hmk,
      notTable_congr hmem hnt⟩
  · intro hfr d hd
    have hx := h4 hfr d hd
    rw [hmem]
    exact hx

/-- The MemorySet invariant implies claim C1's translation property for
every Framed area. -/
theorem msOk_framedInv {s : MS} (hok : msOk s) : framedInv s := by
  obtain ⟨hWF, hdisj, hareas, huniq, hout⟩ := hok
  intro a ha hfr d hd
  obtain ⟨hend, hperm, hframed, _⟩ := hareas a ha
  obtain ⟨hper, _⟩ := hframed hfr
  obtain ⟨p, hlk, hMA, hmk, hnt⟩ := hper d hd
  have htr := mappedAt_translate hMA (pteValid_pteNew_or1 p a.perm)
  have hplt : p < 2 ^ 44 := by
    obtain ⟨hm1, hm2, hm3⟩ := hmk
    have := hWF.1
    omega
  have hfl : (a.perm ||| 1) < 256 := lor_one_lt a.perm hperm
  unfold framedVpnOk
  rw [hlk, htr, ptePpn_pteNew p _ hplt, pteFlags_pteNew]
  rw [Nat.mod_eq_of_lt hfl]
  exact ⟨rfl, land_self _⟩

/-- The per-area invariant survives any machine transition that
preserves mappings inside the range, markedness and the non-table
property of marked frames. -/
theorem okArea_mono {st st' : Machine} {root : Nat} {a : MapAreaM}
    (hMA : ∀ vx e, vx < 2 ^ 27 → a.startVpn ≤ vx → vx < a.endVpn →
      MappedAt st.mem root vx e → MappedAt st'.mem root vx e)
    (hM : ∀ k q, aLookup a.frames k = some q → markedD st q → markedD st' q)
    (hNT : ∀ k q, aLookup a.frames k = some q → notTable st root q → markedD st q →
      notTable st' root q)
    (h : okArea st root a) : okArea st' root a := by
  obtain ⟨h1, h2, h3, h4, h5⟩ := h
  refine ⟨h1, h2, ?_, ?_, h5⟩
  · intro hfr
    obtain ⟨h3a, h3b⟩ := h3 hfr
    refine ⟨?_, h3b⟩
    intro d hd
    obtain ⟨p, hlk, hMAd, hmk, hnt⟩ := h3a d hd
    exact ⟨p, hlk, hMA _ _ (by omega) (by omega) (by omega) hMAd, hM _ p hlk hmk,
      hNT _ p hlk hnt hmk⟩
  · intro hfr d hd
    exact hMA _ _ (by omega) (by omega) (by omega) (h4 hfr d hd)

/-- A tracked frame always belongs to a Framed area, lies at a page of
its range, and is marked in the allocator. -/
theorem tracksAt_elim {s : MS}
    (h3 : ∀ a, a ∈ s.areas → okArea s.machine s.root a)
    {k p : Nat} (ht : tracksAt s k p) :
    markedD s.machine p ∧ notTable s.machine s.root p ∧
    ∃ a, a ∈ s.areas ∧ a.framed = true ∧ a.startVpn ≤ k ∧ k < a.endVpn := by
  obtain ⟨a, ha, hlk⟩ := ht
  obtain ⟨h1, h2, hfrm, hid, hemp⟩ := h3 a ha
  cases hfc : a.framed with
  | false =>
    rw [hemp hfc] at hlk
    simp [aLookup] at hlk
  | true =>
    obtain ⟨hper, hdom⟩ := hfrm hfc
    obtain ⟨hk1, hk2⟩ := hdom k p hlk
    obtain ⟨p', hlk', hMA, hmk, hnt⟩ := hper (k - a.startVpn) (by omega)
    have hkey : a.startVpn + (k - a.startVpn) = k := by omega
    rw [hkey, hlk] at hlk'
    have hpp : p = p' := Option.some.inj hlk'
    rw [hpp]
    exact ⟨hmk, hnt, a, ha, hfc, by omega, by omega⟩

/-- The MemorySet invariant only depends on the PTE view and the
allocator bookkeeping of the machine. -/
theorem msOk_machine_congr {stA stB : Machine} {root : Nat} {areas : List MapAreaM}
    (hmem : stA.mem = stB.mem) (hbm : stA.bm = stB.bm)
    (hsp : stA.startP = stB.startP) (hep : stA.endP = stB.endP)
    (h : msOk ⟨stB, root, areas⟩) : msOk ⟨stA, root, areas⟩ := by
  obtain ⟨h1, h2, h3, h4, h5⟩ := h
  refine ⟨WFpt_congr hmem hbm hsp hep h1, h2, ?_, ?_, ?_⟩
  · intro a ha
    exact okArea_congr hmem hbm hsp hep (h3 a ha)
  · intro k p k' p' ht ht' hpp
    exact h4 k p k' p' ht ht' hpp
  · intro v hv hno
    show ptTranslate stA.mem root v = none
    rw [hmem]
    exact h5 v hv hno

/-- MemorySet::push of a fresh area that satisfies the push side
condition preserves the MemorySet invariant. -/
theorem msPush_ok {s : MS} {sva eva : Nat} {fr : Bool} {pm : Nat}
    {data : Option (List Nat)} {env : CopyEnv} {s' : MS}
    (hok : msOk s) (hpok : pushOk s sva eva pm = true)
    (h : msPush s sva eva fr pm data env = some s') : msOk s' := by
  obtain ⟨hWF, hdisj, hareas, huniq, hout⟩ := hok
  have hpok' := hpok
  simp only [pushOk, Bool.and_eq_true, decide_eq_true_eq, List.all_eq_true,
    Bool.or_eq_true] at hpok'
  obtain ⟨⟨⟨hse, heva⟩, hpm⟩, hdisjall⟩ := hpok'
  have hPS : PAGE_SIZE = 4096 := rfl
  have he27 : eva / PAGE_SIZE ≤ 2 ^ 27 := by
    rw [hPS]
    omega
  have hv27 : sva / PAGE_SIZE ≤ eva / PAGE_SIZE := by
    rw [hPS]
    exact Nat.div_le_div_right hse
  simp only [msPush] at h
  cases ham : areaMap s.machine s.root (mkArea sva eva fr pm) with
  | none =>
    rw [ham] at h
    cases h
  | some pr =>
    obtain ⟨st1, a1⟩ := pr
    rw [ham] at h
    dsimp only at h
    simp only [areaMap, mkArea] at ham
    have hnone : ∀ d, d < eva / PAGE_SIZE - sva / PAGE_SIZE →
        ptTranslate s.machine.mem s.root (sva / PAGE_SIZE + d) = none := by
      intro d hd
      refine hout _ (by omega) ?_
      intro a ha hc
      rcases hdisjall a ha with hca | hca
      · omega
      · omega
    have hmid : msOk ⟨st1, s.root, s.areas ++ [a1]⟩ := by
      cases fr with
      | true =>
        obtain ⟨hA1, hA2, hA3, hA4, hWF2, hsp2, hep2, hSafe2, hMark2, hNT2, hMA2,
          hNN2, hLK2, F, hF1, hF2x, hF3, hF4, hF5⟩ :=
          mapRange_framed_spec (eva / PAGE_SIZE - sva / PAGE_SIZE) s.machine
            ⟨sva / PAGE_SIZE, eva / PAGE_SIZE, [], true, pm⟩ (sva / PAGE_SIZE)
            hWF rfl hnone (fun d hd => rfl) (by omega) ham
        dsimp only at hA1 hA2 hA3 hA4 hF2x
        have ha1S : a1.startVpn = sva / PAGE_SIZE := hA1
        have ha1E : a1.endVpn = eva / PAGE_SIZE := hA2
        have ha1F : a1.framed = true := hA3
        have ha1P : a1.perm = pm := hA4
        have hsplit : ∀ kk pp, tracksAt ⟨st1, s.root, s.areas ++ [a1]⟩ kk pp →
            tracksAt s kk pp ∨ ∃ d, d < eva / PAGE_SIZE - sva / PAGE_SIZE ∧
              kk = sva / PAGE_SIZE + d ∧ pp = F d := by
          intro kk pp ht
          obtain ⟨a, ha, hlk⟩ := ht
          rw [List.mem_append] at ha
          rcases ha with ha | ha
          · exact Or.inl ⟨a, ha, hlk⟩
          · rw [List.mem_singleton] at ha
            subst ha
            rcases hF5 kk pp hlk with hold | ⟨d, hd, hkd, hpd⟩
            · cases hold
            · exact Or.inr ⟨d, by omega, hkd, hpd⟩
        refine ⟨hWF2, ?_, ?_, ?_, ?_⟩
        · rw [List.pairwise_append]
          refine ⟨hdisj, List.pairwise_singleton _ _, ?_⟩
          intro x hx y hy
          rw [List.mem_singleton] at hy
          subst hy
          unfold areasDisj
          rcases hdisjall x hx with hca | hca
          · omega
          · omega
        · intro a ha
          rw [List.mem_append] at ha
          rcases ha with ha | ha
          · have hax := hareas a ha
            refine okArea_mono ?_ (fun k q _ hq => hMark2 q hq) ?_ hax
            · intro vx e hvx h1 h2 hMAx
              rcases hdisjall a ha with hca | hca
              · exact hMA2 vx e hvx (by omega) hMAx
              · exact hMA2 vx e hvx (by omega) hMAx
            · intro k q _ hq hmk
              exact hNT2 q hq (markedD_safe hmk)
          · rw [List.mem_singleton] at ha
            subst ha
            refine ⟨by omega, by omega, ?_, ?_, ?_⟩
            · intro _
              refine ⟨?_, ?_⟩
              · intro d hd
                rw [ha1S, ha1E] at hd
                refine ⟨F d, ?_, ?_, (hF3 d (by omega)).1, (hF3 d (by omega)).2.1⟩
                · rw [ha1S]
                  exact hF1 d (by omega)
                · rw [ha1S, ha1P]
                  exact hF2x d (by omega)
              · intro k p hk
                rcases hF5 k p hk with hold | ⟨d, hd, hkd, hpd⟩
                · cases hold
                · rw [ha1S, ha1E]
                  omega
            · intro hfa
              rw [ha1F] at hfa
              cases hfa
            · intro hfa
              rw [ha1F] at hfa
              cases hfa
        · intro k p k' p' htk htk' hpp
          rcases hsplit k p htk with hs1 | ⟨d, hd, hkd, hpd⟩
          · rcases hsplit k' p' htk' with hs1' | ⟨d', hd', hkd', hpd'⟩
            · exact huniq k p k' p' hs1 hs1' hpp
            · have hmk := (tracksAt_elim hareas hs1).1
              have hns := (hF3 d' (by omega)).2.2
              rw [← hpd', ← hpp] at hns
              exact absurd (markedD_safe hmk) hns
          · rcases hsplit k' p' htk' with hs1' | ⟨d', hd', hkd', hpd'⟩
            · have hmk := (tracksAt_elim hareas hs1').1
              have hns := (hF3 d (by omega)).2.2
              rw [← hpd, hpp] at hns
              exact absurd (markedD_safe hmk) hns
            · have hdd : d = d' := by
                by_contra hne
                exact hF4 d d' (by omega) (by omega) hne (by rw [← hpd, ← hpd', hpp])
              rw [hkd, hkd', hdd]
        · intro v hv hno
          have hnoOld : ∀ a, a ∈ s.areas → ¬(a.startVpn ≤ v ∧ v < a.endVpn) := by
            intro a ha
            exact hno a (by rw [List.mem_append]; exact Or.inl ha)
          have hnoNew := hno a1 (by rw [List.mem_append, List.mem_singleton]
                                    exact Or.inr rfl)
          rw [ha1S, ha1E] at hnoNew
          show ptTranslate st1.mem s.root v = none
          exact hNN2 v hv (by omega) (hout v hv hnoOld)
      | false =>
        obtain ⟨hAeq, hWF2, hsp2, hep2, hSafe2, hMark2, hNT2, hMA2, hNN2, hMap2⟩ :=
          mapRange_ident_spec (eva / PAGE_SIZE - sva / PAGE_SIZE) s.machine
            ⟨sva / PAGE_SIZE, eva / PAGE_SIZE, [], false, pm⟩ (sva / PAGE_SIZE)
            hWF rfl hnone (by omega) ham
        have ha1S : a1.startVpn = sva / PAGE_SIZE := by rw [hAeq]
        have ha1E : a1.endVpn = eva / PAGE_SIZE := by rw [hAeq]
        have ha1F : a1.framed = false := by rw [hAeq]
        have ha1P : a1.perm = pm := by rw [hAeq]
        have ha1FR : a1.frames = [] := by rw [hAeq]
        have hsplit : ∀ kk pp, tracksAt ⟨st1, s.root, s.areas ++ [a1]⟩ kk pp →
            tracksAt s kk pp := by
          intro kk pp ht
          obtain ⟨a, ha, hlk⟩ := ht
          rw [List.mem_append] at ha
          rcases ha with ha | ha
          · exact ⟨a, ha, hlk⟩
          · rw [List.mem_singleton] at ha
            subst ha
            rw [ha1FR] at hlk
            simp [aLookup] at hlk
        refine ⟨hWF2, ?_, ?_, ?_, ?_⟩
        · rw [List.pairwise_append]
          refine ⟨hdisj, List.pairwise_singleton _ _, ?_⟩
          intro x hx y hy
          rw [List.mem_singleton] at hy
          subst hy
          unfold areasDisj
          rcases hdisjall x hx with hca | hca
          · omega
          · omega
        · intro a ha
          rw [List.mem_append] at ha
          rcases ha with ha | ha
          · have hax := hareas a ha
            refine okArea_mono ?_ (fun k q _ hq => hMark2 q hq) ?_ hax
            · intro vx e hvx h1 h2 hMAx
              rcases hdisjall a ha with hca | hca
              · exact hMA2 vx e hvx (by omega) hMAx
              · exact hMA2 vx e hvx (by omega) hMAx
            · intro k q _ hq hmk
              exact hNT2 q hq (markedD_safe hmk)
          · rw [List.mem_singleton] at ha
            subst ha
            refine ⟨by omega, by omega, ?_, ?_, fun _ => ha1FR⟩
            · intro hfa
              rw [ha1F] at hfa
              cases hfa
            · intro _ d hd
              rw [ha1S, ha1E] at hd
              rw [ha1S, ha1P]
              exact hMap2 d (by omega)
        · intro k p k' p' htk htk' hpp
          exact huniq k p k' p' (hsplit k p htk) (hsplit k' p' htk') hpp
        · intro v hv hno
          have hnoOld : ∀ a, a ∈ s.areas → ¬(a.startVpn ≤ v ∧ v < a.endVpn) := by
            intro a ha
            exact hno a (by rw [List.mem_append]; exact Or.inl ha)
          have hnoNew := hno a1 (by rw [List.mem_append, List.mem_singleton]
                                    exact Or.inr rfl)
          rw [ha1S, ha1E] at hnoNew
          show ptTranslate st1.mem s.root v = none
          exact hNN2 v hv (by omega) (hout v hv hnoOld)
    cases data with
    | none =>
      dsimp only at h
      rw [← Option.some.inj h]
      exact hmid
    | some dta =>
      dsimp only at h
      cases hcd : copyData st1 s.root a1 dta env with
      | none =>
        rw [hcd] at h
        cases h
      | some st2 =>
        rw [hcd] at h
        dsimp only at h
        rw [← Option.some.inj h]
        obtain ⟨e1, e2, e3, e4⟩ := copyData_fields hcd
        exact msOk_machine_congr e1 e2 e3 e4 hmid

/-- An element remaining after eraseIdx is pairwise-related to the
erased element. -/
theorem pairwise_eraseIdx_rel {α : Type} {R : α → α → Prop}
    (hsymm : ∀ x y, R x y → R y x) :
    ∀ (l : List α), l.Pairwise R → ∀ (i : Nat) (hi : i < l.length) (a : α),
      a ∈ l.eraseIdx i → R a (l.get ⟨i, hi⟩) := by
  intro l
  induction l with
  | nil =>
    intro hp i hi a ha
    cases hi
  | cons x tl ih =>
    intro hp i hi a ha
    rw [List.pairwise_cons] at hp
    cases i with
    | zero =>
      simp only [List.eraseIdx] at ha
      exact hsymm _ _ (hp.1 a ha)
    | succ i =>
      simp only [List.eraseIdx] at ha
      rw [List.mem_cons] at ha
      rcases ha with ha | ha
      · rw [ha]
        have hgm : tl.get ⟨i, by simpa using hi⟩ ∈ tl := List.get_mem tl i _
        exact hp.1 _ hgm
      · exact ih hp.2 i (by simpa using hi) a ha

/-- Every member of a list either survives eraseIdx or equals the
erased element. -/
theorem mem_eraseIdx_or_eq {α : Type} :
    ∀ (l : List α) (i : Nat) (hi : i < l.length) (a : α),
      a ∈ l → a ∈ l.eraseIdx i ∨ a = l.get ⟨i, hi⟩ := by
  intro l
  induction l with
  | nil =>
    intro i hi a ha
    cases hi
  | cons x tl ih =>
    intro i hi a ha
    rw [List.mem_cons] at ha
    cases i with
    | zero =>
      simp only [List.eraseIdx]
      rcases ha with ha | ha
      · exact Or.inr ha
      · exact Or.inl ha
    | succ i =>
      simp only [List.eraseIdx]
      rcases ha with ha | ha
      · rw [ha]
        exact Or.inl (List.mem_cons_self _ _)
      · rcases ih i (by simpa using hi) a ha with hx | hx
        · exact Or.inl (List.mem_cons_of_mem _ hx)
        · exact Or.inr hx

/-- MemorySet::remove_area preserves the MemorySet invariant: the
removed area's pages stop translating, its frames are released, and
every other area is untouched. -/
theorem msRemoveArea_ok {s : MS} {i : Nat} {s' : MS}
    (hok : msOk s) (h : msRemoveArea s i = some s') : msOk s' := by
  obtain ⟨hWF, hdisj, hareas, huniq, hout⟩ := hok
  unfold msRemoveArea at h
  by_cases hi : i < s.areas.length
  · rw [dif_pos hi] at h
    have ha_mem : s.areas.get ⟨i, hi⟩ ∈ s.areas := List.get_mem _ _ _
    obtain ⟨hend, hperm, hfrm, hid, hemp⟩ := hareas _ ha_mem
    have hdisjE : ∀ a, a ∈ s.areas.eraseIdx i → areasDisj a (s.areas.get ⟨i, hi⟩) :=
      fun a ha => pairwise_eraseIdx_rel (fun x y hxy => Or.symm hxy) s.areas hdisj i hi a ha
    have hsubE : ∀ a, a ∈ s.areas.eraseIdx i → a ∈ s.areas :=
      fun a ha => (List.eraseIdx_sublist s.areas i).subset ha
    have htrk_range : ∀ a, a ∈ s.areas → ∀ k q, aLookup a.frames k = some q →
        a.startVpn ≤ k ∧ k < a.endVpn ∧ a.framed = true := by
      intro a ha k q hlkq
      obtain ⟨hb1, hb2, hb3, hb4, hb5⟩ := hareas a ha
      cases hafc : a.framed with
      | false =>
        rw [hb5 hafc] at hlkq
        simp [aLookup] at hlkq
      | true =>
        obtain ⟨hk1, hk2⟩ := (hb3 hafc).2 k q hlkq
        exact ⟨hk1, hk2, rfl⟩
    simp only [areaUnmap] at h
    cases hfc : (s.areas.get ⟨i, hi⟩).framed with
    | true =>
      obtain ⟨hper, hdom⟩ := hfrm hfc
      have hlkF : ∀ d, d < (s.areas.get ⟨i, hi⟩).endVpn - (s.areas.get ⟨i, hi⟩).startVpn →
          aLookup (s.areas.get ⟨i, hi⟩).frames ((s.areas.get ⟨i, hi⟩).startVpn + d) =
            some ((aLookup (s.areas.get ⟨i, hi⟩).frames
              ((s.areas.get ⟨i, hi⟩).startVpn + d)).getD 0) := by
        intro d hd
        obtain ⟨p, hlk, _, _, _⟩ := hper d hd
        rw [hlk]
        rfl
      have hMAF : ∀ d, d < (s.areas.get ⟨i, hi⟩).endVpn - (s.areas.get ⟨i, hi⟩).startVpn →
          MappedAt s.machine.mem s.root ((s.areas.get ⟨i, hi⟩).startVpn + d)
            (pteNew ((aLookup (s.areas.get ⟨i, hi⟩).frames
              ((s.areas.get ⟨i, hi⟩).startVpn + d)).getD 0)
              ((s.areas.get ⟨i, hi⟩).perm ||| 1)) := by
        intro d hd
        obtain ⟨p, hlk, hMA, _, _⟩ := hper d hd
        rw [hlk]
        exact hMA
      have hNTF : ∀ d, d < (s.areas.get ⟨i, hi⟩).endVpn - (s.areas.get ⟨i, hi⟩).startVpn →
          notTable s.machine s.root ((aLookup (s.areas.get ⟨i, hi⟩).frames
            ((s.areas.get ⟨i, hi⟩).startVpn + d)).getD 0) := by
        intro d hd
        obtain ⟨p, hlk, _, _, hnt⟩ := hper d hd
        rw [hlk]
        exact hnt
      obtain ⟨st2, a2, hrun, hWF2, hsp2, hep2, hS2, hM2, hNT2, hMA2, hNN2, hgone⟩ :=
        unmapRange_framed_spec
          ((s.areas.get ⟨i, hi⟩).endVpn - (s.areas.get ⟨i, hi⟩).startVpn)
          s.machine (s.areas.get ⟨i, hi⟩) (s.areas.get ⟨i, hi⟩).startVpn
          (fun d => (aLookup (s.areas.get ⟨i, hi⟩).frames
            ((s.areas.get ⟨i, hi⟩).startVpn + d)).getD 0)
          hWF hfc hlkF hMAF hNTF (by omega)
      rw [hrun] at h
      dsimp only at h
      rw [← Option.some.inj h]
      have hFneq : ∀ a, a ∈ s.areas.eraseIdx i → ∀ k q, aLookup a.frames k = some q →
          ∀ d, d < (s.areas.get ⟨i, hi⟩).endVpn - (s.areas.get ⟨i, hi⟩).startVpn →
          q ≠ (aLookup (s.areas.get ⟨i, hi⟩).frames
            ((s.areas.get ⟨i, hi⟩).startVpn + d)).getD 0 := by
        intro a haE k q hlkq d hd heq
        have hain := hsubE a haE
        obtain ⟨hk1, hk2, hafr⟩ := htrk_range a hain k q hlkq
        have htq : tracksAt s k q := ⟨a, hain, hlkq⟩
        have htF : tracksAt s ((s.areas.get ⟨i, hi⟩).startVpn + d)
            ((aLookup (s.areas.get ⟨i, hi⟩).frames
              ((s.areas.get ⟨i, hi⟩).startVpn + d)).getD 0) :=
          ⟨s.areas.get ⟨i, hi⟩, ha_mem, hlkF d hd⟩
        have hkk := huniq _ _ _ _ htq htF heq
        have hda := hdisjE a haE
        unfold areasDisj at hda
        omega
      refine ⟨hWF2, ?_, ?_, ?_, ?_⟩
      · exact List.Pairwise.sublist (List.eraseIdx_sublist s.areas i) hdisj
      · intro a haE
        refine okArea_mono ?_ ?_ ?_ (hareas a (hsubE a haE))
        · intro vx e hvx h1 h2 hMAx
          have hda := hdisjE a haE
          unfold areasDisj at hda
          exact hMA2 vx e hvx (by omega) hMAx
        · intro k q hlkq hmk
          exact hM2 q hmk (fun d hd => hFneq a haE k q hlkq d hd)
        · intro k q hlkq hnt hmk
          exact hNT2 q hnt
      · intro k p k' p' htk htk' hpp
        obtain ⟨a, haE, hlk⟩ := htk
        obtain ⟨a', haE', hlk'⟩ := htk'
        exact huniq k p k' p' ⟨a, hsubE a haE, hlk⟩ ⟨a', hsubE a' haE', hlk'⟩ hpp
      · intro v hv hno
        show ptTranslate st2.mem s.root v = none
        by_cases hvr : (s.areas.get ⟨i, hi⟩).startVpn ≤ v ∧
            v < (s.areas.get ⟨i, hi⟩).endVpn
        · have hx := hgone (v - (s.areas.get ⟨i, hi⟩).startVpn) (by omega)
          have hnum : (s.areas.get ⟨i, hi⟩).startVpn +
              (v - (s.areas.get ⟨i, hi⟩).startVpn) = v := by omega
          rw [hnum] at hx
          exact hx
        · refine hNN2 v hv (by omega) (hout v hv ?_)
          intro a hax
          rcases mem_eraseIdx_or_eq s.areas i hi a hax with hxE | hxeq
          · exact hno a hxE
          · rw [hxeq]
            exact hvr
    | false =>
      have hMAs := hid hfc
      obtain ⟨st2, a2, hrun, hWF2, hsp2, hep2, hbm2, hNT2, hMA2, hNN2, hgone⟩ :=
        unmapRange_ident_spec
          ((s.areas.get ⟨i, hi⟩).endVpn - (s.areas.get ⟨i, hi⟩).startVpn)
          s.machine (s.areas.get ⟨i, hi⟩) (s.areas.get ⟨i, hi⟩).startVpn
          hWF hfc hMAs (by omega)
      rw [hrun] at h
      dsimp only at h
      rw [← Option.some.inj h]
      refine ⟨hWF2, ?_, ?_, ?_, ?_⟩
      · exact List.Pairwise.sublist (List.eraseIdx_sublist s.areas i) hdisj
      · intro a haE
        refine okArea_mono ?_ ?_ ?_ (hareas a (hsubE a haE))
        · intro vx e hvx h1 h2 hMAx
          have hda := hdisjE a haE
          unfold areasDisj at hda
          exact hMA2 vx e hvx (by omega) hMAx
        · intro k q hlkq hmk
          exact marked_congr hbm2 hsp2 hep2 hmk
        · intro k q hlkq hnt hmk
          exact hNT2 q hnt
      · intro k p k' p' htk htk' hpp
        obtain ⟨a, haE, hlk⟩ := htk
        obtain ⟨a', haE', hlk'⟩ := htk'
        exact huniq k p k' p' ⟨a, hsubE a haE, hlk⟩ ⟨a', hsubE a' haE', hlk'⟩ hpp
      · intro v hv hno
        show ptTranslate st2.mem s.root v = none
        by_cases hvr : (s.areas.get ⟨i, hi⟩).startVpn ≤ v ∧
            v < (s.areas.get ⟨i, hi⟩).endVpn
        · have hx := hgone (v - (s.areas.get ⟨i, hi⟩).startVpn) (by omega)
          have hnum : (s.areas.get ⟨i, hi⟩).startVpn +
              (v - (s.areas.get ⟨i, hi⟩).startVpn) = v := by omega
          rw [hnum] at hx
          exact hx
        · refine hNN2 v hv (by omega) (hout v hv ?_)
          intro a hax
          rcases mem_eraseIdx_or_eq s.areas i hi a hax with hxE | hxeq
          · exact hno a hxE
          · rw [hxeq]
            exact hvr
  · rw [dif_neg hi] at h
    rw [← Option.some.inj h]
    exact ⟨hWF, hdisj, hareas, huniq, hout⟩

/-- A sequence of admissible MemorySet operations preserves the
invariant across every successful run. -/
theorem execOps_ok {env : CopyEnv} :
    ∀ (ops : List MOp) (s s' : MS),
      msOk s → admissible env s ops = true → execOps env s ops = some s' →
      msOk s' := by
  intro ops
  induction ops with
  | nil =>
    intro s s' hok hadm hrun
    simp only [execOps] at hrun
    rw [← Option.some.inj hrun]
    exact hok
  | cons op rest ih =>
    intro s s' hok hadm hrun
    simp only [execOps] at hrun
    simp only [admissible, Bool.and_eq_true] at hadm
    cases hex : execOp env s op with
    | none =>
      rw [hex] at hrun
      cases hrun
    | some s1 =>
      rw [hex] at hrun
      dsimp only at hrun
      have hadm2 : admissible env s1 rest = true := by
        have hx := hadm.2
        rw [hex] at hx
        exact hx
      have hok1 : msOk s1 := by
        cases op with
        | push sva eva fr pm dta =>
          have hpok : pushOk s sva eva pm = true := hadm.1
          exact msPush_ok hok hpok hex
        | remove j =>
          exact msRemoveArea_ok hok hex
      exact ih s1 s' hok1 hadm2 hrun

/-- Claim C1, corrected: starting from an empty, well-formed address
space, after every sequence of push and remove_area operations whose
pushes carry ordered, SV39-sized, MapPermission-sized ranges disjoint
from the areas present at that moment, every Framed area's every page
translates to exactly the frame recorded for it in the area's frame
map, with flags equal to the area's permissions plus V.  (The original
claim, quantified over arbitrary operation sequences, is false:
overlapping pushes break it, see the counterexample.) -/
theorem c1_framed_areas_translate {st0 : Machine} {root : Nat} {env : CopyEnv}
    {ops : List MOp} {s' : MS}
    (hmem0 : ∀ t i, st0.mem t i = 0)
    (hep : st0.endP ≤ 2 ^ 44) (hsr : Safe st0 root)
    (hadm : admissible env (msNewBare st0 root) ops = true)
    (hrun : execOps env (msNewBare st0 root) ops = some s') :
    framedInv s' := by
  have hok0 : msOk (msNewBare st0 root) := by
    refine ⟨WFpt_empty st0 root hmem0 hep hsr, List.Pairwise.nil, ?_, ?_, ?_⟩
    · intro a ha
      cases ha
    · intro k p k' p' ht ht' hpp
      obtain ⟨a, ha, _⟩ := ht
      cases ha
    · intro v hv hno
      refine ptTranslate_none_of_l0 ?_
      show pteValid (st0.mem root (idx0 v)) = false
      rw [hmem0]
      exact pteValid_zero
  exact msOk_framedInv (execOps_ok ops _ s' hok0 hadm hrun)

/-- An Option known to hold a value equals some of its getD. -/
theorem isSome_eq_some_getD {α : Type} (o : Option α) (d : α) (h : o.isSome = true) :
    o = some (o.getD d) := by
  cases o with
  | none => cases h
  | some x => rfl

/-- Concrete witness for the corrected claim C1: one admissible push of
a single Framed page on the empty witness machine. -/
theorem c1_framed_areas_translate_witness :
    framedInv ((execOps envW (msNewBare mW 0) opsW).getD (msNewBare mW 0)) :=
  c1_framed_areas_translate (fun t i => rfl) (by decide) (Or.inl (by decide))
    (by decide) (isSome_eq_some_getD _ _ (by decide))

/-- Counterexample to the original claim C1: two overlapping pushes of
the same page succeed, but afterwards the first area's recorded frame no
longer matches the page-table translation, so the claimed invariant
fails for an unrestricted sequence of push operations. -/
theorem c1_overlap_counterexample :
    (execOps envW (msNewBare mW 0) opsWbad).isSome = true ∧
    ¬ framedInv ((execOps envW (msNewBare mW 0) opsWbad).getD (msNewBare mW 0)) := by
  constructor
  · decide
  · decide

/-- The empty memory set over a zeroed machine satisfies the invariant. -/
theorem msOk_newBare {st : Machine} {root : Nat}
    (hmem0 : ∀ t i, st.mem t i = 0)
    (hep : st.endP ≤ 2 ^ 44) (hsr : Safe st root) : msOk (msNewBare st root) := by
  refine ⟨WFpt_empty st root hmem0 hep hsr, List.Pairwise.nil, ?_, ?_, ?_⟩
  · intro a ha
    cases ha
  · intro k p k' p' ht ht' hpp
    obtain ⟨a, ha, _⟩ := ht
    cases ha
  · intro v hv hno
    refine ptTranslate_none_of_l0 ?_
    show pteValid (st.mem root (idx0 v)) = false
    rw [hmem0]
    exact pteValid_zero

/-- The sys_munmap area search, when it reports index i, found an area
whose byte range matches [sva, eva) exactly. -/
theorem munmapFind_found :
    ∀ (l : List MapAreaM) (sva eva j i : Nat),
      munmapFind l sva eva j = some (some i) →
      j ≤ i ∧ ∃ h : i - j < l.length,
        (l.get ⟨i - j, h⟩).startVpn * PAGE_SIZE = sva ∧
        (l.get ⟨i - j, h⟩).endVpn * PAGE_SIZE = eva := by
  intro l
  induction l with
  | nil =>
    intro sva eva j i h
    simp [munmapFind] at h
  | cons a rest ih =>
    intro sva eva j i h
    unfold munmapFind at h
    by_cases h1 : sva < a.endVpn * PAGE_SIZE ∧ eva > a.startVpn * PAGE_SIZE
    · rw [if_pos h1] at h
      by_cases h2 : sva = a.startVpn * PAGE_SIZE ∧ eva = a.endVpn * PAGE_SIZE
      · rw [if_pos h2] at h
        have hji : j = i := Option.some.inj (Option.some.inj h)
        subst hji
        have hz : j - j = 0 := by omega
        refine ⟨le_refl j, ?_⟩
        rw [hz]
        exact ⟨by simp, h2.1.symm, h2.2.symm⟩
      · rw [if_neg h2] at h
        cases h
    · rw [if_neg h1] at h
      obtain ⟨hle, hlt, hf1, hf2⟩ := ih sva eva (j + 1) i h
      refine ⟨by omega, ?_⟩
      have hd : i - j = (i - (j + 1)) + 1 := by omega
      rw [hd]
      refine ⟨by simp; omega, ?_, ?_⟩
      · exact hf1
      · exact hf2

/-- Under the invariant, MemorySet::remove_area of a valid index always
succeeds and removes exactly that area. -/
theorem msRemoveArea_succeeds {s : MS} (hok : msOk s) {i : Nat}
    (hi : i < s.areas.length) :
    ∃ s', msRemoveArea s i = some s' ∧ s'.areas = s.areas.eraseIdx i := by
  obtain ⟨hWF, hdisj, hareas, huniq, hout⟩ := hok
  have ha_mem : s.areas.get ⟨i, hi⟩ ∈ s.areas := List.get_mem _ _ _
  obtain ⟨hend, hperm, hfrm, hid, hemp⟩ := hareas _ ha_mem
  unfold msRemoveArea
  rw [dif_pos hi]
  simp only [areaUnmap]
  cases hfc : (s.areas.get ⟨i, hi⟩).framed with
  | true =>
    obtain ⟨hper, hdom⟩ := hfrm hfc
    have hlkF : ∀ d, d < (s.areas.get ⟨i, hi⟩).endVpn - (s.areas.get ⟨i, hi⟩).startVpn →
        aLookup (s.areas.get ⟨i, hi⟩).frames ((s.areas.get ⟨i, hi⟩).startVpn + d) =
          some ((aLookup (s.areas.get ⟨i, hi⟩).frames
            ((s.areas.get ⟨i, hi⟩).startVpn + d)).getD 0) := by
      intro d hd
      obtain ⟨p, hlk, _, _, _⟩ := hper d hd
      rw [hlk]
      rfl
    have hMAF : ∀ d, d < (s.areas.get ⟨i, hi⟩).endVpn - (s.areas.get ⟨i, hi⟩).startVpn →
        MappedAt s.machine.mem s.root ((s.areas.get ⟨i, hi⟩).startVpn + d)
          (pteNew ((aLookup (s.areas.get ⟨i, hi⟩).frames
            ((s.areas.get ⟨i, hi⟩).startVpn + d)).getD 0)
            ((s.areas.get ⟨i, hi⟩).perm ||| 1)) := by
      intro d hd
      obtain ⟨p, hlk, hMA, _, _⟩ := hper d hd
      rw [hlk]
      exact hMA
    have hNTF : ∀ d, d < (s.areas.get ⟨i, hi⟩).endVpn - (s.areas.get ⟨i, hi⟩).startVpn →
        notTable s.machine s.root ((aLookup (s.areas.get ⟨i, hi⟩).frames
          ((s.areas.get ⟨i, hi⟩).startVpn + d)).getD 0) := by
      intro d hd
      obtain ⟨p, hlk, _, _, hnt⟩ := hper d hd
      rw [hlk]
      exact hnt
    obtain ⟨st2, a2, hrun, _⟩ :=
      unmapRange_framed_spec
        ((s.areas.get ⟨i, hi⟩).endVpn - (s.areas.get ⟨i, hi⟩).startVpn)
        s.machine (s.areas.get ⟨i, hi⟩) (s.areas.get ⟨i, hi⟩).startVpn
        (fun d => (aLookup (s.areas.get ⟨i, hi⟩).frames
          ((s.areas.get ⟨i, hi⟩).startVpn + d)).getD 0)
        hWF hfc hlkF hMAF hNTF (by omega)
    rw [hrun]
    exact ⟨_, rfl, rfl⟩
  | false =>
    obtain ⟨st2, a2, hrun, _⟩ :=
      unmapRange_ident_spec
        ((s.areas.get ⟨i, hi⟩).endVpn - (s.areas.get ⟨i, hi⟩).startVpn)
        s.machine (s.areas.get ⟨i, hi⟩) (s.areas.get ⟨i, hi⟩).startVpn
        hWF hfc (hid hfc) (by omega)
    rw [hrun]
    exact ⟨_, rfl, rfl⟩

/-- Claim C7, corrected: sys_munmap refuses unaligned addresses and
zero lengths, and otherwise acts on the FIRST area in list order that
overlaps the aligned range: if none overlaps it returns -1 unchanged,
if the first overlapping area is only partially covered it returns -1
unchanged (even when a later area matches the range exactly, see the
counterexample), and if the first overlapping area matches exactly it
is removed, its frames are released, and 0 is returned. -/
theorem c7_munmap_first_overlap {s : MS} (hok : msOk s) (addr len : Nat) :
    (addr % PAGE_SIZE ≠ 0 → sysMunmap s addr len = some (-1, s)) ∧
    (len = 0 → sysMunmap s addr len = some (-1, s)) ∧
    (addr % PAGE_SIZE = 0 → len ≠ 0 →
      (munmapFind s.areas addr
          ((addr + (len + PAGE_SIZE - 1) % 2 ^ 64 / PAGE_SIZE * PAGE_SIZE) % 2 ^ 64) 0 =
          none → sysMunmap s addr len = some (-1, s)) ∧
      (munmapFind s.areas addr
          ((addr + (len + PAGE_SIZE - 1) % 2 ^ 64 / PAGE_SIZE * PAGE_SIZE) % 2 ^ 64) 0 =
          some none → sysMunmap s addr len = some (-1, s)) ∧
      (∀ i, munmapFind s.areas addr
          ((addr + (len + PAGE_SIZE - 1) % 2 ^ 64 / PAGE_SIZE * PAGE_SIZE) % 2 ^ 64) 0 =
          some (some i) →
        ∃ h : i < s.areas.length,
          (s.areas.get ⟨i, h⟩).startVpn * PAGE_SIZE = addr ∧
          (s.areas.get ⟨i, h⟩).endVpn * PAGE_SIZE =
            (addr + (len + PAGE_SIZE - 1) % 2 ^ 64 / PAGE_SIZE * PAGE_SIZE) % 2 ^ 64 ∧
          ∃ s', sysMunmap s addr len = some (0, s') ∧ msOk s' ∧
            s'.areas = s.areas.eraseIdx i)) := by
  refine ⟨?_, ?_, ?_⟩
  · intro h1
    simp only [sysMunmap]
    rw [if_pos h1]
  · intro h2
    simp only [sysMunmap]
    by_cases h1 : addr % PAGE_SIZE ≠ 0
    · rw [if_pos h1]
    · rw [if_neg h1, if_pos h2]
  · intro h1 h2
    refine ⟨?_, ?_, ?_⟩
    · intro hfind
      simp only [sysMunmap]
      rw [if_neg (by omega), if_neg h2, hfind]
    · intro hfind
      simp only [sysMunmap]
      rw [if_neg (by omega), if_neg h2, hfind]
    · intro i hfind
      obtain ⟨hle, hlt, hf1, hf2⟩ := munmapFind_found s.areas _ _ 0 i hfind
      have hi : i < s.areas.length := hlt
      obtain ⟨s', hrem, hareas'⟩ := msRemoveArea_succeeds ⟨hok.1, hok.2⟩ hi
      refine ⟨hi, hf1, hf2, s', ?_, msRemoveArea_ok ⟨hok.1, hok.2⟩ hrem, hareas'⟩
      simp only [sysMunmap]
      rw [if_neg (by omega), if_neg h2, hfind]
      dsimp only
      rw [hrem]

/-- Concrete witness for the corrected claim C7: the invariant state
after one admissible push, at an aligned address and nonzero length. -/
theorem c7_munmap_first_overlap_witness :
    (4096 % PAGE_SIZE ≠ 0 →
      sysMunmap ((execOps envW (msNewBare mW 0) opsW).getD (msNewBare mW 0)) 4096 4096 =
        some (-1, (execOps envW (msNewBare mW 0) opsW).getD (msNewBare mW 0))) ∧
    (4096 = 0 →
      sysMunmap ((execOps envW (msNewBare mW 0) opsW).getD (msNewBare mW 0)) 4096 4096 =
        some (-1, (execOps envW (msNewBare mW 0) opsW).getD (msNewBare mW 0))) ∧
    (4096 % PAGE_SIZE = 0 → 4096 ≠ 0 →
      (munmapFind ((execOps envW (msNewBare mW 0) opsW).getD (msNewBare mW 0)).areas 4096
          ((4096 + (4096 + PAGE_SIZE - 1) % 2 ^ 64 / PAGE_SIZE * PAGE_SIZE) % 2 ^ 64) 0 =
          none →
        sysMunmap ((execOps envW (msNewBare mW 0) opsW).getD (msNewBare mW 0)) 4096 4096 =
          some (-1, (execOps envW (msNewBare mW 0) opsW).getD (msNewBare mW 0))) ∧
      (munmapFind ((execOps envW (msNewBare mW 0) opsW).getD (msNewBare mW 0)).areas 4096
          ((4096 + (4096 + PAGE_SIZE - 1) % 2 ^ 64 / PAGE_SIZE * PAGE_SIZE) % 2 ^ 64) 0 =
          some none →
        sysMunmap ((execOps envW (msNewBare mW 0) opsW).getD (msNewBare mW 0)) 4096 4096 =
          some (-1, (execOps envW (msNewBare mW 0) opsW).getD (msNewBare mW 0))) ∧
      (∀ i, munmapFind ((execOps envW (msNewBare mW 0) opsW).getD (msNewBare mW 0)).areas
          4096 ((4096 + (4096 + PAGE_SIZE - 1) % 2 ^ 64 / PAGE_SIZE * PAGE_SIZE) % 2 ^ 64)
          0 = some (some i) →
        ∃ h : i < ((execOps envW (msNewBare mW 0) opsW).getD (msNewBare mW 0)).areas.length,
          (((execOps envW (msNewBare mW 0) opsW).getD
            (msNewBare mW 0)).areas.get ⟨i, h⟩).startVpn * PAGE_SIZE = 4096 ∧
          (((execOps envW (msNewBare mW 0) opsW).getD
            (msNewBare mW 0)).areas.get ⟨i, h⟩).endVpn * PAGE_SIZE =
            (4096 + (4096 + PAGE_SIZE - 1) % 2 ^ 64 / PAGE_SIZE * PAGE_SIZE) % 2 ^ 64 ∧
          ∃ s', sysMunmap ((execOps envW (msNewBare mW 0) opsW).getD (msNewBare mW 0))
              4096 4096 = some (0, s') ∧ msOk s' ∧
            s'.areas = ((execOps envW (msNewBare mW 0) opsW).getD
              (msNewBare mW 0)).areas.eraseIdx i)) :=
  c7_munmap_first_overlap
    (execOps_ok opsW _ _ (msOk_newBare (fun t i => rfl) (by decide) (Or.inl (by decide)))
      (by decide) (isSome_eq_some_getD _ _ (by decide)))
    4096 4096

/-- Counterexample to the original claim C7: after two overlapping
anonymous mmaps, munmap of a range that exactly matches the second area
returns -1 because the first overlapping area in list order is only
partially covered; the exactly matching region is not removed. -/
theorem c7_partial_shadows_exact_counterexample :
    c7s2.areas.map (fun a => (a.startVpn, a.endVpn)) =
      [(0x20000, 0x20002), (0x20001, 0x20002)] ∧
    (sysMunmap c7s2 0x20001000 4096).map Prod.fst = some (-1) := by
  constructor
  · decide
  · decide

/-- Claim C9: sys_mmap with length zero always returns -1 and leaves
the address space unchanged, whatever the other arguments, including
flag sets containing MAP_ANONYMOUS. -/
theorem c9_mmap_zero_length (s : MS) (addr prot flags fd offset : Nat) (env : CopyEnv) :
    sysMmap s addr 0 prot flags fd offset env = some (-1, s) := by
  unfold sysMmap
  by_cases h : flags &&& MAP_ANONYMOUS = 0
  · rw [if_pos h]
  · rw [if_neg h, if_pos rfl]

/-- A root page holding only zero entries is a well-formed (empty)
tree, whatever the rest of memory holds. -/
theorem WFpt_zero_root {st : Machine} {root : Nat}
    (hz : ∀ i, st.mem root i = 0)
    (hep : st.endP ≤ 2 ^ 44) (hsr : Safe st root) : WFpt st root := by
  have hbr : ∀ i, pteBranch (st.mem root i) = false := by
    intro i
    rw [hz]
    decide
  refine ⟨hep, hsr, ?_, ?_, ?_, ?_, ?_⟩
  · intro i hi hb
    rw [hbr] at hb
    cases hb
  · intro i hi i' hi' hb
    rw [hbr] at hb
    cases hb
  · intro i hi j hj hb
    rw [hbr] at hb
    cases hb
  · intro i hi j hj i' hi' hb
    rw [hbr] at hb
    cases hb
  · intro i hi j hj i' hi' j' hj' hb
    rw [hbr] at hb
    cases hb

/-- No frame is a table of a tree whose root page is all zero. -/
theorem notTable_of_zero_root {st : Machine} {root p : Nat}
    (hz : ∀ i, st.mem root i = 0) (hpr : p ≠ root) : notTable st root p := by
  have hbr : ∀ i, pteBranch (st.mem root i) = false := by
    intro i
    rw [hz]
    decide
  refine ⟨hpr, ?_, ?_⟩
  · intro i hi hb
    rw [hbr] at hb
    cases hb
  · intro i hi j hj hb
    rw [hbr] at hb
    cases hb

/-- A successful PageTable::map leaves every Safe non-table page of
memory unchanged. -/
theorem ptMap_read_other {st : Machine} {root v p f : Nat} {st2 : Machine} {q : Nat}
    (hWF : WFpt st root) (h : ptMap st root v p f = some st2)
    (hnt : notTable st root q) (hsq : Safe st q) :
    ∀ i, st2.mem q i = st.mem q i := by
  obtain ⟨hep0, hsr, hw2, hw3, hw4a, hw4b, hw5⟩ := hWF
  obtain ⟨hq1, hq2, hq3⟩ := hnt
  obtain ⟨t1, t2, M2, hmem, hv2, hcase⟩ := ptMap_elim hsr h
  intro i
  rcases hcase with ⟨hbr0, ht1, hbr1, ht2, hMeq, _⟩ |
    ⟨hbr0, ht1, hnv1, stB, hallocB, hM2, _⟩ |
    ⟨hnv0, stA, stB, hallocA, hallocB, hM2, _⟩
  · have hbr1r : pteBranch (st.mem (ptePpn (st.mem root (idx0 v))) (idx1 v)) = true := by
      have hx := hbr1
      rw [ht1] at hx
      exact hx
    have ht2A : t2 = ptePpn (st.mem (ptePpn (st.mem root (idx0 v))) (idx1 v)) := by
      rw [ht2, ht1]
    have ht2q : t2 ≠ q := by
      rw [ht2A]
      exact hq3 (idx0 v) (idx0_lt v) (idx1 v) (idx1_lt v) hbr0 hbr1r
    rw [hmem, hMeq]
    exact upd2_ne_page _ _ _ _ _ _ (Ne.symm ht2q)
  · have ht1q : t1 ≠ q := by
      rw [ht1]
      exact hq2 (idx0 v) (idx0_lt v) hbr0
    have hqt2 : q ≠ t2 := frameAlloc_fresh hallocB hsq
    rw [hmem, hM2, upd2_ne_page _ _ _ _ _ _ hqt2,
      upd2_ne_page _ _ _ _ _ _ (Ne.symm ht1q), zeroPage_ne _ _ _ _ hqt2]
  · have hqt1 : q ≠ t1 := frameAlloc_fresh hallocA hsq
    have hqt2 : q ≠ t2 :=
      frameAlloc_fresh hallocB
        ((safe_memUpd _ _ _).mpr (frameAlloc_safe_mono hallocA hsq))
    rw [hmem, hM2, upd2_ne_page _ _ _ _ _ _ hqt2, upd2_ne_page _ _ _ _ _ _ hqt1,
      zeroPage_ne _ _ _ _ hqt2, upd2_ne_page _ _ _ _ _ _ hq1,
      zeroPage_ne _ _ _ _ hqt1]

/-- Claim C2, corrected: each address space built by from_elf (and by
new_kernel) maps the TRAMPOLINE page to its own freshly allocated frame
carrying a fresh copy of the trampoline code, with flags exactly V|R|X
(no U bit).  Two address spaces built in sequence therefore translate
the trampoline page to two distinct frames — there is no process-wide
shared trampoline frame. -/
theorem c2_trampoline_per_space {st : Machine} {root1 root2 : Nat} {src1 src2 : Nat → Nat}
    {st1 : Machine} {p1 : Nat} {st2 : Machine} {p2 : Nat}
    (hWF1 : WFpt st root1)
    (hz2 : ∀ i, st.mem root2 i = 0)
    (hs2 : Safe st root2) (hnt2 : notTable st root1 root2)
    (h1 : fromElfTramp st root1 src1 = some (st1, p1))
    (h2 : fromElfTramp st1 root2 src2 = some (st2, p2)) :
    ptTranslate st1.mem root1 (TRAMPOLINE / PAGE_SIZE) = some (p1, 11) ∧
    markedD st1 p1 ∧ ¬ Safe st p1 ∧
    ptTranslate st2.mem root2 (TRAMPOLINE / PAGE_SIZE) = some (p2, 11) ∧
    p2 ≠ p1 := by
  unfold fromElfTramp at h1
  cases hal1 : frameAlloc st with
  | none =>
    rw [hal1] at h1
    cases h1
  | some pr1 =>
    obtain ⟨pa, sta⟩ := pr1
    rw [hal1] at h1
    dsimp only at h1
    cases hmap1 : ptMap sta root1 (TRAMPOLINE / PAGE_SIZE) pa 11 with
    | none =>
      rw [hmap1] at h1
      cases h1
    | some stb =>
      rw [hmap1] at h1
      dsimp only at h1
      have hp1 := Option.some.inj h1
      have he1 := congrArg Prod.fst hp1
      have he2 := congrArg Prod.snd hp1
      dsimp only at he1 he2
      rw [he2] at hal1 hmap1 he1
      have hWFa : WFpt sta root1 := frameAlloc_WF hWF1 hal1
      have hWFb : WFpt stb root1 := ptMap_WF hWFa hmap1
      have hMAb : MappedAt stb.mem root1 (TRAMPOLINE / PAGE_SIZE) (pteNew p1 (11 ||| 1)) :=
        ptMap_mappedAt hWFa hmap1
      have hflda := ptMap_fields hWFa.2.1 hmap1
      have hmkb : markedD stb p1 := hflda.2.2.2 p1 (frameAlloc_marked_new hal1)
      have hm1 : st1.mem = stb.mem := by
        rw [← he1]
      have hmk1 : markedD st1 p1 := by
        rw [← he1]
        exact hmkb
      have hplt : p1 < 2 ^ 44 := by
        obtain ⟨ha, hb, _⟩ := frameAlloc_spec hal1
        obtain ⟨hc, _⟩ := hWF1
        omega
      have htr1 : ptTranslate st1.mem root1 (TRAMPOLINE / PAGE_SIZE) = some (p1, 11) := by
        rw [hm1]
        have hx := mappedAt_translate hMAb (pteValid_pteNew_or1 p1 11)
        rw [ptePpn_pteNew p1 _ hplt, pteFlags_pteNew] at hx
        exact hx
      -- the second address space
      have hsa2 : Safe sta root2 := frameAlloc_safe_mono hal1 hs2
      have hza : ∀ i, sta.mem root2 i = 0 := by
        intro i
        rw [frameAlloc_read hal1 hs2 i]
        exact hz2 i
      have hzb : ∀ i, stb.mem root2 i = 0 := by
        intro i
        rw [ptMap_read_other hWFa hmap1 (frameAlloc_notTable hWF1 hal1 hnt2) hsa2 i]
        exact hza i
      have hz1 : ∀ i, st1.mem root2 i = 0 := by
        intro i
        rw [hm1]
        exact hzb i
      have hs2b : Safe st1 root2 := by
        rw [← he1]
        exact hflda.2.2.1 root2 hsa2
      have hep1 : st1.endP ≤ 2 ^ 44 := by
        have hx : st1.endP = stb.endP := by rw [← he1]
        obtain ⟨hc, _⟩ := hWFb
        omega
      have hWF12 : WFpt st1 root2 := WFpt_zero_root hz1 hep1 hs2b
      unfold fromElfTramp at h2
      cases hal2 : frameAlloc st1 with
      | none =>
        rw [hal2] at h2
        cases h2
      | some pr2 =>
        obtain ⟨pc, stc⟩ := pr2
        rw [hal2] at h2
        dsimp only at h2
        cases hmap2 : ptMap stc root2 (TRAMPOLINE / PAGE_SIZE) pc 11 with
        | none =>
          rw [hmap2] at h2
          cases h2
        | some std =>
          rw [hmap2] at h2
          dsimp only at h2
          have hp2 := Option.some.inj h2
          have hf1 := congrArg Prod.fst hp2
          have hf2 := congrArg Prod.snd hp2
          dsimp only at hf1 hf2
          rw [hf2] at hal2 hmap2 hf1
          have hWFc : WFpt stc root2 := frameAlloc_WF hWF12 hal2
          have hMAd : MappedAt std.mem root2 (TRAMPOLINE / PAGE_SIZE)
              (pteNew p2 (11 ||| 1)) := ptMap_mappedAt hWFc hmap2
          have hpclt : p2 < 2 ^ 44 := by
            obtain ⟨ha, hb, _⟩ := frameAlloc_spec hal2
            omega
          have htr2 : ptTranslate st2.mem root2 (TRAMPOLINE / PAGE_SIZE) =
              some (p2, 11) := by
            have hm2 : st2.mem = std.mem := by rw [← hf1]
            rw [hm2]
            have hx := mappedAt_translate hMAd (pteValid_pteNew_or1 p2 11)
            rw [ptePpn_pteNew p2 _ hpclt, pteFlags_pteNew] at hx
            exact hx
          refine ⟨htr1, hmk1, frameAlloc_not_safe hal1, htr2, ?_⟩
          exact Ne.symm (frameAlloc_fresh hal2 (markedD_safe hmk1))

/-- Concrete witness for the corrected claim C2: two trampoline
mappings built in sequence on the witness machine. -/
theorem c2_trampoline_per_space_witness :
    ptTranslate ((fromElfTramp mW 0 srcW).getD (mW, 0)).1.mem 0
        (TRAMPOLINE / PAGE_SIZE) =
      some (((fromElfTramp mW 0 srcW).getD (mW, 0)).2, 11) ∧
    markedD ((fromElfTramp mW 0 srcW).getD (mW, 0)).1
      ((fromElfTramp mW 0 srcW).getD (mW, 0)).2 ∧
    ¬ Safe mW ((fromElfTramp mW 0 srcW).getD (mW, 0)).2 ∧
    ptTranslate ((fromElfTramp ((fromElfTramp mW 0 srcW).getD (mW, 0)).1 17
        srcW).getD (mW, 0)).1.mem 17 (TRAMPOLINE / PAGE_SIZE) =
      some (((fromElfTramp ((fromElfTramp mW 0 srcW).getD (mW, 0)).1 17
        srcW).getD (mW, 0)).2, 11) ∧
    ((fromElfTramp ((fromElfTramp mW 0 srcW).getD (mW, 0)).1 17 srcW).getD
      (mW, 0)).2 ≠ ((fromElfTramp mW 0 srcW).getD (mW, 0)).2 :=
  c2_trampoline_per_space
    (WFpt_empty mW 0 (fun t i => rfl) (by decide) (Or.inl (by decide)))
    (fun i => rfl) (Or.inr (Or.inl (by decide)))
    (notTable_of_zero_root (fun i => rfl) (by decide))
    (isSome_eq_some_getD _ (mW, 0) (by decide))
    (isSome_eq_some_getD _ (mW, 0) (by decide))

/-- Counterexample to the original claim C2: the trampoline frames of
two address spaces built in sequence are distinct — the trampoline is a
per-address-space copy, not a shared frame. -/
theorem c2_shared_frame_counterexample :
    (fromElfTramp mW 0 srcW).isSome = true ∧
    (fromElfTramp ((fromElfTramp mW 0 srcW).getD (mW, 0)).1 17 srcW).isSome = true ∧
    (fromElfTramp ((fromElfTramp mW 0 srcW).getD (mW, 0)).1 17 srcW).map Prod.snd ≠
      (fromElfTramp mW 0 srcW).map Prod.snd := by
  refine ⟨by decide, by decide, by decide⟩

/-- The byte sequence writer does not touch other frames or offsets
outside the written window. -/
theorem writeSeq_out (p : Nat) :
    ∀ (l : List Nat) (f : Nat → Nat → Nat) (off q j : Nat),
      (q ≠ p ∨ j < off ∨ off + l.length ≤ j) →
      writeSeq p f off l q j = f q j := by
  intro l
  induction l with
  | nil =>
    intro f off q j hg
    rfl
  | cons b rest ih =>
    intro f off q j hg
    show writeSeq p (upd2 f p off b) (off + 1) rest q j = f q j
    have hrest : q ≠ p ∨ j < off + 1 ∨ (off + 1) + rest.length ≤ j := by
      rcases hg with hg | hg | hg
      · exact Or.inl hg
      · exact Or.inr (Or.inl (by omega))
      · refine Or.inr (Or.inr ?_)
        simp only [List.length_cons] at hg
        omega
    rw [ih (upd2 f p off b) (off + 1) q j hrest]
    refine upd2_ne _ _ _ _ _ _ ?_
    intro hc
    rcases hg with hg | hg | hg
    · exact hg hc.1
    · omega
    · simp only [List.length_cons] at hg
      omega

/-- The byte sequence writer fills offsets off, off+1, ... of frame p
with the list's bytes. -/
theorem writeSeq_at (p : Nat) :
    ∀ (l : List Nat) (f : Nat → Nat → Nat) (off k : Nat) (hk : k < l.length),
      writeSeq p f off l p (off + k) = l.get ⟨k, hk⟩ := by
  intro l
  induction l with
  | nil =>
    intro f off k hk
    cases hk
  | cons b rest ih =>
    intro f off k hk
    cases k with
    | zero =>
      show writeSeq p (upd2 f p off b) (off + 1) rest p (off + 0) = b
      rw [writeSeq_out p rest (upd2 f p off b) (off + 1) p (off + 0)
        (Or.inr (Or.inl (by omega)))]
      have hoz : off + 0 = off := by omega
      rw [hoz, upd2_same]
    | succ k =>
      show writeSeq p (upd2 f p off b) (off + 1) rest p (off + (k + 1)) =
        rest.get ⟨k, by simpa using hk⟩
      have hsh : off + (k + 1) = (off + 1) + k := by omega
      rw [hsh]
      exact ih (upd2 f p off b) (off + 1) k (by simpa using hk)

/-- A successful PageTable::map leaves the byte view of every Safe frame
unchanged: only the freshly allocated table frames are zeroed. -/
theorem ptMap_bytes_safe {st : Machine} {root v p f : Nat} {st2 : Machine} {q : Nat}
    (hsr : Safe st root) (h : ptMap st root v p f = some st2) (hsq : Safe st q) :
    ∀ j, st2.bytes q j = st.bytes q j := by
  obtain ⟨t1, t2, M2, hmem, hv2, hcase⟩ := ptMap_elim hsr h
  intro j
  rcases hcase with ⟨_, _, _, _, _, _, hbyt, _⟩ |
    ⟨_, _, _, stB, hallocB, _, _, hbyt, _⟩ |
    ⟨_, stA, stB, hallocA, hallocB, _, _, hbyt, _⟩
  · rw [hbyt]
  · obtain ⟨_, _, _, _, hbytB, _⟩ := frameAlloc_spec hallocB
    rw [hbyt, hbytB, zeroPage_ne _ _ _ _ (frameAlloc_fresh hallocB hsq)]
  · obtain ⟨_, _, _, _, hbytA, _⟩ := frameAlloc_spec hallocA
    obtain ⟨_, _, _, _, hbytB, _⟩ := frameAlloc_spec hallocB
    have hqt2 : q ≠ t2 :=
      frameAlloc_fresh hallocB
        ((safe_memUpd _ _ _).mpr (frameAlloc_safe_mono hallocA hsq))
    rw [hbyt, hbytB]
    show zeroPage (({ stA with
      mem := upd2 stA.mem root (idx0 v) (pteNew t1 1) }).bytes) t2 q j = st.bytes q j
    rw [zeroPage_ne _ _ _ _ hqt2]
    show stA.bytes q j = st.bytes q j
    rw [hbytA, zeroPage_ne _ _ _ _ (frameAlloc_fresh hallocA hsq)]

/-- Claim C4, corrected: for a PT_LOAD segment with a sub-page-aligned
virtual address whose aligned range covers a single page (such as
vaddr=0x10078, filesz=0x200, memsz=0x400), from_elf maps exactly the one
page floor(vaddr/PAGE_SIZE) and copy_data writes the file bytes at
offset 0 of that page's frame — it ignores the sub-page offset of vaddr
— leaving all bytes from file_size up to the page end zero.  The
following page is not mapped. -/
theorem c4_segment_copy {s : MS} {vaddr memsz perm : Nat} {data : List Nat}
    {env : CopyEnv} {s' : MS}
    (hWF : WFpt s.machine s.root) (hperm : perm < 256)
    (hv27 : vaddr / PAGE_SIZE + 1 < 2 ^ 27)
    (hnone : ptTranslate s.machine.mem s.root (vaddr / PAGE_SIZE) = none)
    (hnone2 : ptTranslate s.machine.mem s.root (vaddr / PAGE_SIZE + 1) = none)
    (henvk : env.ekernel = 0) (henvh : env.heapStart = 0)
    (hone : alignUp (vaddr + memsz) = (vaddr / PAGE_SIZE + 1) * PAGE_SIZE)
    (hlen : data.length ≤ PAGE_SIZE)
    (h : fromElfSegment s vaddr memsz perm data env = some s') :
    ∃ p,
      s'.root = s.root ∧
      s'.areas = s.areas ++
        [⟨vaddr / PAGE_SIZE, vaddr / PAGE_SIZE + 1, [(vaddr / PAGE_SIZE, p)],
          true, perm⟩] ∧
      ptTranslate s'.machine.mem s.root (vaddr / PAGE_SIZE) =
        some (p, perm ||| 1) ∧
      (∀ k, (hk : k < data.length) → s'.machine.bytes p k = data.get ⟨k, hk⟩) ∧
      (∀ j, data.length ≤ j → s'.machine.bytes p j = 0) ∧
      ptTranslate s'.machine.mem s.root (vaddr / PAGE_SIZE + 1) = none := by
  have hPS : PAGE_SIZE = 4096 := rfl
  unfold fromElfSegment at h
  simp only [msPush, areaMap, mkArea] at h
  rw [hone] at h
  have hdiv : (vaddr / PAGE_SIZE + 1) * PAGE_SIZE / PAGE_SIZE = vaddr / PAGE_SIZE + 1 := by
    rw [hPS]
    omega
  rw [hdiv] at h
  have hsub : vaddr / PAGE_SIZE + 1 - vaddr / PAGE_SIZE = 1 := by omega
  rw [hsub] at h
  simp only [mapRange] at h
  cases hm : mapOne s.machine s.root
      ⟨vaddr / PAGE_SIZE, vaddr / PAGE_SIZE + 1, [], true, perm⟩ (vaddr / PAGE_SIZE) with
  | none =>
    rw [hm] at h
    cases h
  | some pr =>
    obtain ⟨stm, am⟩ := pr
    rw [hm] at h
    dsimp only at h
    obtain ⟨p, st1, halloc, hmap, ham⟩ :=
      @mapOne_fresh_framed s.machine s.root
        ⟨vaddr / PAGE_SIZE, vaddr / PAGE_SIZE + 1, [], true, perm⟩
        (vaddr / PAGE_SIZE) stm am rfl hnone rfl hm
    have hWFa : WFpt st1 s.root := frameAlloc_WF hWF halloc
    have hWFt : WFpt (trackFrame st1 p) s.root := (WFpt_trackFrame _ _ _).mpr hWFa
    have hMAp : MappedAt stm.mem s.root (vaddr / PAGE_SIZE)
        (pteNew p (perm ||| 1)) := ptMap_mappedAt hWFt hmap
    have hplt : p < 2 ^ 44 := by
      obtain ⟨ha, hb, _⟩ := frameAlloc_spec halloc
      obtain ⟨hc, _⟩ := hWF
      omega
    have htr : ptTranslate stm.mem s.root (vaddr / PAGE_SIZE) =
        some (p, perm ||| 1) := by
      have hx := mappedAt_translate hMAp (pteValid_pteNew_or1 p perm)
      rw [ptePpn_pteNew p _ hplt, pteFlags_pteNew,
        Nat.mod_eq_of_lt (lor_one_lt perm hperm)] at hx
      exact hx
    have hnone2m : ptTranslate stm.mem s.root (vaddr / PAGE_SIZE + 1) = none := by
      have h1 : ptTranslate st1.mem s.root (vaddr / PAGE_SIZE + 1) = none :=
        frameAlloc_translate_none hWF halloc hnone2
      have h2 : ptTranslate (trackFrame st1 p).mem s.root (vaddr / PAGE_SIZE + 1) =
          none := by
        rw [trackFrame_mem]
        exact h1
      exact ptMap_translate_none_other hWFt hmap
        (triple_ne_of_ne hv27 (by omega) (by omega)) h2
    have hbz : ∀ j, stm.bytes p j = 0 := by
      intro j
      have hx := ptMap_bytes_safe hWFt.2.1 hmap
        ((safe_trackFrame _ _ _).mpr (markedD_safe (frameAlloc_marked_new halloc))) j
      rw [hx]
      show zeroPage st1.bytes p p j = 0
      rw [zeroPage_same]
    cases hcd : copyData stm s.root am data env with
    | none =>
      rw [hcd] at h
      cases h
    | some st2 =>
      rw [hcd] at h
      dsimp only at h
      simp only [copyData] at hcd
      have hamF : am.framed = true := by
        rw [ham]
      have hamS : am.startVpn = vaddr / PAGE_SIZE := by
        rw [ham]
      rw [hamF] at hcd
      simp only [if_true] at hcd
      rw [hamS] at hcd
      simp only [copyLoop] at hcd
      rw [htr] at hcd
      dsimp only at hcd
      have hc1 : ¬(env.stext ≤ p * PAGE_SIZE ∧ p * PAGE_SIZE < env.ekernel) := by
        rw [henvk]
        intro hc
        omega
      have hc2 : ¬(p * PAGE_SIZE < env.heapStart) := by
        rw [henvh]
        omega
      rw [if_neg hc1, if_neg hc2, if_pos (by omega : data.length ≤ 0 + PAGE_SIZE)] at hcd
      have hst2 := (Option.some.inj hcd).symm
      have hdt : (data.drop 0).take PAGE_SIZE = data := by
        rw [List.drop_zero, List.take_of_length_le hlen]
      rw [hdt] at hst2
      have hsfin := Option.some.inj h
      subst hsfin
      have hm2 : st2.mem = stm.mem := by
        rw [hst2]
      have hb2 : st2.bytes = writeSeq p stm.bytes 0 data := by
        rw [hst2]
      refine ⟨p, rfl, ?_, ?_, ?_, ?_, ?_⟩
      · show s.areas ++ [am] = _
        rw [ham]
        rfl
      · show ptTranslate st2.mem s.root (vaddr / PAGE_SIZE) = some (p, perm ||| 1)
        rw [hm2]
        exact htr
      · intro k hk
        show st2.bytes p k = data.get ⟨k, hk⟩
        rw [hb2]
        have hx := writeSeq_at p data stm.bytes 0 k hk
        rw [Nat.zero_add] at hx
        exact hx
      · intro j hj
        show st2.bytes p j = 0
        rw [hb2]
        rw [writeSeq_out p data stm.bytes 0 p j (Or.inr (Or.inr (by omega)))]
        exact hbz j
      · show ptTranslate st2.mem s.root (vaddr / PAGE_SIZE + 1) = none
        rw [hm2]
        exact hnone2m

set_option maxRecDepth 16384 in
/-- Concrete witness for the corrected claim C4: the example segment
(vaddr 0x10078, memsz 0x400, 0x200 file bytes) pushed on the bare
witness machine maps exactly page 0x10 and copies the file bytes at
frame offset 0. -/
theorem c4_segment_copy_witness :
    ∃ p,
      c4s.root = (msNewBare mW 0).root ∧
      c4s.areas = (msNewBare mW 0).areas ++
        [⟨0x10078 / PAGE_SIZE, 0x10078 / PAGE_SIZE + 1,
          [(0x10078 / PAGE_SIZE, p)], true, 26⟩] ∧
      ptTranslate c4s.machine.mem (msNewBare mW 0).root (0x10078 / PAGE_SIZE) =
        some (p, 26 ||| 1) ∧
      (∀ k, (hk : k < c4data.length) →
        c4s.machine.bytes p k = c4data.get ⟨k, hk⟩) ∧
      (∀ j, c4data.length ≤ j → c4s.machine.bytes p j = 0) ∧
      ptTranslate c4s.machine.mem (msNewBare mW 0).root
        (0x10078 / PAGE_SIZE + 1) = none :=
  c4_segment_copy
    (WFpt_empty mW 0 (fun t i => rfl) (by decide) (Or.inl (by decide)))
    (by decide) (by decide) (by decide) (by decide) rfl rfl (by decide)
    (by decide)
    (isSome_eq_some_getD
      (fromElfSegment (msNewBare mW 0) 0x10078 0x400 26 c4data envW)
      (msNewBare mW 0) (by decide))

set_option maxRecDepth 16384 in
/-- Counterexample to the original claim C4: on the example segment the
push succeeds, yet byte 0 of the mapped frame holds file data (the claim
says bytes below offset 0x78 stay zero), byte 0x250 is zero (the claim
says bytes 0x78..0x278 hold the file contents), and the second page 0x11
is not mapped at all (the claim says pages 0x10000 and 0x11000 are both
mapped). -/
theorem c4_subpage_offset_counterexample :
    (fromElfSegment (msNewBare mW 0) 0x10078 0x400 26 c4data envW).isSome
      = true ∧
    c4s.machine.bytes c4p 0 = 5 ∧
    c4s.machine.bytes c4p 0x250 = 0 ∧
    ptTranslate c4s.machine.mem 0 0x11 = none := by
  refine ⟨by decide, ?_, ?_, by decide⟩
  · decide
  · decide

theorem userBytes_append (st : Machine) (root va a b : Nat) :
    userBytes st root va (a + b) =
      userBytes st root va a ++ userBytes st root (va + a) b := by
  unfold userBytes
  rw [List.range_add, List.map_append, List.map_map]
  congr 1
  apply List.map_congr_left
  intro k _
  show byteAt st root (va + (a + k)) = byteAt st root (va + a + k)
  rw [Nat.add_assoc]

theorem tbb_partial (st : Machine) (root : Nat) :
    ∀ fuel m va remaining, remaining ≤ fuel → m < remaining →
    (∀ k, k < m →
      (ptTranslate st.mem root ((va + k) / PAGE_SIZE)).isSome = true) →
    ((va + m) % PAGE_SIZE = 0 ∨ m = 0) →
    ptTranslate st.mem root ((va + m) / PAGE_SIZE) = none →
    tbbSum (tbb st root va remaining fuel) = m ∧
    consoleOut st (tbb st root va remaining fuel) = userBytes st root va m := by
  intro fuel
  induction fuel with
  | zero =>
    intro m va remaining hf hm _ _ _
    omega
  | succ fuel ih =>
    intro m va remaining hf hm hmap hal hun
    have hr0 : ¬ remaining = 0 := by omega
    by_cases hm0 : m = 0
    · subst hm0
      rw [Nat.add_zero] at hun
      simp only [tbb, if_neg hr0, hun]
      exact ⟨rfl, rfl⟩
    · have hmpos : 0 < m := Nat.pos_of_ne_zero hm0
      have halm : (va + m) % PAGE_SIZE = 0 := by
        rcases hal with h | h
        · exact h
        · omega
      have hs0 := hmap 0 hmpos
      rw [Nat.add_zero] at hs0
      cases htr : ptTranslate st.mem root (va / PAGE_SIZE) with
      | none =>
        rw [htr] at hs0
        cases hs0
      | some pr =>
        obtain ⟨ppn, fl⟩ := pr
        have hPS : PAGE_SIZE = 4096 := rfl
        have hnm : PAGE_SIZE - va % PAGE_SIZE ≤ m := by
          rw [hPS] at halm ⊢
          omega
        have hmin : min (PAGE_SIZE - va % PAGE_SIZE) remaining =
            PAGE_SIZE - va % PAGE_SIZE := Nat.min_eq_left (by omega)
        have heq : va + (PAGE_SIZE - va % PAGE_SIZE) +
            (m - (PAGE_SIZE - va % PAGE_SIZE)) = va + m := by
          rw [hPS] at hnm ⊢
          omega
        have hrec := ih (m - (PAGE_SIZE - va % PAGE_SIZE))
          (va + (PAGE_SIZE - va % PAGE_SIZE))
          (remaining - (PAGE_SIZE - va % PAGE_SIZE))
          (by rw [hPS]; rw [hPS] at hnm; omega)
          (by rw [hPS]; rw [hPS] at hnm; omega)
          (fun k hk => by
            have h := hmap ((PAGE_SIZE - va % PAGE_SIZE) + k) (by omega)
            rw [← Nat.add_assoc] at h
            exact h)
          (Or.inl (by rw [heq]; exact halm))
          (by rw [heq]; exact hun)
        simp only [tbb, if_neg hr0, htr, hmin]
        simp only [tbbSum, consoleOut]
        constructor
        · rw [hrec.1]
          omega
        · rw [hrec.2]
          have hsplit : m = (PAGE_SIZE - va % PAGE_SIZE) +
              (m - (PAGE_SIZE - va % PAGE_SIZE)) := by omega
          conv_rhs => rw [hsplit]
          rw [userBytes_append]
          congr 1
          unfold userBytes
          apply List.map_congr_left
          intro k hk
          rw [List.mem_range] at hk
          show st.bytes ppn (va % PAGE_SIZE + k) = byteAt st root (va + k)
          have hdiv : (va + k) / PAGE_SIZE = va / PAGE_SIZE := by
            rw [hPS] at hk ⊢
            omega
          have hmod : (va + k) % PAGE_SIZE = va % PAGE_SIZE + k := by
            rw [hPS] at hk ⊢
            omega
          unfold byteAt
          rw [hdiv, hmod, htr]
          rfl

/-- Claim C10: a sys_write on fd 1 whose buffer has only a proper prefix
of m bytes mapped (the page holding byte m is unmapped, and byte m sits
at the start of that page) does not return -1: it returns exactly m and
writes exactly the m mapped bytes, read through the page table, to the
console. -/
theorem c10_write_partial_prefix {s : MS} {bufVa len m : Nat}
    (hm : m < len)
    (hmap : ∀ k, k < m →
      (ptTranslate s.machine.mem s.root ((bufVa + k) / PAGE_SIZE)).isSome = true)
    (hal : (bufVa + m) % PAGE_SIZE = 0 ∨ m = 0)
    (hun : ptTranslate s.machine.mem s.root ((bufVa + m) / PAGE_SIZE) = none) :
    (sysWrite s 1 bufVa len).1 = Int.ofNat m ∧
    (sysWrite s 1 bufVa len).1 ≠ -1 ∧
    (sysWrite s 1 bufVa len).2 = userBytes s.machine s.root bufVa m := by
  have h := tbb_partial s.machine s.root len m bufVa len (Nat.le_refl len)
    hm hmap hal hun
  unfold sysWrite
  rw [if_pos rfl]
  refine ⟨?_, ?_, ?_⟩
  · show Int.ofNat (tbbSum (tbb s.machine s.root bufVa len len)) = Int.ofNat m
    rw [h.1]
  · show Int.ofNat (tbbSum (tbb s.machine s.root bufVa len len)) ≠ -1
    simp
  · exact h.2

set_option maxRecDepth 8192 in
/-- Concrete witness for claim C10: on the witness state with the single
page [4096, 8192) mapped, a 10-byte write starting 6 bytes before the
end of the mapped page returns 6 and emits the 6 mapped bytes. -/
theorem c10_write_partial_prefix_witness :
    6 < 10 ∧
    ((sysWrite c10s 1 8186 10).1 = Int.ofNat 6 ∧
     (sysWrite c10s 1 8186 10).1 ≠ -1 ∧
     (sysWrite c10s 1 8186 10).2 = userBytes c10s.machine c10s.root 8186 6) :=
  ⟨by decide,
   c10_write_partial_prefix (by decide) (by decide) (Or.inl (by decide))
     (by decide)⟩

end Chronos
